import Mathlib

/-! # Builtin make functions of kati (`func.go`)

A shallow embedding of the text and list builtins of `func.go`.

* A Go byte string (`[]byte`, `string`) is a list of characters, one character standing for
  one rune of the text.
* An `io.Writer` is the byte string written so far; writing appends to it.
* An argument expression (`Value`) is given by its source text and by the bytes it expands
  to; `ev.Value(v)` reads the latter.
* A fatal diagnostic (`panic`, `Error`) is the `error` branch of `Except String`.
* Where it matters when an argument is expanded and what the expansion does to the variables
  (`call`, `foreach`, `if`, `and`, `or`, and the failures of `subst`, `patsubst`, `word`,
  `wordlist`), an argument is an `Expr`, whose expansion is a step of `EvalM`: the state of
  an evaluation is the writer, the namespace and the log of the expansions asked for, and it
  stays behind when the evaluation panics.
-/

namespace Kati

/-- A byte string: Go `[]byte` or `string`. -/
abbrev Bytes := List Char

deriving instance DecidableEq for Except

/-! ## Values, the evaluator and Go runtime primitives -/

/-- An argument expression of a call site: `text` is what `v.String()` prints, `bytes` what
the expression expands to. -/
structure Value where
  text : String
  bytes : Bytes
deriving DecidableEq, Repr

/-- A literal expression: it expands to its own text. -/
def Value.lit (s : String) : Value :=
  { text := s, bytes := s.toList }

/-- The fields of Go `Evaluator` that `func.go` reads for its diagnostics. -/
structure Evaluator where
  filename : String
  lineno : Nat
deriving DecidableEq, Repr

/-- Go `ev.Value(v)`: the expansion of `v`. -/
def Evaluator.Value (_ev : Evaluator) (v : Value) : Bytes :=
  v.bytes

/-- Modelled from the spec: `Error` of `log.go`, which is not part of the sources: a fatal
diagnostic "prefixed with `file:line:`" that aborts the evaluation. -/
def Error {α : Type} (filename : String) (lineno : Nat) (msg : String) : Except String α :=
  .error (filename ++ ":" ++ toString lineno ++ ": " ++ msg)

/-- Go index expression `l[i]` on a slice: a run-time panic outside `0 ≤ i < len(l)`. -/
def goIndex {α : Type} (l : List α) (i : Int) : Except String α :=
  if 0 ≤ i then
    match l[i.toNat]? with
    | some x => .ok x
    | none => .error "runtime error: index out of range"
  else .error "runtime error: index out of range"

/-- Go slice expression `l[lo:hi]`: a run-time panic unless `0 ≤ lo ≤ hi ≤ len(l)`. -/
def goSlice {α : Type} (l : List α) (lo hi : Int) : Except String (List α) :=
  if 0 ≤ lo ∧ lo ≤ hi ∧ hi ≤ (l.length : Int) then .ok ((l.take hi.toNat).drop lo.toNat)
  else .error "runtime error: slice bounds out of range"

/-- Go `unicode.IsSpace`. -/
def unicodeIsSpace (c : Char) : Bool :=
  c == '\t' || c == '\n' || c.toNat == 0x0B || c.toNat == 0x0C || c == '\r' || c == ' ' ||
  c.toNat == 0x85 || c.toNat == 0xA0 || c.toNat == 0x1680 ||
  (0x2000 ≤ c.toNat && c.toNat ≤ 0x200A) || c.toNat == 0x2028 || c.toNat == 0x2029 ||
  c.toNat == 0x202F || c.toNat == 0x205F || c.toNat == 0x3000

/-- Go `bytes.TrimSpace`: drops leading and trailing white space. -/
def bytesTrimSpace (s : Bytes) : Bytes :=
  ((s.dropWhile unicodeIsSpace).reverse.dropWhile unicodeIsSpace).reverse

/-- The value of a run of decimal digits, most significant first. -/
def decimalValue (ds : Bytes) : Nat :=
  ds.foldl (fun n ch => n * 10 + (ch.toNat - '0'.toNat)) 0

/-- Go `strconv.Atoi` for a 64-bit `int`: an optional sign, then one or more decimal digits;
`none` stands for a non-nil `err` (syntax or range). -/
def strconvAtoi (s : Bytes) : Option Int :=
  let neg := s.head? == some '-'
  let ds := if s.head? == some '-' || s.head? == some '+' then s.drop 1 else s
  if ds.isEmpty || !ds.all (fun ch => '0' ≤ ch && ch ≤ '9') then none
  else
    let n : Int := if neg then -(decimalValue ds : Int) else (decimalValue ds : Int)
    if n < -(2 ^ 63 : Int) ∨ (2 ^ 63 : Int) - 1 < n then none else some n

/-! ## Helpers of the repository that live outside `func.go` -/

/-- Modelled from the spec: the whitespace test of `split-words` (`strutil.go` is not part of
the sources): "ASCII whitespace (space, tab, newline)". -/
def isSpaceByte (c : Char) : Bool :=
  c == ' ' || c == '\t' || c == '\n'

/-- The scanning loop of `splitSpacesBytes`: `cur` is the token read so far. -/
def splitSpacesAux : Bytes → Bytes → List Bytes
  | cur, [] => if cur = [] then [] else [cur]
  | cur, c :: rest =>
    if isSpaceByte c then
      if cur = [] then splitSpacesAux [] rest else cur :: splitSpacesAux [] rest
    else splitSpacesAux (cur ++ [c]) rest

/-- Modelled from the spec: `splitSpacesBytes` of `strutil.go`, which is not part of the
sources: "splits on maximal runs of ASCII whitespace (space, tab, newline), discards empty
tokens, preserves left-to-right order". -/
def splitSpacesBytes (s : Bytes) : List Bytes :=
  splitSpacesAux [] s

/-- Modelled from the spec: `splitSpaces` of `strutil.go`, the `string` twin of
`splitSpacesBytes`; the spec has one `split-words` for both. -/
def splitSpaces (s : Bytes) : List Bytes :=
  splitSpacesAux [] s

/-- Modelled from the spec: `matchPatternBytes` of `strutil.go`, which is not part of the
sources: "if pattern has no `%`, true iff byte-equal to word. If pattern has one `%` (prefix
`P1` + suffix `P2`), true iff word starts with `P1`, ends with `P2`, and
`len(word) >= len(P1)+len(P2)`"; "only the first is treated as wildcard". -/
def matchPatternBytes (pat str : Bytes) : Bool :=
  if pat.contains '%' then
    let p1 := pat.takeWhile (fun c => c != '%')
    let p2 := (pat.dropWhile (fun c => c != '%')).drop 1
    p1.isPrefixOf str && p2.isSuffixOf str && decide (p1.length + p2.length ≤ str.length)
  else
    pat == str

/-! ## `assertArity` and the space separated values writer -/

/-- The diagnostic of `assertArity`:
`fmt.Sprintf("*** insufficient number of arguments (%d) to function \x60%s\x27.", n, name)`. -/
def arityMessage (name : String) (n : Nat) : String :=
  "*** insufficient number of arguments (" ++ toString n ++ ") to function \x60" ++ name ++ "\x27."

/-- Go `assertArity(name, req, n)`: panics when `n < req`. -/
def assertArity (name : String) (req n : Nat) : Except String Unit :=
  if n < req then .error (arityMessage name n) else .ok ()

/-- Go `ssvWriter`: the underlying writer and the `needsSpace` flag. -/
structure ssvWriter where
  w : Bytes
  needsSpace : Bool
deriving DecidableEq, Repr

/-- Go `(*ssvWriter).Write`. -/
def ssvWriter.Write (sw : ssvWriter) (b : Bytes) : ssvWriter :=
  { w := (if sw.needsSpace then sw.w ++ [' '] else sw.w) ++ b, needsSpace := true }

/-- Go `(*ssvWriter).WriteString`. -/
def ssvWriter.WriteString (sw : ssvWriter) (s : Bytes) : ssvWriter :=
  sw.Write s

/-- A write on the underlying writer `w` that bypasses the `ssvWriter` (`w.Write(b)` while
`sw` wraps `w`). -/
def ssvWriter.rawWrite (sw : ssvWriter) (b : Bytes) : ssvWriter :=
  { sw with w := sw.w ++ b }

/-- Go `numericValueForFunc`: the argument, trimmed, parsed by `strconv.Atoi`; a parse error
or a negative number is fatal. -/
def numericValueForFunc (ev : Evaluator) (v : Value) (funcName nth : String) :
    Except String Int :=
  let a := bytesTrimSpace (ev.Value v)
  let fatal : Except String Int := Error ev.filename ev.lineno
    ("*** non-numeric " ++ nth ++ " argument to \"" ++ funcName ++ "\" function: \"" ++
      String.mk a ++ "\".")
  match strconvAtoi a with
  | none => fatal
  | some n => if n < 0 then fatal else .ok n

/-! ## `filter` and `filter-out` -/

/-- Go `(*funcFilter).Eval`: the pattern loop has no `break`, so a text is written once for
each pattern it matches. -/
def funcFilter.Eval (args : List Value) (w : Bytes) (ev : Evaluator) : Except String Bytes := do
  assertArity "filter" 2 args.length
  let patterns := splitSpacesBytes (ev.Value (← goIndex args 0))
  let texts := splitSpacesBytes (ev.Value (← goIndex args 1))
  let sw : ssvWriter := { w := w, needsSpace := false }
  let sw := texts.foldl (fun sw text =>
    patterns.foldl (fun sw pat =>
      if matchPatternBytes pat text then sw.Write text else sw) sw) sw
  pure sw.w

/-- Go `(*funcFilterOut).Eval`: `continue Loop` leaves the pattern loop at the first match,
and the text is written when the pattern loop ends without one. -/
def funcFilterOut.Eval (args : List Value) (w : Bytes) (ev : Evaluator) :
    Except String Bytes := do
  assertArity "filter-out" 2 args.length
  let patterns := splitSpacesBytes (ev.Value (← goIndex args 0))
  let texts := splitSpacesBytes (ev.Value (← goIndex args 1))
  let sw : ssvWriter := { w := w, needsSpace := false }
  let sw := texts.foldl (fun sw text =>
    if patterns.any (fun pat => matchPatternBytes pat text) then sw else sw.Write text) sw
  pure sw.w

/-! ## `sort` -/

/-- Go string comparison `a < b`: lexicographic on the bytes, a proper prefix first. -/
def strLess : Bytes → Bytes → Bool
  | [], [] => false
  | [], _ :: _ => true
  | _ :: _, [] => false
  | a :: as, b :: bs => if a < b then true else if b < a then false else strLess as bs

/-- Insertion of `x` into a sorted list, before the first element greater than `x`. -/
def insertString (x : Bytes) : List Bytes → List Bytes
  | [] => [x]
  | y :: ys => if strLess x y then x :: y :: ys else y :: insertString x ys

/-- Go `sort.Strings`: the strings in increasing order. Equal strings are indistinguishable,
so the result does not depend on the library's algorithm; insertion sort computes it. -/
def sortStrings (toks : List Bytes) : List Bytes :=
  toks.foldr insertString []

/-- The loop of `(*funcSort).Eval` that removes duplicate words: the state is the writer and
`prev`. -/
def sortWriteLoop (toks : List Bytes) (sw : ssvWriter) (prev : Bytes) : ssvWriter × Bytes :=
  toks.foldl (fun st tok => if st.2 ≠ tok then (st.1.WriteString tok, tok) else st) (sw, prev)

/-- Go `(*funcSort).Eval`. -/
def funcSort.Eval (args : List Value) (w : Bytes) (ev : Evaluator) : Except String Bytes := do
  assertArity "sort" 1 args.length
  let toks := splitSpaces (ev.Value (← goIndex args 0))
  let toks := sortStrings toks
  let prev : Bytes := []
  let sw : ssvWriter := { w := w, needsSpace := false }
  pure (sortWriteLoop toks sw prev).1.w

/-! ## `word` and `wordlist` -/

/-- Go `(*funcWord).Eval`. -/
def funcWord.Eval (args : List Value) (w : Bytes) (ev : Evaluator) : Except String Bytes := do
  assertArity "word" 2 args.length
  let index ← numericValueForFunc ev (← goIndex args 0) "word" "first"
  if index = 0 then
    Error ev.filename ev.lineno "*** first argument to \"word\" function must be greater than 0."
  else
    let toks := splitSpacesBytes (ev.Value (← goIndex args 1))
    if index - 1 ≥ (toks.length : Int) then
      pure w
    else
      pure (w ++ (← goIndex toks (index - 1)))

/-- Go `(*funcWordlist).Eval`. -/
def funcWordlist.Eval (args : List Value) (w : Bytes) (ev : Evaluator) :
    Except String Bytes := do
  assertArity "wordlist" 3 args.length
  let arg0 ← goIndex args 0
  let si ← numericValueForFunc ev arg0 "wordlist" "first"
  if si = 0 then
    Error ev.filename ev.lineno
      ("*** invalid first argument to \"wordlist\" function: " ++ arg0.text)
  else
    let arg1 ← goIndex args 1
    let ei ← numericValueForFunc ev arg1 "wordlist" "second"
    if ei = 0 then
      Error ev.filename ev.lineno
        ("*** invalid second argument to \"wordlist\" function: " ++ arg1.text)
    else
      let toks := splitSpacesBytes (ev.Value (← goIndex args 2))
      if si - 1 ≥ (toks.length : Int) then
        pure w
      else
        let ei : Int := if ei - 1 ≥ (toks.length : Int) then (toks.length : Int) else ei
        let sw : ssvWriter := { w := w, needsSpace := false }
        let sw := (← goSlice toks (si - 1) ei).foldl (fun sw t => sw.Write t) sw
        pure sw.w

/-! ## `join`, `addsuffix`, `addprefix` -/

/-- The first loop of `(*funcJoin).Eval`, `for i, v := range list1`, from index `i` on. -/
def joinLoop (list2 : List Bytes) : List Bytes → Nat → ssvWriter → ssvWriter
  | [], _, sw => sw
  | v :: rest, i, sw =>
    if i < list2.length then
      joinLoop list2 rest (i + 1) ((sw.Write v).rawWrite (list2.getD i []))
    else
      joinLoop list2 rest (i + 1) (sw.Write v)

/-- Go `(*funcJoin).Eval`. -/
def funcJoin.Eval (args : List Value) (w : Bytes) (ev : Evaluator) : Except String Bytes := do
  assertArity "join" 2 args.length
  let list1 := splitSpacesBytes (ev.Value (← goIndex args 0))
  let list2 := splitSpacesBytes (ev.Value (← goIndex args 1))
  let sw : ssvWriter := { w := w, needsSpace := false }
  let sw := joinLoop list2 list1 0 sw
  if list2.length > list1.length then
    let sw := (← goSlice list2 list1.length list2.length).foldl (fun sw v => sw.Write v) sw
    pure sw.w
  else
    pure sw.w

/-- Go `(*funcAddsuffix).Eval`. -/
def funcAddsuffix.Eval (args : List Value) (w : Bytes) (ev : Evaluator) :
    Except String Bytes := do
  assertArity "addsuffix" 2 args.length
  let suf := ev.Value (← goIndex args 0)
  let toks := splitSpacesBytes (ev.Value (← goIndex args 1))
  let sw : ssvWriter := { w := w, needsSpace := false }
  let sw := toks.foldl (fun sw tok => (sw.Write tok).rawWrite suf) sw
  pure sw.w

/-- Go `(*funcAddprefix).Eval`. -/
def funcAddprefix.Eval (args : List Value) (w : Bytes) (ev : Evaluator) :
    Except String Bytes := do
  assertArity "addprefix" 2 args.length
  let pre := ev.Value (← goIndex args 0)
  let toks := splitSpacesBytes (ev.Value (← goIndex args 1))
  let sw : ssvWriter := { w := w, needsSpace := false }
  let sw := toks.foldl (fun sw tok => (sw.Write pre).rawWrite tok) sw
  pure sw.w

/-! ## `subst` and Go `bytes.Replace` -/

/-- Go `bytes.Index(s, sep)`: the index of the first instance of `sep` in `s`; `none` stands
for `-1`. -/
def bytesIndex : Bytes → Bytes → Option Nat
  | [], sep => if sep.isEmpty then some 0 else none
  | c :: rest, sep =>
    if sep.isPrefixOf (c :: rest) then some 0 else (bytesIndex rest sep).map (· + 1)

/-- The loop of Go `bytes.Count` for a non-empty `sep`:
`for { i := Index(s, sep); if i == -1 { return n }; n++; s = s[i+len(sep):] }`.
`none` when the fuel runs out before the loop returns. -/
def bytesCountLoop (sep : Bytes) : Nat → Bytes → Nat → Option Nat
  | 0, _, _ => none
  | fuel + 1, s, n =>
    match bytesIndex s sep with
    | none => some n
    | some i => bytesCountLoop sep fuel (s.drop (i + sep.length)) (n + 1)

/-- Go `bytes.Count(s, sep)`: the number of non-overlapping instances of `sep` in `s`, and
the number of runes plus one for an empty `sep`. -/
def bytesCount (s sep : Bytes) : Option Nat :=
  if sep.isEmpty then some (s.length + 1) else bytesCountLoop sep (s.length + 1) s 0

/-- Go `w += copy(t[w:], x)` for a buffer `t` of length `cap` whose first `w` bytes are `acc`:
`copy` stops at the end of the buffer. -/
def copyInto (cap : Nat) (acc x : Bytes) : Bytes :=
  acc ++ x.take (cap - acc.length)

/-- The replacement loop of Go `bytes.Replace`, `for i := 0; i < n; i++`, with `todo = n - i`
iterations left, `rest = s[start:]` and `acc = t[0:w]`; after the loop the tail `s[start:]` is
copied and `t[0:w]` returned. -/
def replaceLoop (old new : Bytes) (cap : Nat) : Nat → Nat → Bytes → Bytes → Except String Bytes
  | 0, _, rest, acc => .ok (copyInto cap acc rest)
  | todo + 1, i, rest, acc =>
    if old.isEmpty then
      let wid := if i > 0 then (if rest.isEmpty then 0 else 1) else 0
      replaceLoop old new cap todo (i + 1) (rest.drop wid)
        (copyInto cap (copyInto cap acc (rest.take wid)) new)
    else
      match bytesIndex rest old with
      | none => .error "runtime error: slice bounds out of range"
      | some k =>
        replaceLoop old new cap todo (i + 1) (rest.drop (k + old.length))
          (copyInto cap (copyInto cap acc (rest.take k)) new)

/-- Go `bytes.Replace(s, old, new, n)`. -/
def bytesReplace (s old new : Bytes) (n : Int) : Except String Bytes :=
  match (if n ≠ 0 then bytesCount s old else some 0) with
  | none => .error "bytes.Count: out of fuel"
  | some m =>
    if m = 0 then .ok s
    else
      let n : Nat := if n < 0 ∨ (m : Int) < n then m else n.toNat
      let cap : Int := (s.length : Int) + (n : Int) * ((new.length : Int) - (old.length : Int))
      if cap < 0 then .error "runtime error: makeslice: len out of range"
      else replaceLoop old new cap.toNat n 0 s []

/-- Go `(*funcSubst).Eval`. -/
def funcSubst.Eval (args : List Value) (w : Bytes) (ev : Evaluator) : Except String Bytes := do
  assertArity "subst" 3 args.length
  let «from» := ev.Value (← goIndex args 0)
  let «to» := ev.Value (← goIndex args 1)
  let text := ev.Value (← goIndex args 2)
  pure (w ++ (← bytesReplace text «from» «to» (-1)))

/-- The reference replacement of the spec: "scans S left to right, replaces each leftmost
non-overlapping literal occurrence of F by T and continues scanning after the replaced
occurrence". `skip` counts the bytes of a replaced occurrence still to pass over. -/
def substScan (F T : Bytes) : Nat → Bytes → Bytes
  | _, [] => []
  | skip + 1, _ :: rest => substScan F T skip rest
  | 0, c :: rest =>
    if F.isPrefixOf (c :: rest) then T ++ substScan F T (F.length - 1) rest
    else c :: substScan F T 0 rest

/-- The reference replacement of the spec, from the start of `S`. -/
def substReference (F T S : Bytes) : Bytes :=
  substScan F T 0 S

/-! ## Reading the output -/

/-- Words "joined by single spaces": one space between neighbours, none before the first
word or after the last. -/
def joinSpaces (ws : List Bytes) : Bytes :=
  List.intercalate [' '] ws

/-- The words that the duplicate-removing loop of `sort` writes for the tokens `toks` when it
starts with `prev`. -/
def uniqWords : Bytes → List Bytes → List Bytes
  | _, [] => []
  | prev, tok :: rest => if prev ≠ tok then tok :: uniqWords tok rest else uniqWords prev rest

/-- A word as `split-words` yields them: not empty and free of whitespace. -/
def IsWord (t : Bytes) : Prop :=
  t ≠ [] ∧ ∀ c ∈ t, isSpaceByte c = false

/-- The words the first loop of `join` writes for the rest of `list1` and the rest of
`list2`: pairs while both last, then the words of `list1` alone. -/
def joinHead : List Bytes → List Bytes → List Bytes
  | [], _ => []
  | a :: as, [] => a :: joinHead as []
  | a :: as, b :: bs => (a ++ b) :: joinHead as bs

/-- All the words `join` writes: pairs while both lists last, then what is left of the longer
list. -/
def joinPairs : List Bytes → List Bytes → List Bytes
  | [], l2 => l2
  | a :: as, [] => a :: as
  | a :: as, b :: bs => (a ++ b) :: joinPairs as bs

/-! ## Variables and the scoped override (`newOldVar`, `restore`) -/

/-- Modelled from the spec: a variable of `var.go`, which is not part of the sources:
"`(name, value, origin, flavor)`"; the name is the key under which the namespace holds it. -/
structure Var where
  value : Bytes
  origin : String
  flavor : String
deriving DecidableEq, Repr

/-- Go `SimpleVar{value: value, origin: origin}`. -/
def SimpleVar (value : Bytes) (origin : String) : Var :=
  { value := value, origin := origin, flavor := "simple" }

/-- Modelled from the spec: the namespace `Vars` of `var.go`: "a single shared mapping from
name to Variable", "at most one Variable per name". A name that is not defined maps to
`none`. -/
def Vars : Type := String → Option Var

/-- Modelled from the spec: `Vars.Lookup`: the "current-value-or-undefined" of a name; `none`
stands for the undefined variable, for which `IsDefined()` is false. -/
def Vars.Lookup (vt : Vars) (name : String) : Option Var :=
  vt name

/-- Modelled from the spec: `Vars.Assign`: the name is bound to the variable. -/
def Vars.Assign (vt : Vars) (name : String) (v : Var) : Vars :=
  fun n => if n = name then some v else vt n

/-- Go `delete(vt, name)` on the map. -/
def Vars.delete (vt : Vars) (name : String) : Vars :=
  fun n => if n = name then none else vt n

/-- The namespace without any variable. -/
def Vars.empty : Vars :=
  fun _ => none

/-- Go `oldVar`. -/
structure oldVar where
  name : String
  value : Option Var
deriving DecidableEq, Repr

/-- Go `newOldVar(ev, name)`, on the namespace `ev.outVars`. -/
def newOldVar (outVars : Vars) (name : String) : oldVar :=
  { name := name, value := outVars.Lookup name }

/-- Go `(old oldVar).restore(ev)`, on the namespace `ev.outVars`. -/
def oldVar.restore (old : oldVar) (outVars : Vars) : Vars :=
  match old.value with
  | some v => outVars.Assign old.name v
  | none => outVars.delete old.name

/-- An assignment or a deletion of one name, as a step between a save and its restore. -/
inductive VarOp where
  | assign (v : Var)
  | delete
deriving DecidableEq, Repr

/-- The namespace after the operations `ops`, all on the name `name`, in order. -/
def applyVarOps (name : String) (ops : List VarOp) (vt : Vars) : Vars :=
  ops.foldl (fun vt op =>
    match op with
    | .assign v => vt.Assign name v
    | .delete => vt.delete name) vt

/-! ## Evaluation with the expansion of the arguments made explicit -/

/-- An argument expression that is expanded on demand: `text` is what `v.String()` prints,
`run` what its expansion returns and leaves in the namespace; an expansion may abort with a
fatal diagnostic. -/
structure Expr where
  text : Bytes
  run : Vars → Except String Bytes × Vars

/-- A literal expression: it expands to its own text and leaves the namespace alone. -/
def Expr.lit (s : String) : Expr :=
  { text := s.toList, run := fun vt => (.ok s.toList, vt) }

/-- What an evaluation works on and what stays behind when it panics: the writer `w` of the
call, the namespace `ev.outVars`, and the texts whose expansion was requested so far. -/
structure EvalState where
  w : Bytes
  outVars : Vars
  expanded : List Bytes

/-- A step of an evaluation: its result, or the fatal diagnostic, and the state it leaves. -/
def EvalM (α : Type) : Type := EvalState → Except String α × EvalState

/-- Sequencing: a fatal diagnostic ends the evaluation with the state reached so far. -/
def EvalM.bind {α β : Type} (m : EvalM α) (f : α → EvalM β) : EvalM β :=
  fun st =>
    match m st with
    | (.ok a, st1) => f a st1
    | (.error e, st1) => (.error e, st1)

instance : Monad EvalM where
  pure a := fun st => (.ok a, st)
  bind := EvalM.bind

/-- A pure step that may be a fatal diagnostic (`panic`, `Error`, a run-time error). -/
def EvalM.ofExcept {α : Type} (r : Except String α) : EvalM α :=
  fun st => (r, st)

/-- Go `w.Write(b)`. -/
def EvalM.write (b : Bytes) : EvalM Unit :=
  fun st => (.ok (), { st with w := st.w ++ b })

/-- Go `ev.outVars.Assign(name, v)`. -/
def EvalM.assign (name : String) (v : Var) : EvalM Unit :=
  fun st => (.ok (), { st with outVars := st.outVars.Assign name v })

/-- Go `newOldVar(ev, name)`. -/
def evNewOldVar (name : String) : EvalM oldVar :=
  fun st => (.ok (newOldVar st.outVars name), st)

/-- Go `old.restore(ev)`. -/
def evRestore (old : oldVar) : EvalM Unit :=
  fun st => (.ok (), { st with outVars := old.restore st.outVars })

/-- Go `ev.Value(v)`: the expansion of `v` in the current namespace. -/
def evValue (v : Expr) : EvalM Bytes :=
  fun st =>
    let r := v.run st.outVars
    (r.1, { st with outVars := r.2, expanded := st.expanded ++ [v.text] })

/-- Modelled from the spec: `ev.Values(v)` of `eval.go`, which is not part of the sources:
"Expand `LIST`, split into words". -/
def evValues (v : Expr) : EvalM (List Bytes) := do
  let b ← evValue v
  pure (splitSpacesBytes b)

/-- The loop of `(*funcForeach).Eval` over the words of the list, with the flag `space`. -/
def foreachLoop (varname : String) (text : Expr) : List Bytes → Bool → EvalM Unit
  | [], _ => pure ()
  | word :: rest, space => do
    EvalM.assign varname (SimpleVar word "automatic")
    if space then EvalM.write [' ']
    EvalM.write (← evValue text)
    foreachLoop varname text rest true

/-- Go `(*funcForeach).Eval`. -/
def funcForeach.Eval (args : List Expr) : EvalM Unit := do
  EvalM.ofExcept (assertArity "foreach" 3 args.length)
  let varname := String.mk (← evValue (← EvalM.ofExcept (goIndex args 0)))
  let list ← evValues (← EvalM.ofExcept (goIndex args 1))
  let text ← EvalM.ofExcept (goIndex args 2)
  let old ← evNewOldVar varname
  foreachLoop varname text list false
  evRestore old

/-- Modelled from the spec: `ev.LookupVar(name)` of `eval.go`, which is not part of the
sources: the variable of that name in the one shared namespace, or the undefined variable. -/
def evLookupVar (name : String) : EvalM (Option Var) :=
  fun st => (.ok (st.outVars.Lookup name), st)

/-- The first loop of `(*funcCall).Eval`: `args = append(args, tmpval(ev.Value(arg)))` for
every `arg` of `f.args[1:]`. -/
def callExpandArgs : List Expr → EvalM (List Bytes)
  | [] => pure []
  | arg :: rest => do
    let b ← evValue arg
    let bs ← callExpandArgs rest
    pure (b :: bs)

/-- The second loop of `(*funcCall).Eval`, from index `i` on: the name `i+1` is saved and then
bound to the argument; the result is `olds`. -/
def callRebind : List Bytes → Nat → EvalM (List oldVar)
  | [], _ => pure []
  | arg :: rest, i => do
    let name := toString (i + 1)
    let old ← evNewOldVar name
    EvalM.assign name (SimpleVar arg "automatic")
    let olds ← callRebind rest (i + 1)
    pure (old :: olds)

/-- The last loop of `(*funcCall).Eval`: `old.restore(ev)` for every `old` of `olds`. -/
def callRestore : List oldVar → EvalM Unit
  | [] => pure ()
  | old :: olds => do
    evRestore old
    callRestore olds

/-- Go `v.Eval(&buf, ev)` followed by `buf.Bytes()`, for `varEval v` standing for the method
`Eval` of the variable `v` (`var.go` is not part of the sources): what evaluating the variable
writes to `buf` and leaves in the namespace. -/
def evVarEval (varEval : Option Var → Vars → Except String Bytes × Vars) (v : Option Var) :
    EvalM Bytes :=
  fun st => ((varEval v st.outVars).1, { st with outVars := (varEval v st.outVars).2 })

/-- Go `(*funcCall).Eval`. -/
def funcCall.Eval (varEval : Option Var → Vars → Except String Bytes × Vars)
    (args : List Expr) : EvalM Unit := do
  let «variable» := String.mk (← evValue (← EvalM.ofExcept (goIndex args 0)))
  let v ← evLookupVar «variable»
  let args ← callExpandArgs (args.drop 1)
  let olds ← callRebind args 0
  let buf ← evVarEval varEval v
  callRestore olds
  EvalM.write buf

/-! ## `if`, `or`, `and` and their wrapper -/

/-- Go `ev.evalExpr(s)` of `eval.go`, which is not part of the sources: the text `s` is parsed
and expanded in the current namespace; `expand` stands for what that returns and leaves in the
namespace. -/
def evalExpr (expand : Bytes → Vars → Except String Bytes × Vars) (s : Bytes) : EvalM Bytes :=
  fun st =>
    ((expand s st.outVars).1,
      { st with outVars := (expand s st.outVars).2, expanded := st.expanded ++ [s] })

/-- Go `strings.TrimSpace`. -/
def stringsTrimSpace (s : Bytes) : Bytes :=
  bytesTrimSpace s

/-- Go `strings.Join(a, sep)`. -/
def stringsJoin (a : List Bytes) (sep : Bytes) : Bytes :=
  List.intercalate sep a

/-- The diagnostic of `funcIf`,
`fmt.Sprintf("*** insufficient number of arguments (%2) to function \x60if\x27.", len(args))`:
`%2)` is not a verb of `fmt`, which prints `%!)(int=` and the number in a field of width 2
in its place. -/
def ifArityMessage (n : Nat) : String :=
  "*** insufficient number of arguments (%!)(int=" ++ (if n < 10 then " " else "") ++
    toString n ++ ") to function \x60if\x27."

/-- The loop of `funcIf` over `args[2:]`: `results = append(results, ev.evalExpr(part))`. -/
def ifElseLoop (expand : Bytes → Vars → Except String Bytes × Vars) :
    List Bytes → EvalM (List Bytes)
  | [] => pure []
  | part :: rest => do
    let r ← evalExpr expand part
    let rs ← ifElseLoop expand rest
    pure (r :: rs)

/-- Go `funcIf`. -/
def funcIf (expand : Bytes → Vars → Except String Bytes × Vars) (args : List Bytes) :
    EvalM Bytes := do
  if args.length < 2 then
    EvalM.ofExcept (.error (ifArityMessage args.length))
  else
    let cond ← evalExpr expand (stringsTrimSpace (← EvalM.ofExcept (goIndex args 0)))
    if cond ≠ [] then
      evalExpr expand (← EvalM.ofExcept (goIndex args 1))
    else
      let results ← ifElseLoop expand (args.drop 2)
      pure (stringsJoin results [','])

/-- Go `funcOr`. -/
def funcOr (expand : Bytes → Vars → Except String Bytes × Vars) : List Bytes → EvalM Bytes
  | [] => pure []
  | arg :: rest => do
    let cond ← evalExpr expand (stringsTrimSpace arg)
    if cond ≠ [] then
      pure cond
    else
      funcOr expand rest

/-- The loop of `funcAnd`, with the variable `cond`. -/
def andLoop (expand : Bytes → Vars → Except String Bytes × Vars) :
    List Bytes → Bytes → EvalM Bytes
  | [], cond => pure cond
  | arg :: rest, _ => do
    let cond ← evalExpr expand (stringsTrimSpace arg)
    if cond = [] then
      pure []
    else
      andLoop expand rest cond

/-- Go `funcAnd`. -/
def funcAnd (expand : Bytes → Vars → Except String Bytes × Vars) (args : List Bytes) :
    EvalM Bytes :=
  andLoop expand args []

/-- Go `(*fwrapclosure).Eval`: the wrapped function gets the texts `arg.String()` of the
arguments and its result is printed to `w`. -/
def fwrapclosure.Eval (f : List Bytes → EvalM Bytes) (args : List Expr) : EvalM Unit := do
  let r ← f (args.map (fun arg => arg.text))
  EvalM.write r

/-- The sequence of expansions `ev.evalExpr(strings.TrimSpace(arg))` of the arguments `args`,
left to right, for as long as they return: the results and the state after the last one. -/
def expandTrimmed (expand : Bytes → Vars → Except String Bytes × Vars) :
    List Bytes → EvalM (List Bytes)
  | [] => pure []
  | arg :: rest => do
    let r ← evalExpr expand (stringsTrimSpace arg)
    let rs ← expandTrimmed expand rest
    pure (r :: rs)

/-- The expansions of `TEXT` that `foreach` asks for, as the spec words them: "for each word,
rebind `VAR` to that word (origin `automatic`), expand `TEXT`, collect results"; each expansion
starts from the namespace the one before left. -/
def foreachExpansions (varname : String) (text : Expr) :
    List Bytes → Vars → Except String (List Bytes) × Vars
  | [], vt => (.ok [], vt)
  | word :: rest, vt =>
    match text.run (vt.Assign varname (SimpleVar word "automatic")) with
    | (.ok r, vt1) =>
      match foreachExpansions varname text rest vt1 with
      | (.ok rs, vt2) => (.ok (r :: rs), vt2)
      | (.error e, vt2) => (.error e, vt2)
    | (.error e, vt1) => (.error e, vt1)

/-- The expression `[$(name)]`: the value of the variable `name`, or nothing when it is not
defined, between brackets. -/
def Expr.bracketRef (name : String) : Expr :=
  { text := ("[$(" ++ name ++ ")]").toList,
    run := fun vt => (.ok ('[' :: ((vt.Lookup name).map Var.value).getD [] ++ [']']), vt) }

/-! ## `subst`, `patsubst`, `word`, `wordlist` with the expansion of the arguments made explicit -/

/-- The writer of the call goes through `f`: the writes of an `ssvWriter` on `w`. -/
def EvalM.onWriter (f : Bytes → Bytes) : EvalM Unit :=
  fun st => (.ok (), { st with w := f st.w })

/-- Go `numericValueForFunc`, the expansion `ev.Value(v)` of its argument being a step of the
evaluation. -/
def numericValueForFuncM (ev : Evaluator) (v : Expr) (funcName nth : String) : EvalM Int := do
  let b ← evValue v
  EvalM.ofExcept (numericValueForFunc ev { text := String.mk v.text, bytes := b } funcName nth)

/-- Go `(*funcSubst).Eval`, the expansions of the arguments being steps of the evaluation. -/
def funcSubst.EvalM (args : List Expr) : EvalM Unit := do
  EvalM.ofExcept (assertArity "subst" 3 args.length)
  let «from» ← evValue (← EvalM.ofExcept (goIndex args 0))
  let «to» ← evValue (← EvalM.ofExcept (goIndex args 1))
  let text ← evValue (← EvalM.ofExcept (goIndex args 2))
  EvalM.write (← EvalM.ofExcept (bytesReplace text «from» «to» (-1)))

/-- Go `(*funcPatsubst).Eval`, the expansions of the arguments being steps of the evaluation.
`substPatternBytes` of `strutil.go` is not part of the sources and is taken as it comes. -/
def funcPatsubst.EvalM (substPatternBytes : Bytes → Bytes → Bytes → Bytes) (args : List Expr) :
    EvalM Unit := do
  EvalM.ofExcept (assertArity "patsubst" 3 args.length)
  let pat ← evValue (← EvalM.ofExcept (goIndex args 0))
  let repl ← evValue (← EvalM.ofExcept (goIndex args 1))
  let texts := splitSpacesBytes (← evValue (← EvalM.ofExcept (goIndex args 2)))
  EvalM.onWriter (fun w =>
    (texts.foldl (fun sw text => sw.Write (substPatternBytes pat repl text))
      ({ w := w, needsSpace := false } : ssvWriter)).w)

/-- Go `(*funcWord).Eval`, the expansions of the arguments being steps of the evaluation. -/
def funcWord.EvalM (args : List Expr) (ev : Evaluator) : EvalM Unit := do
  EvalM.ofExcept (assertArity "word" 2 args.length)
  let index ← numericValueForFuncM ev (← EvalM.ofExcept (goIndex args 0)) "word" "first"
  if index = 0 then
    EvalM.ofExcept (Error ev.filename ev.lineno
      "*** first argument to \"word\" function must be greater than 0.")
  else
    let toks := splitSpacesBytes (← evValue (← EvalM.ofExcept (goIndex args 1)))
    if index - 1 ≥ (toks.length : Int) then
      pure ()
    else
      EvalM.write (← EvalM.ofExcept (goIndex toks (index - 1)))

/-- Go `(*funcWordlist).Eval`, the expansions of the arguments being steps of the
evaluation. -/
def funcWordlist.EvalM (args : List Expr) (ev : Evaluator) : EvalM Unit := do
  EvalM.ofExcept (assertArity "wordlist" 3 args.length)
  let arg0 ← EvalM.ofExcept (goIndex args 0)
  let si ← numericValueForFuncM ev arg0 "wordlist" "first"
  if si = 0 then
    EvalM.ofExcept (Error ev.filename ev.lineno
      ("*** invalid first argument to \"wordlist\" function: " ++ String.mk arg0.text))
  else
    let arg1 ← EvalM.ofExcept (goIndex args 1)
    let ei ← numericValueForFuncM ev arg1 "wordlist" "second"
    if ei = 0 then
      EvalM.ofExcept (Error ev.filename ev.lineno
        ("*** invalid second argument to \"wordlist\" function: " ++ String.mk arg1.text))
    else
      let toks := splitSpacesBytes (← evValue (← EvalM.ofExcept (goIndex args 2)))
      if si - 1 ≥ (toks.length : Int) then
        pure ()
      else
        let ei : Int := if ei - 1 ≥ (toks.length : Int) then (toks.length : Int) else ei
        let ts ← EvalM.ofExcept (goSlice toks (si - 1) ei)
        EvalM.onWriter (fun w =>
          (ts.foldl (fun sw t => sw.Write t) ({ w := w, needsSpace := false } : ssvWriter)).w)

/-! ## `shell` -/

/-- Go `strings.TrimRight(s, cutset)`: `s` without its trailing characters that are in
`cutset`. -/
def stringsTrimRight (s cutset : Bytes) : Bytes :=
  (s.reverse.dropWhile (fun c => cutset.contains c)).reverse

/-- Go `strings.Replace(s, old, new, n)`: the algorithm of `bytes.Replace`, on strings. -/
def stringsReplace (s old new : Bytes) (n : Int) : Except String Bytes :=
  bytesReplace s old new n

/-- Go `(*funcShell).Eval`. `cmdOutput arg` stands for the standard output that `cmd.Output()`
captures from `/bin/sh -c arg`; its error is only logged. -/
def funcShell.Eval (cmdOutput : Bytes → Bytes) (args : List Value) (w : Bytes) (ev : Evaluator) :
    Except String Bytes := do
  assertArity "shell" 1 args.length
  let arg := ev.Value (← goIndex args 0)
  let out := cmdOutput arg
  let r := out
  let r := stringsTrimRight r ['\n']
  let r ← stringsReplace r ['\n'] [' '] (-1)
  pure (w ++ r)

/-- The text of `shell` as the claim words it: "discarding a single trailing newline (at most
one) and then converting every remaining newline, including any further trailing ones, to a
single space". -/
def shellTextOneNewline (out : Bytes) : Bytes :=
  (if out.getLast? = some '\n' then out.dropLast else out).map
    (fun c => if c = '\n' then ' ' else c)

/-! ## Decimal integers -/

/-- A decimal integer as a text: an optional sign and one or more decimal digits; the result
is its value, of any size. -/
def decimalInteger (s : Bytes) : Option Int :=
  match s with
  | '-' :: ds =>
    if ds ≠ [] ∧ ∀ ch ∈ ds, '0' ≤ ch ∧ ch ≤ '9' then some (-(decimalValue ds : Int)) else none
  | '+' :: ds =>
    if ds ≠ [] ∧ ∀ ch ∈ ds, '0' ≤ ch ∧ ch ≤ '9' then some (decimalValue ds : Int) else none
  | ds =>
    if ds ≠ [] ∧ ∀ ch ∈ ds, '0' ≤ ch ∧ ch ≤ '9' then some (decimalValue ds : Int) else none

/-! # Theorems -/

/-! ## The space separated values writer -/

theorem joinSpaces_nil : joinSpaces [] = [] := rfl

theorem joinSpaces_singleton (x : Bytes) : joinSpaces [x] = x := by
  simp [joinSpaces, List.intercalate]

theorem joinSpaces_cons_cons (x y : Bytes) (r : List Bytes) :
    joinSpaces (x :: y :: r) = x ++ ' ' :: joinSpaces (y :: r) := by
  simp [joinSpaces, List.intercalate]

/-- Writing the words `toks` one after the other through an `ssvWriter`. -/
theorem foldl_Write (toks : List Bytes) (sw : ssvWriter) :
    toks.foldl (fun sw t => sw.Write t) sw =
      match toks with
      | [] => sw
      | _ :: _ =>
        { w := sw.w ++ (if sw.needsSpace then [' '] else []) ++ joinSpaces toks,
          needsSpace := true } := by
  induction toks generalizing sw with
  | nil => rfl
  | cons t r ih =>
    rw [List.foldl_cons, ih]
    cases r with
    | nil => cases h : sw.needsSpace <;> simp [ssvWriter.Write, joinSpaces_singleton, h]
    | cons u r =>
      cases h : sw.needsSpace <;> simp [ssvWriter.Write, joinSpaces_cons_cons, h]

/-- A fresh `ssvWriter` on `w` leaves `w` followed by the words joined by single spaces. -/
theorem foldl_Write_fresh (toks : List Bytes) (w : Bytes) :
    (toks.foldl (fun sw t => sw.Write t) ({ w := w, needsSpace := false } : ssvWriter)).w
      = w ++ joinSpaces toks := by
  rw [foldl_Write]
  cases toks <;> simp [joinSpaces_nil]

/-- A loop that writes only the words passing a test writes the filtered list. -/
theorem foldl_Write_filter (p : Bytes → Bool) (toks : List Bytes) (sw : ssvWriter) :
    toks.foldl (fun sw t => if p t then sw else sw.Write t) sw
      = (toks.filter (fun t => !p t)).foldl (fun sw t => sw.Write t) sw := by
  induction toks generalizing sw with
  | nil => rfl
  | cons t r ih =>
    cases h : p t <;> simp [List.filter, h, ih]

/-! ## Words -/

theorem splitSpacesAux_isWord (s : Bytes) :
    ∀ cur : Bytes, (∀ c ∈ cur, isSpaceByte c = false) →
      ∀ t ∈ splitSpacesAux cur s, IsWord t := by
  induction s with
  | nil =>
    intro cur hcur t ht
    by_cases h : cur = []
    · simp [splitSpacesAux, h] at ht
    · simp only [splitSpacesAux, h, if_false, List.mem_singleton] at ht
      subst ht
      exact ⟨h, hcur⟩
  | cons c rest ih =>
    intro cur hcur t ht
    by_cases hc : isSpaceByte c = true
    · by_cases h : cur = []
      · simp only [splitSpacesAux, hc, h, if_true] at ht
        exact ih [] (by simp) t ht
      · simp only [splitSpacesAux, hc, h, if_true, if_false, List.mem_cons] at ht
        rcases ht with ht | ht
        · subst ht
          exact ⟨h, hcur⟩
        · exact ih [] (by simp) t ht
    · simp only [splitSpacesAux, hc] at ht
      refine ih (cur ++ [c]) ?_ t ht
      intro d hd
      rcases List.mem_append.1 hd with hd | hd
      · exact hcur d hd
      · rw [List.mem_singleton.1 hd]
        simpa using hc

/-- Every token of `splitSpaces` is a word. -/
theorem splitSpaces_isWord (s t : Bytes) (ht : t ∈ splitSpaces s) : IsWord t :=
  splitSpacesAux_isWord s [] (by simp) t ht

/-- Every token of `splitSpacesBytes` is a word. -/
theorem splitSpacesBytes_isWord (s t : Bytes) (ht : t ∈ splitSpacesBytes s) : IsWord t :=
  splitSpacesAux_isWord s [] (by simp) t ht

theorem splitSpacesAux_cons_nonspace (cur : Bytes) (c : Char) (rest : Bytes)
    (hc : isSpaceByte c = false) :
    splitSpacesAux cur (c :: rest) = splitSpacesAux (cur ++ [c]) rest := by
  simp [splitSpacesAux, hc]

theorem splitSpacesAux_append (x : Bytes) (hx : ∀ c ∈ x, isSpaceByte c = false) :
    ∀ cur rest : Bytes, splitSpacesAux cur (x ++ rest) = splitSpacesAux (cur ++ x) rest := by
  induction x with
  | nil => intro cur rest; simp
  | cons c x ih =>
    intro cur rest
    have hc : isSpaceByte c = false := hx c (by simp)
    have hx2 : ∀ d ∈ x, isSpaceByte d = false := fun d hd => hx d (by simp [hd])
    rw [List.cons_append, splitSpacesAux_cons_nonspace _ _ _ hc, ih hx2]
    simp

/-- Splitting words joined by single spaces gives the words back. -/
theorem splitSpacesAux_joinSpaces (ws : List Bytes) (h : ∀ t ∈ ws, IsWord t) :
    splitSpacesAux [] (joinSpaces ws) = ws := by
  induction ws with
  | nil => rfl
  | cons x r ih =>
    have hx : IsWord x := h x (by simp)
    have hr : ∀ t ∈ r, IsWord t := fun t ht => h t (by simp [ht])
    cases r with
    | nil =>
      have := splitSpacesAux_append x hx.2 [] []
      simp only [List.append_nil, List.nil_append] at this
      rw [joinSpaces_singleton, this]
      simp [splitSpacesAux, hx.1]
    | cons y r =>
      rw [joinSpaces_cons_cons, splitSpacesAux_append x hx.2]
      have hsp : isSpaceByte ' ' = true := by decide
      simp only [List.nil_append, splitSpacesAux, hsp, hx.1, if_true, if_false]
      rw [ih hr]

/-! ## `sort` -/

/-- Go's string comparison is the lexicographic order of the byte lists. -/
theorem strLess_iff (a : Bytes) : ∀ b : Bytes, strLess a b = true ↔ a < b := by
  induction a with
  | nil =>
    intro b
    cases b with
    | nil => simp [strLess]
    | cons b bs => simp [strLess, List.nil_lt_cons]
  | cons a as ih =>
    intro b
    cases b with
    | nil =>
      simp only [strLess]
      constructor
      · intro h; cases h
      · intro h; exact absurd h (List.Lex.not_nil_right _ _)
    | cons b bs =>
      simp only [strLess]
      by_cases h1 : a < b
      · simp only [h1, if_true, true_iff]
        exact List.Lex.rel h1
      · by_cases h2 : b < a
        · simp only [h1, h2, if_true, if_false]
          constructor
          · intro h; cases h
          · intro h
            have : (b :: bs) < (a :: as) := List.Lex.rel h2
            exact absurd h (lt_asymm this)
        · have hab : a = b := le_antisymm (not_lt.1 h2) (not_lt.1 h1)
          subst hab
          simp only [h1, if_false, ih bs]
          exact (List.Lex.cons_iff).symm

theorem insertString_perm (x : Bytes) (l : List Bytes) : (insertString x l).Perm (x :: l) := by
  induction l with
  | nil => exact List.Perm.refl _
  | cons y ys ih =>
    by_cases h : strLess x y = true
    · simp [insertString, h]
    · simp only [insertString, h]
      exact ((List.Perm.cons y ih).trans (List.Perm.swap x y ys))

theorem sortStrings_perm (l : List Bytes) : (sortStrings l).Perm l := by
  induction l with
  | nil => exact List.Perm.refl _
  | cons x xs ih =>
    exact (insertString_perm x (sortStrings xs)).trans (List.Perm.cons x ih)

theorem insertString_sorted (x : Bytes) (l : List Bytes) (h : l.Pairwise (· ≤ ·)) :
    (insertString x l).Pairwise (· ≤ ·) := by
  induction l with
  | nil => simp [insertString]
  | cons y ys ih =>
    rw [List.pairwise_cons] at h
    by_cases hxy : strLess x y = true
    · have hlt : x < y := (strLess_iff x y).1 hxy
      simp only [insertString, hxy, if_true]
      refine List.pairwise_cons.2 ⟨?_, List.pairwise_cons.2 h⟩
      intro z hz
      rcases List.mem_cons.1 hz with hz | hz
      · rw [hz]; exact le_of_lt hlt
      · exact le_trans (le_of_lt hlt) (h.1 z hz)
    · have hle : y ≤ x := not_lt.1 (fun hlt => hxy ((strLess_iff x y).2 hlt))
      simp only [insertString, hxy]
      refine List.pairwise_cons.2 ⟨?_, ih h.2⟩
      intro z hz
      rcases List.mem_cons.1 ((insertString_perm x ys).mem_iff.1 hz) with hz | hz
      · rw [hz]; exact hle
      · exact h.1 z hz

theorem sortStrings_sorted (l : List Bytes) : (sortStrings l).Pairwise (· ≤ ·) := by
  induction l with
  | nil => simp [sortStrings]
  | cons x xs ih => exact insertString_sorted x (sortStrings xs) ih

/-- Sorting a strictly increasing list leaves it as it is. -/
theorem sortStrings_of_increasing (l : List Bytes) (h : l.Pairwise (· < ·)) :
    sortStrings l = l := by
  induction l with
  | nil => rfl
  | cons x xs ih =>
    rw [List.pairwise_cons] at h
    show insertString x (sortStrings xs) = x :: xs
    rw [ih h.2]
    cases xs with
    | nil => rfl
    | cons y ys =>
      have : strLess x y = true := (strLess_iff x y).2 (h.1 y (by simp))
      simp [insertString, this]

theorem sortWriteLoop_cons_ne (t : Bytes) (r : List Bytes) (sw : ssvWriter) (prev : Bytes)
    (h : prev ≠ t) :
    sortWriteLoop (t :: r) sw prev = sortWriteLoop r (sw.WriteString t) t := by
  simp only [sortWriteLoop, List.foldl_cons]
  rw [if_pos h]

theorem sortWriteLoop_cons_eq (t : Bytes) (r : List Bytes) (sw : ssvWriter) :
    sortWriteLoop (t :: r) sw t = sortWriteLoop r sw t := by
  simp only [sortWriteLoop, List.foldl_cons]
  rw [if_neg (by simp)]

theorem sortWriteLoop_fst (toks : List Bytes) :
    ∀ (sw : ssvWriter) (prev : Bytes),
      (sortWriteLoop toks sw prev).1 = (uniqWords prev toks).foldl (fun sw t => sw.Write t) sw := by
  induction toks with
  | nil => intro sw prev; rfl
  | cons t r ih =>
    intro sw prev
    by_cases h : prev = t
    · subst h
      rw [sortWriteLoop_cons_eq, ih]
      simp [uniqWords]
    · rw [sortWriteLoop_cons_ne _ _ _ _ h, ih]
      simp [uniqWords, h, ssvWriter.WriteString]

theorem mem_uniqWords (toks : List Bytes) :
    ∀ (prev x : Bytes), (x ∈ uniqWords prev toks → x ∈ toks) ∧
      (x ∈ toks → x = prev ∨ x ∈ uniqWords prev toks) := by
  induction toks with
  | nil => intro prev x; simp [uniqWords]
  | cons t r ih =>
    intro prev x
    by_cases h : prev = t
    · subst h
      simp only [uniqWords, ne_eq, not_true_eq_false, if_false, List.mem_cons]
      exact ⟨fun hx => Or.inr ((ih prev x).1 hx),
        fun hx => hx.elim Or.inl (fun hx => (ih prev x).2 hx)⟩
    · simp only [uniqWords, ne_eq, h, not_false_eq_true, if_true, List.mem_cons]
      refine ⟨fun hx => hx.elim Or.inl (fun hx => Or.inr ((ih t x).1 hx)), fun hx => ?_⟩
      rcases hx with hx | hx
      · exact Or.inr (Or.inl hx)
      · exact Or.inr (((ih t x).2 hx).elim Or.inl Or.inr)

/-- On sorted tokens that are all `≥ prev` the loop writes a strictly increasing list of
words, all `> prev`. -/
theorem uniqWords_increasing (toks : List Bytes) :
    ∀ prev : Bytes, toks.Pairwise (· ≤ ·) → (∀ t ∈ toks, prev ≤ t) →
      (uniqWords prev toks).Pairwise (· < ·) ∧ ∀ x ∈ uniqWords prev toks, prev < x := by
  induction toks with
  | nil => intro prev _ _; simp [uniqWords]
  | cons t r ih =>
    intro prev hs hp
    rw [List.pairwise_cons] at hs
    by_cases h : prev = t
    · subst h
      simp only [uniqWords, ne_eq, not_true_eq_false, if_false]
      exact ih prev hs.2 (fun z hz => hp z (by simp [hz]))
    · have hlt : prev < t := lt_of_le_of_ne (hp t (by simp)) h
      have := ih t hs.2 hs.1
      simp only [uniqWords, ne_eq, h, not_false_eq_true, if_true]
      refine ⟨List.pairwise_cons.2 ⟨this.2, this.1⟩, ?_⟩
      intro x hx
      rcases List.mem_cons.1 hx with hx | hx
      · rw [hx]; exact hlt
      · exact lt_trans hlt (this.2 x hx)

/-- On a strictly increasing list of non-empty words the loop, started with the empty
`prev`, writes every word. -/
theorem uniqWords_of_increasing (toks : List Bytes) :
    ∀ prev : Bytes, toks.Pairwise (· < ·) → (∀ t ∈ toks, prev < t) →
      uniqWords prev toks = toks := by
  induction toks with
  | nil => intro prev _ _; rfl
  | cons t r ih =>
    intro prev hs hp
    rw [List.pairwise_cons] at hs
    have h : prev ≠ t := ne_of_lt (hp t (by simp))
    simp only [uniqWords, ne_eq, h, not_false_eq_true, if_true]
    rw [ih t hs.2 hs.1]

/-- What `sort` writes: the words left by the duplicate-removing loop on the sorted tokens,
joined by single spaces. -/
theorem funcSort_eval (S : Value) (w : Bytes) (ev : Evaluator) :
    funcSort.Eval [S] w ev
      = .ok (w ++ joinSpaces (uniqWords [] (sortStrings (splitSpaces S.bytes)))) := by
  have unfold : funcSort.Eval [S] w ev
      = .ok (sortWriteLoop (sortStrings (splitSpaces S.bytes))
          { w := w, needsSpace := false } []).1.w := rfl
  rw [unfold, sortWriteLoop_fst, foldl_Write_fresh]

/-- The words written by `sort` are the words of the text, each once, in increasing order. -/
theorem sortedWords_spec (s : Bytes) :
    (uniqWords [] (sortStrings (splitSpaces s))).Pairwise (· < ·) ∧
    (∀ x, x ∈ uniqWords [] (sortStrings (splitSpaces s)) ↔ x ∈ splitSpaces s) ∧
    (∀ x ∈ uniqWords [] (sortStrings (splitSpaces s)), ([] : Bytes) < x) := by
  have hinc := uniqWords_increasing (sortStrings (splitSpaces s)) [] (sortStrings_sorted _)
    (fun t _ => List.nil_le)
  refine ⟨hinc.1, fun x => ⟨fun hx => ?_, fun hx => ?_⟩, hinc.2⟩
  · exact (sortStrings_perm _).mem_iff.1 ((mem_uniqWords _ [] x).1 hx)
  · rcases (mem_uniqWords _ [] x).2 ((sortStrings_perm _).mem_iff.2 hx) with h | h
    · exact absurd h (splitSpaces_isWord s x hx).1
    · exact h

/-- Splitting the output of `sort` gives back the words that were written. -/
theorem splitSpaces_sortedWords (s : Bytes) :
    splitSpaces (joinSpaces (uniqWords [] (sortStrings (splitSpaces s))))
      = uniqWords [] (sortStrings (splitSpaces s)) :=
  splitSpacesAux_joinSpaces _
    (fun t ht => splitSpaces_isWord s t (((sortedWords_spec s).2.1 t).1 ht))

/-- Claim C4: the words of `sort(S)` are in strictly ascending lexicographic order of their
bytes, hence without duplicates, and they are the same set of words as the words of `S`. -/
theorem funcSort_sorted_same_words (S : Value) (w : Bytes) (ev : Evaluator) :
    ∃ out : Bytes, funcSort.Eval [S] w ev = .ok (w ++ out) ∧
      (splitSpaces out).Pairwise (List.Lex (· < ·)) ∧
      (splitSpaces out).Nodup ∧
      ∀ x : Bytes, x ∈ splitSpaces out ↔ x ∈ splitSpaces S.bytes := by
  refine ⟨_, funcSort_eval S w ev, ?_, ?_, ?_⟩
  · rw [splitSpaces_sortedWords]
    exact (sortedWords_spec S.bytes).1
  · rw [splitSpaces_sortedWords]
    exact (sortedWords_spec S.bytes).1.imp (fun h => ne_of_lt h)
  · rw [splitSpaces_sortedWords]
    exact (sortedWords_spec S.bytes).2.1

/-- Claim C5: `sort` is idempotent: `sort` applied to the output of `sort(x)` writes that
output again, byte for byte. -/
theorem funcSort_idempotent (x : Value) (text : String) (w w2 : Bytes) (ev : Evaluator) :
    ∃ out : Bytes, funcSort.Eval [x] w ev = .ok (w ++ out) ∧
      funcSort.Eval [{ text := text, bytes := out }] w2 ev = .ok (w2 ++ out) := by
  refine ⟨_, funcSort_eval x w ev, ?_⟩
  rw [funcSort_eval]
  show Except.ok (w2 ++ joinSpaces (uniqWords [] (sortStrings (splitSpaces
    (joinSpaces (uniqWords [] (sortStrings (splitSpaces x.bytes)))))))) = _
  rw [splitSpaces_sortedWords,
    sortStrings_of_increasing _ (sortedWords_spec x.bytes).1,
    uniqWords_of_increasing _ [] (sortedWords_spec x.bytes).1 (sortedWords_spec x.bytes).2.2]

/-! ## `filter` -/

theorem foldl_Write_matches (m : Bytes → Bool) (text : Bytes) (patterns : List Bytes) :
    ∀ sw : ssvWriter,
      patterns.foldl (fun sw pat => if m pat then sw.Write text else sw) sw
        = ((patterns.filter m).map (fun _ => text)).foldl (fun sw t => sw.Write t) sw := by
  induction patterns with
  | nil => intro sw; rfl
  | cons pat r ih =>
    intro sw
    cases h : m pat <;> simp [List.filter, h, ih]

theorem foldl_Write_flatMap (f : Bytes → List Bytes) (texts : List Bytes) :
    ∀ sw : ssvWriter,
      texts.foldl (fun sw text => (f text).foldl (fun sw t => sw.Write t) sw) sw
        = (texts.flatMap f).foldl (fun sw t => sw.Write t) sw := by
  induction texts with
  | nil => intro sw; rfl
  | cons t r ih =>
    intro sw
    simp only [List.foldl_cons, List.flatMap_cons, List.foldl_append, ih]

/-- What `filter` writes: every word of `W`, in order, once for each pattern of `P` that it
matches. -/
theorem funcFilter_eval (P W : Value) (w : Bytes) (ev : Evaluator) :
    funcFilter.Eval [P, W] w ev
      = .ok (w ++ joinSpaces ((splitSpacesBytes W.bytes).flatMap (fun text =>
          ((splitSpacesBytes P.bytes).filter (fun pat => matchPatternBytes pat text)).map
            (fun _ => text)))) := by
  have unfold : funcFilter.Eval [P, W] w ev
      = .ok ((splitSpacesBytes W.bytes).foldl (fun sw text =>
          (splitSpacesBytes P.bytes).foldl (fun sw pat =>
            if matchPatternBytes pat text then sw.Write text else sw) sw)
          ({ w := w, needsSpace := false } : ssvWriter)).w := rfl
  rw [unfold, ← foldl_Write_fresh, ← foldl_Write_flatMap]
  simp only [foldl_Write_matches]

/-- Claim C1, at `filter(a% %b,ab)`: the one word `ab` matches both patterns and `filter`
writes it twice, `ab ab`, so the output has more words than the word list. -/
theorem funcFilter_writes_word_per_pattern :
    funcFilter.Eval [.lit "a% %b", .lit "ab"] [] ⟨"Makefile", 1⟩ = .ok "ab ab".toList ∧
    splitSpacesBytes "ab".toList = ["ab".toList] ∧
    (splitSpacesBytes "ab ab".toList).length = 2 := by
  decide

/-- Claim C2, at `P = "a% %b"`, `W = "ab"`: `filter` writes `ab ab` and `filter-out` writes
nothing, so the two outputs together are not a permutation of the words of `W`. -/
theorem funcFilter_funcFilterOut_not_perm :
    funcFilter.Eval [.lit "a% %b", .lit "ab"] [] ⟨"Makefile", 1⟩ = .ok "ab ab".toList ∧
    funcFilterOut.Eval [.lit "a% %b", .lit "ab"] [] ⟨"Makefile", 1⟩ = .ok [] ∧
    ¬ (splitSpacesBytes "ab ab".toList ++ splitSpacesBytes []).Perm
        (splitSpacesBytes "ab".toList) := by
  refine ⟨by decide, by decide, fun h => ?_⟩
  have := h.length_eq
  revert this
  decide

/-! ## `filter-out` -/

/-- Claim C3: `filter-out` writes, in their original order and joined by single spaces, the
words of `W` that match no pattern of `P`; with an empty pattern list it writes all the words
of `W`. -/
theorem funcFilterOut_spec (P W : Value) (w : Bytes) (ev : Evaluator) :
    funcFilterOut.Eval [P, W] w ev
        = .ok (w ++ joinSpaces ((splitSpacesBytes W.bytes).filter (fun text =>
            decide (∀ pat ∈ splitSpacesBytes P.bytes, matchPatternBytes pat text = false))))
    ∧ (splitSpacesBytes P.bytes = [] →
        funcFilterOut.Eval [P, W] w ev = .ok (w ++ joinSpaces (splitSpacesBytes W.bytes))) := by
  have main : funcFilterOut.Eval [P, W] w ev
        = .ok (w ++ joinSpaces ((splitSpacesBytes W.bytes).filter (fun text =>
            decide (∀ pat ∈ splitSpacesBytes P.bytes, matchPatternBytes pat text = false)))) := by
    have unfold : funcFilterOut.Eval [P, W] w ev
        = .ok ((splitSpacesBytes W.bytes).foldl (fun sw text =>
            if (splitSpacesBytes P.bytes).any (fun pat => matchPatternBytes pat text) then sw
            else sw.Write text) ({ w := w, needsSpace := false } : ssvWriter)).w := rfl
    rw [unfold, foldl_Write_filter, foldl_Write_fresh]
    congr 3
    apply List.filter_congr
    intro text _
    rw [Bool.eq_iff_iff]
    simp [List.any_eq_true]
  refine ⟨main, fun h => ?_⟩
  rw [main, h]
  simp

/-- Witness for C3 on `filter-out(,"a b")`, whose pattern list is empty. -/
theorem funcFilterOut_spec_witness :
    funcFilterOut.Eval [.lit "", .lit "a b"] [] ⟨"Makefile", 1⟩ = .ok "a b".toList :=
  ((funcFilterOut_spec (.lit "") (.lit "a b") [] ⟨"Makefile", 1⟩).2 (by decide)).trans
    (by decide)

/-! ## Decimal numerals -/

theorem digitChar_spec : ∀ d : Nat, d < 10 →
    (decide ('0' ≤ Nat.digitChar d) && decide (Nat.digitChar d ≤ '9')) = true ∧
    (Nat.digitChar d).toNat - '0'.toNat = d := by
  decide

theorem decimalValue_append (a : Bytes) (c : Char) :
    decimalValue (a ++ [c]) = decimalValue a * 10 + (c.toNat - '0'.toNat) := by
  simp [decimalValue, List.foldl_append]

theorem toDigitsCore_acc (fuel : Nat) : ∀ (n : Nat) (ds : List Char),
    Nat.toDigitsCore 10 fuel n ds = Nat.toDigitsCore 10 fuel n [] ++ ds := by
  induction fuel with
  | zero => intro n ds; simp [Nat.toDigitsCore]
  | succ fuel ih =>
    intro n ds
    simp only [Nat.toDigitsCore]
    by_cases h : n / 10 = 0
    · simp [h]
    · simp only [h, if_false]
      rw [ih (n / 10) (Nat.digitChar (n % 10) :: ds), ih (n / 10) [Nat.digitChar (n % 10)]]
      simp

theorem toDigitsCore_spec (fuel : Nat) : ∀ n : Nat, n < fuel →
    Nat.toDigitsCore 10 fuel n [] ≠ [] ∧
    (∀ c ∈ Nat.toDigitsCore 10 fuel n [], (decide ('0' ≤ c) && decide (c ≤ '9')) = true) ∧
    decimalValue (Nat.toDigitsCore 10 fuel n []) = n := by
  induction fuel with
  | zero => intro n h; exact absurd h (Nat.not_lt_zero _)
  | succ fuel ih =>
    intro n hn
    have hd := digitChar_spec (n % 10) (Nat.mod_lt _ (by decide))
    simp only [Nat.toDigitsCore]
    by_cases h : n / 10 = 0
    · simp only [h, if_true]
      refine ⟨by simp, ?_, ?_⟩
      · intro c hc
        rw [List.mem_singleton.1 hc]
        exact hd.1
      · have := decimalValue_append [] (Nat.digitChar (n % 10))
        simp only [List.nil_append] at this
        rw [this, hd.2]
        simp [decimalValue]
        omega
    · simp only [h, if_false]
      rw [toDigitsCore_acc]
      obtain ⟨_, h2, h3⟩ := ih (n / 10) (by omega)
      refine ⟨by simp, ?_, ?_⟩
      · intro c hc
        rcases List.mem_append.1 hc with hc | hc
        · exact h2 c hc
        · rw [List.mem_singleton.1 hc]
          exact hd.1
      · rw [decimalValue_append, h3, hd.2]
        omega

theorem digit_cases (c : Char) (h : (decide ('0' ≤ c) && decide (c ≤ '9')) = true) :
    c ∈ ['0', '1', '2', '3', '4', '5', '6', '7', '8', '9'] := by
  simp only [Bool.and_eq_true, decide_eq_true_eq] at h
  obtain ⟨h1, h2⟩ := h
  have e : Char.ofNat c.toNat = c := Char.ofNat_toNat c
  have l1 : 48 ≤ c.toNat := h1
  have l2 : c.toNat ≤ 57 := h2
  rw [← e]
  generalize c.toNat = n at l1 l2
  interval_cases n <;> decide

theorem digit_not_space_nor_sign :
    ∀ c ∈ ['0', '1', '2', '3', '4', '5', '6', '7', '8', '9'],
      unicodeIsSpace c = false ∧ c ≠ '-' ∧ c ≠ '+' := by
  decide

theorem bytesTrimSpace_of_no_space (l : Bytes) (h : ∀ c ∈ l, unicodeIsSpace c = false) :
    bytesTrimSpace l = l := by
  have h1 : l.dropWhile unicodeIsSpace = l := by
    cases l with
    | nil => rfl
    | cons c r => simp [List.dropWhile, h c (by simp)]
  have h2 : l.reverse.dropWhile unicodeIsSpace = l.reverse := by
    cases hr : l.reverse with
    | nil => rfl
    | cons d r =>
      have hd : d ∈ l := by
        have : d ∈ l.reverse := by rw [hr]; simp
        exact List.mem_reverse.1 this
      simp [List.dropWhile, h d hd]
  rw [bytesTrimSpace, h1, h2, List.reverse_reverse]

/-- The decimal numeral of `n` is read back as `n` by `strconv.Atoi`, as long as `n` fits a
64-bit `int`. -/
theorem strconvAtoi_decimal (n : Nat) (h : n < 2 ^ 63) :
    strconvAtoi (Nat.toDigits 10 n) = some (n : Int) := by
  obtain ⟨hne, hall, hval⟩ := toDigitsCore_spec (n + 1) n (Nat.lt_succ_self n)
  rw [← Nat.toDigits] at hne hall hval
  have hsign : (Nat.toDigits 10 n).head? ≠ some '-' ∧ (Nat.toDigits 10 n).head? ≠ some '+' := by
    cases hl : Nat.toDigits 10 n with
    | nil => exact absurd hl hne
    | cons c r =>
      have hc := digit_not_space_nor_sign c (digit_cases c (hall c (by rw [hl]; simp)))
      simp only [List.head?_cons, ne_eq, Option.some.injEq]
      exact ⟨hc.2.1, hc.2.2⟩
  have he : (Nat.toDigits 10 n).isEmpty = false := by
    cases hl : Nat.toDigits 10 n with
    | nil => exact absurd hl hne
    | cons c r => rfl
  have hall2 : (Nat.toDigits 10 n).all (fun ch => decide ('0' ≤ ch) && decide (ch ≤ '9')) = true :=
    List.all_eq_true.2 hall
  have hrange : ¬ ((n : Int) < -(2 ^ 63 : Int) ∨ (2 ^ 63 : Int) - 1 < (n : Int)) := by
    have : (n : Int) < 2 ^ 63 := by exact_mod_cast h
    omega
  simp only [strconvAtoi, beq_eq_false_iff_ne.2 hsign.1, beq_eq_false_iff_ne.2 hsign.2,
    Bool.or_self, Bool.false_eq_true, if_false, he, hall2, Bool.not_true, hval, hrange]

/-- Every `n` that fits a 64-bit `int` is the value `numericValueForFunc` returns for the
decimal numeral of `n`. -/
theorem numericValueForFunc_decimal (ev : Evaluator) (text : String) (n : Nat) (h : n < 2 ^ 63)
    (funcName nth : String) :
    numericValueForFunc ev { text := text, bytes := Nat.toDigits 10 n } funcName nth
      = .ok (n : Int) := by
  obtain ⟨_, hall, _⟩ := toDigitsCore_spec (n + 1) n (Nat.lt_succ_self n)
  rw [← Nat.toDigits] at hall
  have htrim : bytesTrimSpace (Nat.toDigits 10 n) = Nat.toDigits 10 n :=
    bytesTrimSpace_of_no_space _
      (fun c hc => (digit_not_space_nor_sign c (digit_cases c (hall c hc))).1)
  have hpos : ¬ ((n : Int) < 0) := by omega
  simp only [numericValueForFunc, Evaluator.Value, htrim, strconvAtoi_decimal n h, hpos,
    if_false]

/-! ## `word` and `wordlist` -/

theorem goIndex_eq_of_getElem? {α : Type} (l : List α) (i : Int) (x : α) (hi : 0 ≤ i)
    (hx : l[i.toNat]? = some x) : goIndex l i = .ok x := by
  simp [goIndex, hi, hx]

/-- Once its first argument has parsed to `n ≥ 1`, `word` is a bounds test and an index. -/
theorem funcWord_eval (N S : Value) (w : Bytes) (ev : Evaluator) (n : Int)
    (hN : numericValueForFunc ev N "word" "first" = .ok n) (hn : 1 ≤ n) :
    funcWord.Eval [N, S] w ev =
      if n - 1 ≥ ((splitSpacesBytes S.bytes).length : Int) then .ok w
      else (goIndex (splitSpacesBytes S.bytes) (n - 1)).bind (fun t => .ok (w ++ t)) := by
  have unfold : funcWord.Eval [N, S] w ev =
      (numericValueForFunc ev N "word" "first").bind (fun index =>
        if index = 0 then
          Error ev.filename ev.lineno
            "*** first argument to \"word\" function must be greater than 0."
        else if index - 1 ≥ ((splitSpacesBytes S.bytes).length : Int) then .ok w
        else (goIndex (splitSpacesBytes S.bytes) (index - 1)).bind (fun t => .ok (w ++ t))) := rfl
  rw [unfold, hN]
  have h0 : n ≠ 0 := by omega
  simp only [Except.bind, h0, if_false]

/-- Once its first argument has parsed to `N ≥ 1`, and for a text with the words `w1..wk`,
`word(N,S)` writes exactly `wN` (the element of index `N - 1`) when `N ≤ k`, and writes
nothing, without failing, when `N > k`. -/
theorem funcWord_spec (N S : Value) (w : Bytes) (ev : Evaluator) (n : Int)
    (hN : numericValueForFunc ev N "word" "first" = .ok n) (hn : 1 ≤ n) :
    (n ≤ ((splitSpacesBytes S.bytes).length : Int) →
      ∃ t, (splitSpacesBytes S.bytes)[n.toNat - 1]? = some t ∧
        funcWord.Eval [N, S] w ev = .ok (w ++ t)) ∧
    (((splitSpacesBytes S.bytes).length : Int) < n → funcWord.Eval [N, S] w ev = .ok w) := by
  rw [funcWord_eval N S w ev n hN hn]
  constructor
  · intro hk
    have hlt : n.toNat - 1 < (splitSpacesBytes S.bytes).length := by omega
    refine ⟨(splitSpacesBytes S.bytes)[n.toNat - 1], List.getElem?_eq_getElem hlt, ?_⟩
    have hge : ¬ (n - 1 ≥ ((splitSpacesBytes S.bytes).length : Int)) := by omega
    have hidx : (n - 1).toNat = n.toNat - 1 := by omega
    rw [if_neg hge, goIndex_eq_of_getElem? _ _ _ (by omega)
      (by rw [hidx]; exact List.getElem?_eq_getElem hlt)]
    rfl
  · intro hk
    have hge : n - 1 ≥ ((splitSpacesBytes S.bytes).length : Int) := by omega
    rw [if_pos hge]

/-- The examples of `word`: `word(2,"foo bar baz")` is `bar` and `word(10,"a b")` is empty. -/
theorem funcWord_spec_witness :
    funcWord.Eval [.lit "2", .lit "foo bar baz"] [] ⟨"Makefile", 1⟩ = .ok "bar".toList ∧
    funcWord.Eval [.lit "10", .lit "a b"] [] ⟨"Makefile", 1⟩ = .ok [] := by
  constructor
  · obtain ⟨t, ht, h⟩ := (funcWord_spec (.lit "2") (.lit "foo bar baz") [] ⟨"Makefile", 1⟩ 2
      (by decide) (by decide)).1 (by decide)
    have ht2 : some t = some "bar".toList := ht.symm.trans (by decide)
    rw [h, Option.some.inj ht2]
    rfl
  · exact (funcWord_spec (.lit "10") (.lit "a b") [] ⟨"Makefile", 1⟩ 10
      (by decide) (by decide)).2 (by decide)

/-- Once its bounds have parsed to `si ≥ 1` and `ei ≥ 1`, `wordlist` is a bounds test, a
clamp and a slice. -/
theorem funcWordlist_eval (s e L : Value) (w : Bytes) (ev : Evaluator) (si ei : Int)
    (hs : numericValueForFunc ev s "wordlist" "first" = .ok si)
    (he : numericValueForFunc ev e "wordlist" "second" = .ok ei)
    (hsi : 1 ≤ si) (hei : 1 ≤ ei) :
    funcWordlist.Eval [s, e, L] w ev =
      if si - 1 ≥ ((splitSpacesBytes L.bytes).length : Int) then .ok w
      else
        (goSlice (splitSpacesBytes L.bytes) (si - 1)
          (if ei - 1 ≥ ((splitSpacesBytes L.bytes).length : Int)
            then ((splitSpacesBytes L.bytes).length : Int) else ei)).bind
          (fun ts => .ok (ts.foldl (fun sw t => sw.Write t)
            ({ w := w, needsSpace := false } : ssvWriter)).w) := by
  have unfold : funcWordlist.Eval [s, e, L] w ev =
      (numericValueForFunc ev s "wordlist" "first").bind (fun si =>
        if si = 0 then
          Error ev.filename ev.lineno
            ("*** invalid first argument to \"wordlist\" function: " ++ s.text)
        else
          (numericValueForFunc ev e "wordlist" "second").bind (fun ei =>
            if ei = 0 then
              Error ev.filename ev.lineno
                ("*** invalid second argument to \"wordlist\" function: " ++ e.text)
            else if si - 1 ≥ ((splitSpacesBytes L.bytes).length : Int) then .ok w
            else
              (goSlice (splitSpacesBytes L.bytes) (si - 1)
                (if ei - 1 ≥ ((splitSpacesBytes L.bytes).length : Int)
                  then ((splitSpacesBytes L.bytes).length : Int) else ei)).bind
                (fun ts => .ok (ts.foldl (fun sw t => sw.Write t)
                  ({ w := w, needsSpace := false } : ssvWriter)).w))) := rfl
  rw [unfold, hs]
  have h0 : si ≠ 0 := by omega
  have h1 : ei ≠ 0 := by omega
  simp only [Except.bind, h0, if_false, he, h1]

/-- Once its bounds have parsed to `1 ≤ s ≤ e`, and for a text with the words `w1..wk`,
`wordlist(s,e,L)` writes the words `ws..w(min(e,k))`, in order and joined by single spaces, and
writes nothing when `s > k`. -/
theorem funcWordlist_spec (s e L : Value) (w : Bytes) (ev : Evaluator) (si ei : Int)
    (hs : numericValueForFunc ev s "wordlist" "first" = .ok si)
    (he : numericValueForFunc ev e "wordlist" "second" = .ok ei)
    (hsi : 1 ≤ si) (hse : si ≤ ei) :
    funcWordlist.Eval [s, e, L] w ev
        = .ok (w ++ joinSpaces
            (((splitSpacesBytes L.bytes).take (min ei.toNat (splitSpacesBytes L.bytes).length)).drop
              (si.toNat - 1))) ∧
    (((splitSpacesBytes L.bytes).length : Int) < si →
      funcWordlist.Eval [s, e, L] w ev = .ok w) := by
  rw [funcWordlist_eval s e L w ev si ei hs he hsi (by omega)]
  generalize splitSpacesBytes L.bytes = toks
  by_cases hk : si - 1 ≥ (toks.length : Int)
  · rw [if_pos hk]
    have hdrop : (toks.take (min ei.toNat toks.length)).drop (si.toNat - 1) = [] := by
      apply List.drop_eq_nil_of_le
      rw [List.length_take]
      omega
    simp [hdrop, joinSpaces_nil]
  · rw [if_neg hk]
    refine ⟨?_, fun h => absurd h (by omega)⟩
    by_cases hc : ei - 1 ≥ (toks.length : Int)
    · have hmin : min ei.toNat toks.length = toks.length := by omega
      have hsl : goSlice toks (si - 1) (toks.length : Int)
          = .ok ((toks.take toks.length).drop (si.toNat - 1)) := by
        have : 0 ≤ si - 1 ∧ si - 1 ≤ (toks.length : Int) ∧
            (toks.length : Int) ≤ (toks.length : Int) := by omega
        have hidx : (si - 1).toNat = si.toNat - 1 := by omega
        simp only [goSlice, this, and_self, if_true, hidx, Int.toNat_ofNat]
      rw [if_pos hc, hsl, hmin]
      simp only [Except.bind, foldl_Write_fresh]
    · have hmin : min ei.toNat toks.length = ei.toNat := by omega
      have hsl : goSlice toks (si - 1) ei = .ok ((toks.take ei.toNat).drop (si.toNat - 1)) := by
        have : 0 ≤ si - 1 ∧ si - 1 ≤ ei ∧ ei ≤ (toks.length : Int) := by omega
        have hidx : (si - 1).toNat = si.toNat - 1 := by omega
        simp only [goSlice, this, and_self, if_true, hidx]
      rw [if_neg hc, hsl, hmin]
      simp only [Except.bind, foldl_Write_fresh]

/-- The examples of `wordlist`: `wordlist(2,3,"a b c d")` is `b c` and `wordlist(5,9,"a b")`
is empty. -/
theorem funcWordlist_spec_witness :
    funcWordlist.Eval [.lit "2", .lit "3", .lit "a b c d"] [] ⟨"Makefile", 1⟩
      = .ok "b c".toList ∧
    funcWordlist.Eval [.lit "5", .lit "9", .lit "a b"] [] ⟨"Makefile", 1⟩ = .ok [] := by
  constructor
  · exact ((funcWordlist_spec (.lit "2") (.lit "3") (.lit "a b c d") [] ⟨"Makefile", 1⟩ 2 3
      (by decide) (by decide) (by decide) (by decide)).1).trans (by decide)
  · exact (funcWordlist_spec (.lit "5") (.lit "9") (.lit "a b") [] ⟨"Makefile", 1⟩ 5 9
      (by decide) (by decide) (by decide) (by decide)).2 (by decide)

/-! ## `join`, `addsuffix`, `addprefix` -/

/-- A write through the `ssvWriter` followed by a raw write on its writer is one write of
the concatenation. -/
theorem Write_rawWrite (sw : ssvWriter) (a b : Bytes) :
    (sw.Write a).rawWrite b = sw.Write (a ++ b) := by
  simp [ssvWriter.Write, ssvWriter.rawWrite]

theorem joinLoop_eq (list2 : List Bytes) (rest : List Bytes) :
    ∀ (i : Nat) (sw : ssvWriter),
      joinLoop list2 rest i sw
        = (joinHead rest (list2.drop i)).foldl (fun sw t => sw.Write t) sw := by
  induction rest with
  | nil => intro i sw; rfl
  | cons v rest ih =>
    intro i sw
    by_cases hi : i < list2.length
    · have hd : list2.drop i = list2[i] :: list2.drop (i + 1) := List.drop_eq_getElem_cons hi
      have hg : list2.getD i [] = list2[i] := by
        simp [List.getD, List.getElem?_eq_getElem hi]
      simp only [joinLoop, hi, if_true, ih, hd, joinHead, List.foldl_cons, hg, Write_rawWrite]
    · have hd : list2.drop i = [] := List.drop_eq_nil_of_le (by omega)
      have hd1 : list2.drop (i + 1) = [] := List.drop_eq_nil_of_le (by omega)
      simp only [joinLoop, hi, if_false, ih, hd, hd1, joinHead, List.foldl_cons]

theorem joinHead_nil_right (l1 : List Bytes) : joinHead l1 [] = l1 := by
  induction l1 with
  | nil => rfl
  | cons a as ih => simp [joinHead, ih]

theorem joinHead_append_rest (l1 : List Bytes) :
    ∀ l2 : List Bytes,
      joinHead l1 l2 ++ (if l2.length > l1.length then l2.drop l1.length else [])
        = joinPairs l1 l2 := by
  induction l1 with
  | nil =>
    intro l2
    cases l2 <;> simp [joinHead, joinPairs]
  | cons a as ih =>
    intro l2
    cases l2 with
    | nil => simp [joinHead, joinPairs, joinHead_nil_right]
    | cons b bs =>
      have := ih bs
      simp only [joinHead, joinPairs, List.length_cons, List.drop_succ_cons, List.cons_append,
        gt_iff_lt, Nat.add_lt_add_iff_right] at this ⊢
      rw [this]

/-- What `join` writes: the words of `joinPairs`, joined by single spaces. -/
theorem funcJoin_eval (A B : Value) (w : Bytes) (ev : Evaluator) :
    funcJoin.Eval [A, B] w ev
      = .ok (w ++ joinSpaces (joinPairs (splitSpacesBytes A.bytes) (splitSpacesBytes B.bytes))) := by
  have unfold : funcJoin.Eval [A, B] w ev =
      if (splitSpacesBytes B.bytes).length > (splitSpacesBytes A.bytes).length then
        (goSlice (splitSpacesBytes B.bytes) (splitSpacesBytes A.bytes).length
          (splitSpacesBytes B.bytes).length).bind (fun tl =>
            .ok (tl.foldl (fun sw v => sw.Write v)
              (joinLoop (splitSpacesBytes B.bytes) (splitSpacesBytes A.bytes) 0
                { w := w, needsSpace := false })).w)
      else
        .ok (joinLoop (splitSpacesBytes B.bytes) (splitSpacesBytes A.bytes) 0
          { w := w, needsSpace := false }).w := rfl
  rw [unfold]
  generalize splitSpacesBytes A.bytes = l1
  generalize splitSpacesBytes B.bytes = l2
  rw [← joinHead_append_rest, joinLoop_eq, List.drop_zero]
  by_cases h : l2.length > l1.length
  · have hsl : goSlice l2 (l1.length : Int) (l2.length : Int) = .ok (l2.drop l1.length) := by
      have : 0 ≤ (l1.length : Int) ∧ (l1.length : Int) ≤ (l2.length : Int) ∧
          (l2.length : Int) ≤ (l2.length : Int) := by omega
      simp only [goSlice, this, and_self, if_true, Int.toNat_ofNat, List.take_length]
    rw [if_pos h, if_pos h, hsl]
    simp only [Except.bind, ← List.foldl_append, foldl_Write_fresh]
  · rw [if_neg h, if_neg h, List.append_nil, foldl_Write_fresh]

theorem joinPairs_length (l1 : List Bytes) :
    ∀ l2 : List Bytes, (joinPairs l1 l2).length = max l1.length l2.length := by
  induction l1 with
  | nil => intro l2; simp [joinPairs]
  | cons a as ih =>
    intro l2
    cases l2 with
    | nil => simp [joinPairs]
    | cons b bs => simp [joinPairs, ih bs, Nat.succ_max_succ]

theorem joinPairs_getElem? (l1 : List Bytes) :
    ∀ (l2 : List Bytes) (i : Nat),
      (joinPairs l1 l2)[i]? =
        match l1[i]?, l2[i]? with
        | some a, some b => some (a ++ b)
        | some a, none => some a
        | none, some b => some b
        | none, none => none := by
  induction l1 with
  | nil =>
    intro l2 i
    simp only [joinPairs, List.getElem?_nil]
    cases l2[i]? <;> rfl
  | cons a as ih =>
    intro l2 i
    cases l2 with
    | nil =>
      simp only [joinPairs, List.getElem?_nil]
      cases (a :: as)[i]? <;> rfl
    | cons b bs =>
      cases i with
      | zero => simp [joinPairs]
      | succ j => simpa [joinPairs] using ih bs j

/-- Claim C8: `join(L1,L2)` writes `max(m,n)` items joined by single spaces; item `i` is
`L1[i]` immediately followed by `L2[i]` where both exist, and the element of the longer list
alone past the end of the shorter one; two empty lists give empty output. -/
theorem funcJoin_spec (A B : Value) (w : Bytes) (ev : Evaluator) :
    ∃ items : List Bytes,
      funcJoin.Eval [A, B] w ev = .ok (w ++ joinSpaces items) ∧
      items.length = max (splitSpacesBytes A.bytes).length (splitSpacesBytes B.bytes).length ∧
      (∀ i : Nat, items[i]? =
        match (splitSpacesBytes A.bytes)[i]?, (splitSpacesBytes B.bytes)[i]? with
        | some a, some b => some (a ++ b)
        | some a, none => some a
        | none, some b => some b
        | none, none => none) ∧
      (splitSpacesBytes A.bytes = [] → splitSpacesBytes B.bytes = [] →
        funcJoin.Eval [A, B] w ev = .ok w) := by
  refine ⟨_, funcJoin_eval A B w ev, joinPairs_length _ _, joinPairs_getElem? _ _, ?_⟩
  intro h1 h2
  rw [funcJoin_eval, h1, h2]
  simp [joinPairs, joinSpaces_nil]

/-- Witness for C8: `join("a b","x y z")` is `ax by z`, and two empty lists give nothing. -/
theorem funcJoin_spec_witness :
    funcJoin.Eval [.lit "a b", .lit "x y z"] [] ⟨"Makefile", 1⟩ = .ok "ax by z".toList ∧
    funcJoin.Eval [.lit " ", .lit ""] [] ⟨"Makefile", 1⟩ = .ok [] := by
  obtain ⟨_, _, _, _, h⟩ := funcJoin_spec (.lit " ") (.lit "") [] ⟨"Makefile", 1⟩
  exact ⟨by decide, h (by decide) (by decide)⟩

/-- Claim C9: `addprefix(P,S)` writes `P ++ w1, ..., P ++ wk` and `addsuffix(P,S)` writes
`w1 ++ P, ..., wk ++ P`, joined by single spaces, nothing being put between the affix and the
word; for `k = 0` both write nothing. -/
theorem funcAddprefix_funcAddsuffix_spec (P S : Value) (w : Bytes) (ev : Evaluator) :
    funcAddprefix.Eval [P, S] w ev
        = .ok (w ++ joinSpaces ((splitSpacesBytes S.bytes).map (fun tok => P.bytes ++ tok))) ∧
    funcAddsuffix.Eval [P, S] w ev
        = .ok (w ++ joinSpaces ((splitSpacesBytes S.bytes).map (fun tok => tok ++ P.bytes))) ∧
    (splitSpacesBytes S.bytes = [] →
      funcAddprefix.Eval [P, S] w ev = .ok w ∧ funcAddsuffix.Eval [P, S] w ev = .ok w) := by
  have hpre : funcAddprefix.Eval [P, S] w ev
      = .ok (w ++ joinSpaces ((splitSpacesBytes S.bytes).map (fun tok => P.bytes ++ tok))) := by
    have unfold : funcAddprefix.Eval [P, S] w ev
        = .ok ((splitSpacesBytes S.bytes).foldl (fun sw tok => (sw.Write P.bytes).rawWrite tok)
            ({ w := w, needsSpace := false } : ssvWriter)).w := rfl
    rw [unfold, ← foldl_Write_fresh, List.foldl_map]
    simp only [Write_rawWrite]
  have hsuf : funcAddsuffix.Eval [P, S] w ev
      = .ok (w ++ joinSpaces ((splitSpacesBytes S.bytes).map (fun tok => tok ++ P.bytes))) := by
    have unfold : funcAddsuffix.Eval [P, S] w ev
        = .ok ((splitSpacesBytes S.bytes).foldl (fun sw tok => (sw.Write tok).rawWrite P.bytes)
            ({ w := w, needsSpace := false } : ssvWriter)).w := rfl
    rw [unfold, ← foldl_Write_fresh, List.foldl_map]
    simp only [Write_rawWrite]
  refine ⟨hpre, hsuf, fun h => ?_⟩
  rw [hpre, hsuf, h]
  simp [joinSpaces_nil]

/-- Witness for C9: `addprefix("src/","a b")` is `src/a src/b`, `addsuffix(".c","a b")` is
`a.c b.c`, and both write nothing for a text without words. -/
theorem funcAddprefix_funcAddsuffix_spec_witness :
    funcAddprefix.Eval [.lit "src/", .lit "a b"] [] ⟨"Makefile", 1⟩ = .ok "src/a src/b".toList ∧
    funcAddsuffix.Eval [.lit ".c", .lit "a b"] [] ⟨"Makefile", 1⟩ = .ok "a.c b.c".toList ∧
    funcAddprefix.Eval [.lit "src/", .lit " "] [] ⟨"Makefile", 1⟩ = .ok [] ∧
    funcAddsuffix.Eval [.lit "src/", .lit " "] [] ⟨"Makefile", 1⟩ = .ok [] :=
  ⟨by decide, by decide,
    (funcAddprefix_funcAddsuffix_spec (.lit "src/") (.lit " ") [] ⟨"Makefile", 1⟩).2.2
      (by decide)⟩

/-! ## `subst` -/

theorem substScan_skip (F T : Bytes) (s : Bytes) :
    ∀ k : Nat, substScan F T k s = substScan F T 0 (s.drop k) := by
  induction s with
  | nil => intro k; cases k <;> simp [substScan]
  | cons c r ih =>
    intro k
    cases k with
    | zero => rfl
    | succ j => simp only [substScan, List.drop_succ_cons]; exact ih j

/-- Where `F` starts the text, the scan writes `T` and goes on after the occurrence. -/
theorem substScan_at_occurrence (F T s : Bytes) (hF : F ≠ []) (h : F.isPrefixOf s = true) :
    substScan F T 0 s = T ++ substScan F T 0 (s.drop F.length) := by
  cases s with
  | nil =>
    cases F with
    | nil => exact absurd rfl hF
    | cons a as => simp [List.isPrefixOf] at h
  | cons c r =>
    have hlen : F.length = (F.length - 1) + 1 := by
      cases F with
      | nil => exact absurd rfl hF
      | cons a as => simp
    simp only [substScan, h, if_true]
    rw [substScan_skip, hlen, List.drop_succ_cons]
    simp

theorem bytesIndex_none (F T : Bytes) (s : Bytes) (h : bytesIndex s F = none) :
    substScan F T 0 s = s := by
  induction s with
  | nil => rfl
  | cons c r ih =>
    by_cases hp : F.isPrefixOf (c :: r) = true
    · simp [bytesIndex, hp] at h
    · simp only [bytesIndex, hp, Option.map_eq_none'] at h
      simp only [substScan, hp]
      rw [ih (by simpa using h)]
      rfl

theorem bytesIndex_some (F T : Bytes) (hF : F ≠ []) (s : Bytes) :
    ∀ k : Nat, bytesIndex s F = some k →
      substScan F T 0 s = s.take k ++ (T ++ substScan F T 0 (s.drop (k + F.length))) ∧
      s = s.take k ++ (F ++ s.drop (k + F.length)) := by
  induction s with
  | nil =>
    intro k h
    cases F with
    | nil => exact absurd rfl hF
    | cons a as => simp [bytesIndex] at h
  | cons c r ih =>
    intro k h
    by_cases hp : F.isPrefixOf (c :: r) = true
    · simp only [bytesIndex, hp, if_true, Option.some.injEq] at h
      subst h
      refine ⟨by simpa using substScan_at_occurrence F T (c :: r) hF hp, ?_⟩
      obtain ⟨t, ht⟩ := List.isPrefixOf_iff_prefix.1 hp
      rw [← ht]
      simp
    · simp only [bytesIndex, hp] at h
      cases hr : bytesIndex r F with
      | none => simp [hr] at h
      | some j =>
        simp only [hr, Option.map_some', Option.some.injEq, Bool.false_eq_true, if_false] at h
        subst h
        obtain ⟨h1, h2⟩ := ih j hr
        constructor
        · simp only [substScan, hp, List.take_succ_cons, List.cons_append]
          rw [show j + 1 + F.length = (j + F.length) + 1 by omega, List.drop_succ_cons]
          exact congrArg (c :: ·) h1
        · rw [show j + 1 + F.length = (j + F.length) + 1 by omega, List.drop_succ_cons,
            List.take_succ_cons, List.cons_append]
          exact congrArg (c :: ·) h2

theorem copyInto_of_le (cap : Nat) (acc x : Bytes) (h : acc.length + x.length ≤ cap) :
    copyInto cap acc x = acc ++ x := by
  have : x.length ≤ cap - acc.length := by omega
  simp [copyInto, List.take_of_length_le this]

/-- With fuel above the length of the text, the counting loop of `bytes.Count` returns, and
the replacement loop run for the counted number of rounds in a buffer that is large enough
writes the reference replacement. -/
theorem count_replace_correct (F T : Bytes) (hF : F ≠ []) :
    ∀ (fuel : Nat) (s : Bytes) (n : Nat), s.length < fuel →
      ∃ m : Nat, bytesCountLoop F fuel s n = some (n + m) ∧
        (∀ (cap i : Nat) (acc : Bytes), acc.length + (substScan F T 0 s).length ≤ cap →
          replaceLoop F T cap m i s acc = .ok (acc ++ substScan F T 0 s)) ∧
        ((substScan F T 0 s).length : Int)
          = (s.length : Int) + (m : Int) * ((T.length : Int) - (F.length : Int)) ∧
        (m = 0 → substScan F T 0 s = s) := by
  have hFe : F.isEmpty = false := by
    cases F with
    | nil => exact absurd rfl hF
    | cons a as => rfl
  intro fuel
  induction fuel with
  | zero => intro s n h; exact absurd h (Nat.not_lt_zero _)
  | succ fuel ih =>
    intro s n hlen
    cases hidx : bytesIndex s F with
    | none =>
      have hs := bytesIndex_none F T s hidx
      refine ⟨0, by simp [bytesCountLoop, hidx], ?_, by simp [hs], fun _ => hs⟩
      intro cap i acc hcap
      rw [hs] at hcap ⊢
      simp only [replaceLoop]
      rw [copyInto_of_le cap acc s hcap]
    | some k =>
      obtain ⟨h1, h2⟩ := bytesIndex_some F T hF s k hidx
      have hFpos : 0 < F.length := List.length_pos.2 hF
      have hl2 := congrArg List.length h2
      simp only [List.length_append] at hl2
      have hlt : (s.drop (k + F.length)).length < fuel := by omega
      obtain ⟨m, hc, hr, hl, _⟩ := ih (s.drop (k + F.length)) (n + 1) hlt
      have hl1 := congrArg List.length h1
      simp only [List.length_append] at hl1
      refine ⟨m + 1, ?_, ?_, ?_, fun h => absurd h (Nat.succ_ne_zero m)⟩
      · simp only [bytesCountLoop, hidx, hc]
        congr 1
        omega
      · intro cap i acc hcap
        simp only [replaceLoop, hFe, hidx]
        have e1 : copyInto cap acc (s.take k) = acc ++ s.take k :=
          copyInto_of_le _ _ _ (by omega)
        have e2 : copyInto cap (acc ++ s.take k) T = acc ++ s.take k ++ T :=
          copyInto_of_le _ _ _ (by simp only [List.length_append]; omega)
        simp only [Bool.false_eq_true, if_false, e1, e2]
        rw [hr cap (i + 1) (acc ++ s.take k ++ T)
          (by simp only [List.length_append]; omega), h1]
        simp
      · have hk : ((s.take k).length : Int) + (F.length : Int)
            + ((s.drop (k + F.length)).length : Int) = (s.length : Int) := by
          have : (s.take k).length + (F.length + (s.drop (k + F.length)).length) = s.length :=
            hl2.symm
          omega
        rw [hl1]
        push_cast
        rw [hl]
        linear_combination hk

/-- Go `bytes.Replace` with a non-empty `old` and no limit returns the reference
replacement. -/
theorem bytesReplace_eq_substReference (s old new : Bytes) (h : old ≠ []) :
    bytesReplace s old new (-1) = .ok (substReference old new s) := by
  have hFe : old.isEmpty = false := by
    cases old with
    | nil => exact absurd rfl h
    | cons a as => rfl
  obtain ⟨m, hc, hr, hl, h0⟩ := count_replace_correct old new h (s.length + 1) s 0 (by omega)
  have hcount : bytesCount s old = some m := by
    simp only [bytesCount, hFe, Bool.false_eq_true, if_false, hc, Nat.zero_add]
  simp only [bytesReplace, ne_eq, show ¬ ((-1 : Int) = 0) by decide, not_false_eq_true, if_true,
    hcount, substReference]
  by_cases hm : m = 0
  · simp [hm, h0 hm]
  · have hneg : ((-1 : Int) < 0 ∨ (m : Int) < -1) := Or.inl (by decide)
    simp only [hm, if_false, hneg, if_true]
    have hcap : ¬ ((s.length : Int) + (m : Int) * ((new.length : Int) - (old.length : Int)) < 0) := by
      rw [← hl]; omega
    rw [if_neg hcap, ← hl, Int.toNat_ofNat,
      hr (substScan old new 0 s).length 0 [] (by simp)]
    simp

theorem bytesIndex_none_of_absent (F s : Bytes) (hF : F ≠ []) (h : ¬ F <:+: s) :
    bytesIndex s F = none := by
  cases hidx : bytesIndex s F with
  | none => rfl
  | some k =>
    exact absurd ⟨s.take k, s.drop (k + F.length),
      by simpa using (bytesIndex_some F [] hF s k hidx).2.symm⟩ h

/-- Claim C10: for a non-empty `F`, `subst(F,T,S)` writes the reference replacement, which
scans `S` from the left, replaces each occurrence of `F` it meets by `T` and goes on after the
replaced occurrence; when `F` does not occur in `S` it writes `S` unchanged. -/
theorem funcSubst_spec (F T S : Value) (w : Bytes) (ev : Evaluator) (hF : F.bytes ≠ []) :
    funcSubst.Eval [F, T, S] w ev = .ok (w ++ substReference F.bytes T.bytes S.bytes) ∧
    (¬ F.bytes <:+: S.bytes → funcSubst.Eval [F, T, S] w ev = .ok (w ++ S.bytes)) := by
  have unfold : funcSubst.Eval [F, T, S] w ev
      = (bytesReplace S.bytes F.bytes T.bytes (-1)).bind (fun r => .ok (w ++ r)) := rfl
  have main : funcSubst.Eval [F, T, S] w ev
      = .ok (w ++ substReference F.bytes T.bytes S.bytes) := by
    rw [unfold, bytesReplace_eq_substReference _ _ _ hF]
    rfl
  refine ⟨main, fun h => ?_⟩
  rw [main, substReference,
    bytesIndex_none F.bytes T.bytes S.bytes (bytesIndex_none_of_absent _ _ hF h)]

/-- Witness for C10: `subst("ee","EE","feet on the street")` is `fEEt on the strEEt`. -/
theorem funcSubst_spec_witness :
    funcSubst.Eval [.lit "ee", .lit "EE", .lit "feet on the street"] [] ⟨"Makefile", 1⟩
      = .ok "fEEt on the strEEt".toList :=
  ((funcSubst_spec (.lit "ee") (.lit "EE") (.lit "feet on the street") [] ⟨"Makefile", 1⟩
    (by decide)).1).trans (by decide)

/-! ## The scoped override -/

theorem applyVarOps_other (name : String) (ops : List VarOp) :
    ∀ (vt : Vars) (m : String), m ≠ name → applyVarOps name ops vt m = vt m := by
  induction ops with
  | nil => intro vt m _; rfl
  | cons op rest ih =>
    intro vt m hm
    have step : applyVarOps name (op :: rest) vt
        = applyVarOps name rest (match op with
            | .assign v => vt.Assign name v
            | .delete => vt.delete name) := rfl
    rw [step, ih _ m hm]
    cases op <;> simp [Vars.Assign, Vars.delete, hm]

/-- The restore of a saved binding gives the saved name its saved state, whatever the
namespace holds by then. -/
theorem restore_saved_name (old : oldVar) (vt : Vars) : old.restore vt old.name = old.value := by
  cases h : old.value <;> simp [oldVar.restore, h, Vars.Assign, Vars.delete]

/-- The restore of a saved binding leaves every other name as it is. -/
theorem restore_other_name (old : oldVar) (vt : Vars) (m : String) (hm : m ≠ old.name) :
    old.restore vt m = vt m := by
  cases h : old.value <;> simp [oldVar.restore, h, Vars.Assign, Vars.delete, hm]

/-- Restoring a name after operations on that name alone undoes them. -/
theorem restore_applyVarOps (ns : Vars) (n : String) (ops : List VarOp) :
    (newOldVar ns n).restore (applyVarOps n ops ns) = ns := by
  funext m
  by_cases hm : m = n
  · subst hm
    exact restore_saved_name (newOldVar ns m) _
  · rw [restore_other_name (newOldVar ns n) _ m hm, applyVarOps_other n ops ns m hm]

/-- Claim C12: save, then any assignments and deletions of that one name, then restore: the
namespace is the one before the save, at every name. -/
theorem save_restore_round_trip (ns : Vars) (n : String) (ops : List VarOp) :
    (newOldVar ns n).restore (applyVarOps n ops ns) = ns ∧
    ∀ m : String, ((newOldVar ns n).restore (applyVarOps n ops ns)).Lookup m = ns.Lookup m :=
  ⟨restore_applyVarOps ns n ops, fun m => by rw [restore_applyVarOps ns n ops]⟩

/-! ## `assertArity` -/

/-- Claim C17, as amended: `assertArity` fails if and only if `actual < required`; the
diagnostic is then `*** insufficient number of arguments (<actual>) to function` followed by
the name between a backtick and an apostrophe and by a full stop; otherwise it has no
effect. -/
theorem assertArity_spec (name : String) (req n : Nat) :
    ((∃ msg, assertArity name req n = .error msg) ↔ n < req) ∧
    (n < req → assertArity name req n = .error
      ("*** insufficient number of arguments (" ++ toString n ++ ") to function \x60" ++ name
        ++ "\x27.")) ∧
    (req ≤ n → assertArity name req n = .ok ()) := by
  by_cases h : n < req
  · simp [assertArity, arityMessage, h]
  · simp [assertArity, arityMessage, h, Nat.le_of_not_lt h]

/-- Witness for C17: `subst` with two arguments, and with three. -/
theorem assertArity_spec_witness :
    assertArity "subst" 3 2
      = .error "*** insufficient number of arguments (2) to function \x60subst\x27." ∧
    assertArity "subst" 3 3 = .ok () :=
  ⟨(assertArity_spec "subst" 3 2).2.1 (by decide), (assertArity_spec "subst" 3 3).2.2 (by decide)⟩

/-- Claim C17 as stated fails: the diagnostic of `assertArity` opens the name with a
backtick, not with an apostrophe. -/
theorem assertArity_diagnostic_not_apostrophes :
    assertArity "subst" 3 2
      ≠ .error "*** insufficient number of arguments (2) to function \x27subst\x27." := by
  decide

/-! ## Steps of an evaluation -/

theorem EvalM.bind_apply {α β : Type} (m : EvalM α) (f : α → EvalM β) (st : EvalState) :
    (m >>= f) st = match m st with
      | (.ok a, st1) => f a st1
      | (.error e, st1) => (.error e, st1) := rfl

theorem EvalM.bind_of_ok {α β : Type} (m : EvalM α) (f : α → EvalM β) (st st1 : EvalState)
    (a : α) (h : m st = (.ok a, st1)) : (m >>= f) st = f a st1 := by
  rw [EvalM.bind_apply, h]

theorem EvalM.bind_of_error {α β : Type} (m : EvalM α) (f : α → EvalM β) (st st1 : EvalState)
    (e : String) (h : m st = (.error e, st1)) : (m >>= f) st = (.error e, st1) := by
  rw [EvalM.bind_apply, h]

/-- A sequence that returns went through both of its steps. -/
theorem EvalM.bind_eq_ok {α β : Type} (m : EvalM α) (f : α → EvalM β) (st st2 : EvalState)
    (b : β) (h : (m >>= f) st = (.ok b, st2)) :
    ∃ a st1, m st = (.ok a, st1) ∧ f a st1 = (.ok b, st2) := by
  rw [EvalM.bind_apply] at h
  rcases hm : m st with ⟨r, st1⟩
  cases r with
  | ok a => rw [hm] at h; exact ⟨a, st1, rfl, h⟩
  | error e => rw [hm] at h; cases h

theorem evValue_of_run (v : Expr) (st : EvalState) (r : Except String Bytes) (vt : Vars)
    (h : v.run st.outVars = (r, vt)) :
    evValue v st = (r, { st with outVars := vt, expanded := st.expanded ++ [v.text] }) := by
  simp [evValue, h]

/-! ## `foreach` -/

theorem foreachLoop_nil (varname : String) (text : Expr) (space : Bool) (st : EvalState) :
    foreachLoop varname text [] space st = (.ok (), st) := rfl

theorem foreachLoop_cons (varname : String) (text : Expr) (word : Bytes) (rest : List Bytes)
    (space : Bool) (st : EvalState) (r : Bytes) (vt : Vars)
    (h : text.run (st.outVars.Assign varname (SimpleVar word "automatic")) = (.ok r, vt)) :
    foreachLoop varname text (word :: rest) space st
      = foreachLoop varname text rest true
          { w := st.w ++ (if space then [' '] else []) ++ r, outVars := vt,
            expanded := st.expanded ++ [text.text] } := by
  cases space <;>
    simp [foreachLoop, bind, EvalM.bind, EvalM.assign, EvalM.write, evValue, h, pure]


/-- The loop of `foreach` writes the results of the expansions, one space between two of them,
and asks for one expansion of `TEXT` per word. -/
theorem foreachLoop_spec (varname : String) (text : Expr) (words : List Bytes) :
    ∀ (space : Bool) (st : EvalState) (rs : List Bytes) (vt : Vars),
      foreachExpansions varname text words st.outVars = (.ok rs, vt) →
      foreachLoop varname text words space st
        = (.ok (), { w := st.w ++ (if words = [] then []
                        else (if space then [' '] else []) ++ joinSpaces rs),
                     outVars := vt,
                     expanded := st.expanded ++ List.replicate words.length text.text }) ∧
      rs.length = words.length := by
  induction words with
  | nil =>
    intro space st rs vt h
    simp only [foreachExpansions, Prod.mk.injEq, Except.ok.injEq] at h
    obtain ⟨h1, h2⟩ := h
    subst h1 h2
    simp [foreachLoop_nil]
  | cons word rest ih =>
    intro space st rs vt h
    simp only [foreachExpansions] at h
    rcases hrun : text.run (st.outVars.Assign varname (SimpleVar word "automatic"))
      with ⟨r, vt1⟩
    rw [hrun] at h
    cases r with
    | error e => simp at h
    | ok r =>
      simp only at h
      rcases hrest : foreachExpansions varname text rest vt1 with ⟨rr, vt2⟩
      rw [hrest] at h
      cases rr with
      | error e => simp at h
      | ok rs1 =>
        simp only [Prod.mk.injEq, Except.ok.injEq] at h
        obtain ⟨h1, h2⟩ := h
        subst h1 h2
        have := ih true
          { w := st.w ++ (if space then [' '] else []) ++ r, outVars := vt1,
            expanded := st.expanded ++ [text.text] } rs1 vt2 hrest
        rw [foreachLoop_cons varname text word rest space st r vt1 hrun, this.1]
        refine ⟨?_, by simp [this.2]⟩
        cases rest with
        | nil =>
          have hnil : rs1 = [] := List.length_eq_zero.1 this.2
          subst hnil
          simp [joinSpaces_singleton, List.replicate]
        | cons w2 rest2 =>
          cases rs1 with
          | nil => simp at this
          | cons r2 rs2 =>
            simp [joinSpaces_cons_cons, List.replicate_succ]

theorem evNewOldVar_apply (name : String) (st : EvalState) :
    evNewOldVar name st = (.ok (newOldVar st.outVars name), st) := rfl

theorem evRestore_apply (old : oldVar) (st : EvalState) :
    evRestore old st = (.ok (), { st with outVars := old.restore st.outVars }) := rfl

theorem evValues_of_run (v : Expr) (st : EvalState) (b : Bytes) (vt : Vars)
    (h : v.run st.outVars = (.ok b, vt)) :
    evValues v st = (.ok (splitSpacesBytes b),
      { st with outVars := vt, expanded := st.expanded ++ [v.text] }) := by
  simp [evValues, bind, EvalM.bind, evValue, h, pure]

/-- The steps of `foreach` on a call site with three arguments. -/
theorem funcForeach_unfold (VAR LIST TEXT : Expr) :
    funcForeach.Eval [VAR, LIST, TEXT]
      = (evValue VAR >>= fun b =>
          evValues LIST >>= fun list =>
            evNewOldVar (String.mk b) >>= fun old =>
              foreachLoop (String.mk b) TEXT list false >>= fun _ => evRestore old) := rfl

/-- What `foreach` does when the expansions it asks for return. -/
theorem funcForeach_eval (VAR LIST TEXT : Expr) (st : EvalState) (varname list : Bytes)
    (vt1 vt2 vt3 : Vars) (rs : List Bytes)
    (hv : VAR.run st.outVars = (.ok varname, vt1)) (hl : LIST.run vt1 = (.ok list, vt2))
    (hr : foreachExpansions (String.mk varname) TEXT (splitSpacesBytes list) vt2 = (.ok rs, vt3)) :
    funcForeach.Eval [VAR, LIST, TEXT] st
      = (.ok (), { w := st.w ++ joinSpaces rs,
                   outVars := (newOldVar vt2 (String.mk varname)).restore vt3,
                   expanded := st.expanded ++ [VAR.text, LIST.text]
                     ++ List.replicate (splitSpacesBytes list).length TEXT.text }) := by
  have hloop := (foreachLoop_spec (String.mk varname) TEXT (splitSpacesBytes list) false
    { w := st.w, outVars := vt2, expanded := st.expanded ++ [VAR.text] ++ [LIST.text] }
    rs vt3 hr)
  have hnil : splitSpacesBytes list = [] → rs = [] := fun h => by
    have := hloop.2
    rw [h] at this
    exact List.length_eq_zero.1 this
  rw [funcForeach_unfold,
    EvalM.bind_of_ok _ _ st _ _ (evValue_of_run VAR st _ _ hv),
    EvalM.bind_of_ok _ _ _ _ _ (evValues_of_run LIST _ _ _ hl),
    EvalM.bind_of_ok _ _ _ _ _ (evNewOldVar_apply _ _),
    EvalM.bind_of_ok _ _ _ _ _ hloop.1, evRestore_apply]
  by_cases h : splitSpacesBytes list = []
  · simp [evRestore, h, hnil h, joinSpaces_nil]
  · simp [evRestore, h]


/-- Claim C13: `foreach` writes the results `r1, ..., rn` of the expansions of `TEXT`, one per
word of the expanded `LIST`, joined by exactly one space; the i-th expansion runs in the
namespace in which `VAR` is bound to the i-th word with origin `automatic`; `TEXT` is expanded
exactly `n` times; for `n = 0` nothing is written and nothing fails. -/
theorem funcForeach_spec (VAR LIST TEXT : Expr) (st : EvalState) (varname list : Bytes)
    (vt1 vt2 : Vars)
    (hv : VAR.run st.outVars = (.ok varname, vt1)) (hl : LIST.run vt1 = (.ok list, vt2)) :
    (∀ (rs : List Bytes) (vt3 : Vars),
      foreachExpansions (String.mk varname) TEXT (splitSpacesBytes list) vt2 = (.ok rs, vt3) →
      rs.length = (splitSpacesBytes list).length ∧
      funcForeach.Eval [VAR, LIST, TEXT] st
        = (.ok (), { w := st.w ++ joinSpaces rs,
                     outVars := (newOldVar vt2 (String.mk varname)).restore vt3,
                     expanded := st.expanded ++ [VAR.text, LIST.text]
                       ++ List.replicate (splitSpacesBytes list).length TEXT.text })) ∧
    (splitSpacesBytes list = [] →
      funcForeach.Eval [VAR, LIST, TEXT] st
        = (.ok (), { w := st.w, outVars := vt2,
                     expanded := st.expanded ++ [VAR.text, LIST.text] })) := by
  constructor
  · intro rs vt3 hr
    exact ⟨(foreachLoop_spec (String.mk varname) TEXT (splitSpacesBytes list) false
        { w := st.w, outVars := vt2, expanded := st.expanded } rs vt3 hr).2,
      funcForeach_eval VAR LIST TEXT st varname list vt1 vt2 vt3 rs hv hl hr⟩
  · intro h
    have hr : foreachExpansions (String.mk varname) TEXT (splitSpacesBytes list) vt2
        = (.ok [], vt2) := by rw [h]; rfl
    have hsame : (newOldVar vt2 (String.mk varname)).restore vt2 = vt2 :=
      restore_applyVarOps vt2 (String.mk varname) []
    rw [funcForeach_eval VAR LIST TEXT st varname list vt1 vt2 vt2 [] hv hl hr, h, hsame]
    simp [joinSpaces_nil]


/-- Witness for C13: `foreach(v,"a b c","[$(v)]")` writes `[a] [b] [c]`, and over the empty
list it writes nothing. -/
theorem funcForeach_spec_witness :
    (funcForeach.Eval [.lit "v", .lit "a b c", .bracketRef "v"]
      { w := [], outVars := Vars.empty, expanded := [] }).2.w = "[a] [b] [c]".toList ∧
    (funcForeach.Eval [.lit "v", .lit "", .bracketRef "v"]
      { w := [], outVars := Vars.empty, expanded := [] }).2.w = [] := by
  constructor
  · rw [((funcForeach_spec (.lit "v") (.lit "a b c") (.bracketRef "v")
      { w := [], outVars := Vars.empty, expanded := [] } "v".toList "a b c".toList
      Vars.empty Vars.empty rfl rfl).1
      ["[a]".toList, "[b]".toList, "[c]".toList]
      (((Vars.empty.Assign "v" (SimpleVar "a".toList "automatic")).Assign "v"
        (SimpleVar "b".toList "automatic")).Assign "v" (SimpleVar "c".toList "automatic"))
      rfl).2]
    decide
  · rw [(funcForeach_spec (.lit "v") (.lit "") (.bracketRef "v")
      { w := [], outVars := Vars.empty, expanded := [] } "v".toList "".toList
      Vars.empty Vars.empty rfl rfl).2 (by decide)]

/-! ## `call` -/

theorem decimal_injective (a b : Nat) (h : toString a = toString b) : a = b := by
  have h1 : Nat.toDigits 10 a = Nat.toDigits 10 b := by
    have : (Nat.toDigits 10 a).asString = (Nat.toDigits 10 b).asString := h
    exact congrArg String.data this
  have ha := (toDigitsCore_spec (a + 1) a (Nat.lt_succ_self a)).2.2
  have hb := (toDigitsCore_spec (b + 1) b (Nat.lt_succ_self b)).2.2
  rw [← Nat.toDigits] at ha hb
  rw [← ha, ← hb, h1]


theorem Assign_other (vt : Vars) (name m : String) (v : Var) (hm : m ≠ name) :
    vt.Assign name v m = vt m := by
  simp [Vars.Assign, hm]

/-- The rebinding loop of `call` returns; it saves the names `i+1, i+2, ...`, each with the
state it had when the loop began, and touches neither the writer nor the log. -/
theorem callRebind_spec (args : List Bytes) :
    ∀ (i : Nat) (st : EvalState),
      ∃ olds st1, callRebind args i st = (.ok olds, st1) ∧
        olds.map (fun old => old.name)
          = (List.range args.length).map (fun j => toString (i + j + 1)) ∧
        (∀ old ∈ olds, old.value = st.outVars old.name) ∧
        st1.w = st.w ∧ st1.expanded = st.expanded := by
  induction args with
  | nil => intro i st; exact ⟨[], st, rfl, rfl, by simp, rfl, rfl⟩
  | cons arg rest ih =>
    intro i st
    obtain ⟨olds, st1, h1, h2, h3, h4, h5⟩ := ih (i + 1)
      { st with outVars := st.outVars.Assign (toString (i + 1)) (SimpleVar arg "automatic") }
    refine ⟨newOldVar st.outVars (toString (i + 1)) :: olds, st1, ?_, ?_, ?_, h4, h5⟩
    · simp only [callRebind, bind, EvalM.bind, evNewOldVar, EvalM.assign, h1, pure]
    · simp only [List.map_cons, h2, List.length_cons, List.range_succ_eq_map, List.map_map]
      simp only [newOldVar, List.map_cons, Nat.add_zero, List.cons.injEq, true_and]
      apply List.map_congr_left
      intro j _
      simp only [Function.comp]
      congr 1
      omega
    · intro old hold
      rcases List.mem_cons.1 hold with h | h
      · rw [h]; rfl
      · rw [h3 old h]
        have hname : old.name ∈ olds.map (fun old => old.name) := List.mem_map_of_mem _ h
        rw [h2] at hname
        obtain ⟨j, _, hj⟩ := List.mem_map.1 hname
        have hne : old.name ≠ toString (i + 1) := by
          rw [← hj]
          intro heq
          have := decimal_injective _ _ heq
          omega
        exact Assign_other _ _ _ _ hne

theorem callRestore_apply (olds : List oldVar) :
    ∀ st : EvalState, callRestore olds st
      = (.ok (), { st with outVars := olds.foldl (fun vt old => old.restore vt) st.outVars }) := by
  induction olds with
  | nil => intro st; rfl
  | cons old rest ih =>
    intro st
    simp only [callRestore, bind, EvalM.bind, evRestore, ih, List.foldl_cons]

theorem foldl_restore_other (olds : List oldVar) :
    ∀ (vt : Vars) (m : String), m ∉ olds.map (fun old => old.name) →
      olds.foldl (fun vt old => old.restore vt) vt m = vt m := by
  induction olds with
  | nil => intro vt m _; rfl
  | cons old rest ih =>
    intro vt m hm
    simp only [List.map_cons, List.mem_cons, not_or] at hm
    rw [List.foldl_cons, ih _ m hm.2, restore_other_name old vt m hm.1]

/-- Restoring saved bindings of distinct names gives every one of the names its saved
state. -/
theorem foldl_restore_saved (olds : List oldVar) :
    ∀ vt : Vars, (olds.map (fun old => old.name)).Nodup →
      ∀ old ∈ olds, olds.foldl (fun vt old => old.restore vt) vt old.name = old.value := by
  induction olds with
  | nil => intro vt _ old h; cases h
  | cons old0 rest ih =>
    intro vt hnd old hold
    simp only [List.map_cons, List.nodup_cons] at hnd
    rw [List.foldl_cons]
    rcases List.mem_cons.1 hold with h | h
    · rw [h, foldl_restore_other rest _ _ hnd.1, restore_saved_name]
    · exact ih _ hnd.2 old h

theorem decimal_names_nodup (i n : Nat) :
    ((List.range n).map (fun j => toString (i + j + 1))).Nodup := by
  apply List.Nodup.map_on _ (List.nodup_range n)
  intro a _ b _ h
  have := decimal_injective _ _ h
  omega

theorem callExpandArgs_length (args : List Expr) :
    ∀ (st st1 : EvalState) (vals : List Bytes),
      callExpandArgs args st = (.ok vals, st1) → vals.length = args.length := by
  induction args with
  | nil =>
    intro st st1 vals h
    have : vals = [] := by
      have h2 : ((.ok [], st) : Except String (List Bytes) × EvalState) = (.ok vals, st1) := h
      simp only [Prod.mk.injEq, Except.ok.injEq] at h2
      exact h2.1.symm
    rw [this]; rfl
  | cons arg rest ih =>
    intro st st1 vals h
    have h0 : (evValue arg >>= fun b => callExpandArgs rest >>= fun bs => pure (b :: bs)) st
        = (.ok vals, st1) := h
    obtain ⟨b, st2, _, h2⟩ := EvalM.bind_eq_ok _ _ _ _ _ h0
    obtain ⟨bs, st3, h3, h4⟩ := EvalM.bind_eq_ok _ _ _ _ _ h2
    have h5 : ((.ok (b :: bs), st3) : Except String (List Bytes) × EvalState) = (.ok vals, st1) :=
      h4
    simp only [Prod.mk.injEq, Except.ok.injEq] at h5
    rw [← h5.1, List.length_cons, ih _ _ _ h3, List.length_cons]


theorem evValue_eq_ok (v : Expr) (st st1 : EvalState) (b : Bytes)
    (h : evValue v st = (.ok b, st1)) :
    v.run st.outVars = (.ok b, st1.outVars) ∧
    st1 = { st with outVars := st1.outVars, expanded := st.expanded ++ [v.text] } := by
  simp only [evValue, Prod.mk.injEq] at h
  obtain ⟨h1, h2⟩ := h
  subst h2
  exact ⟨Prod.ext h1 rfl, rfl⟩

/-- The steps of `call` on a call site with a name and arguments. -/
theorem funcCall_unfold (varEval : Option Var → Vars → Except String Bytes × Vars)
    (NAME : Expr) (ARGS : List Expr) :
    funcCall.Eval varEval (NAME :: ARGS)
      = (evValue NAME >>= fun b =>
          evLookupVar (String.mk b) >>= fun v =>
            callExpandArgs ARGS >>= fun vals =>
              callRebind vals 0 >>= fun olds =>
                evVarEval varEval v >>= fun buf =>
                  callRestore olds >>= fun _ => EvalM.write buf) := by
  have h0 : goIndex (NAME :: ARGS) 0 = .ok NAME := by simp [goIndex]
  simp only [funcCall.Eval, h0, List.drop_succ_cons, List.drop_zero]
  rfl

/-- After a `call` that returns, the names `1..k` are bound as they were when the arguments
had been expanded, right before the rebinding. -/
theorem funcCall_restores (varEval : Option Var → Vars → Except String Bytes × Vars)
    (NAME : Expr) (ARGS : List Expr) (st st1 : EvalState)
    (h : funcCall.Eval varEval (NAME :: ARGS) st = (.ok (), st1)) :
    ∃ (name : Bytes) (vt1 : Vars) (vals : List Bytes) (st2 : EvalState),
      NAME.run st.outVars = (.ok name, vt1) ∧
      callExpandArgs ARGS { st with outVars := vt1, expanded := st.expanded ++ [NAME.text] }
        = (.ok vals, st2) ∧
      vals.length = ARGS.length ∧
      ∀ i : Nat, 1 ≤ i → i ≤ ARGS.length →
        st1.outVars.Lookup (toString i) = st2.outVars.Lookup (toString i) := by
  rw [funcCall_unfold] at h
  obtain ⟨b, sa, h1, h⟩ := EvalM.bind_eq_ok _ _ _ _ _ h
  obtain ⟨v, sb, h2, h⟩ := EvalM.bind_eq_ok _ _ _ _ _ h
  obtain ⟨vals, sc, h3, h⟩ := EvalM.bind_eq_ok _ _ _ _ _ h
  obtain ⟨olds, sd, h4, h⟩ := EvalM.bind_eq_ok _ _ _ _ _ h
  obtain ⟨buf, se, _, h⟩ := EvalM.bind_eq_ok _ _ _ _ _ h
  obtain ⟨_, sf, h6, h7⟩ := EvalM.bind_eq_ok _ _ _ _ _ h
  obtain ⟨hrun, hsa⟩ := evValue_eq_ok NAME st sa b h1
  have hsb : sb = sa := by
    simp only [evLookupVar, Prod.mk.injEq] at h2
    exact h2.2.symm
  subst hsb
  have hlen := callExpandArgs_length ARGS _ _ _ h3
  obtain ⟨olds2, sd2, g1, g2, g3, _, _⟩ := callRebind_spec vals 0 sc
  rw [g1] at h4
  simp only [Prod.mk.injEq, Except.ok.injEq] at h4
  obtain ⟨ho, hs⟩ := h4
  subst ho hs
  rw [callRestore_apply] at h6
  simp only [Prod.mk.injEq, true_and] at h6
  simp only [EvalM.write, Prod.mk.injEq, true_and] at h7
  refine ⟨b, sb.outVars, vals, sc, hrun, ?_, hlen, ?_⟩
  · rw [← hsa]; exact h3
  · intro i hi1 hik
    have hnames : toString i ∈ olds2.map (fun old => old.name) := by
      rw [g2]
      refine List.mem_map.2 ⟨i - 1, List.mem_range.2 (by omega), ?_⟩
      congr 1
      omega
    obtain ⟨old, hold, hname⟩ := List.mem_map.1 hnames
    have hnd : (olds2.map (fun old => old.name)).Nodup := by
      rw [g2]; exact decimal_names_nodup 0 vals.length
    have := foldl_restore_saved olds2 se.outVars hnd old hold
    rw [← h7, ← h6]
    show olds2.foldl (fun vt old => old.restore vt) se.outVars (toString i) = sc.outVars (toString i)
    rw [← hname, this, g3 old hold]

/-- After a `foreach` that returns, the loop variable is bound as it was when `VAR` and `LIST`
had been expanded, right before the rebinding. -/
theorem funcForeach_restores (VAR LIST TEXT : Expr) (st st1 : EvalState)
    (h : funcForeach.Eval [VAR, LIST, TEXT] st = (.ok (), st1)) :
    ∃ (varname : Bytes) (vt1 : Vars) (list : Bytes) (vt2 : Vars),
      VAR.run st.outVars = (.ok varname, vt1) ∧ LIST.run vt1 = (.ok list, vt2) ∧
      st1.outVars.Lookup (String.mk varname) = vt2.Lookup (String.mk varname) := by
  rw [funcForeach_unfold] at h
  obtain ⟨b, sa, h1, h⟩ := EvalM.bind_eq_ok _ _ _ _ _ h
  obtain ⟨list, sb, h2, h⟩ := EvalM.bind_eq_ok _ _ _ _ _ h
  obtain ⟨old, sc, h3, h⟩ := EvalM.bind_eq_ok _ _ _ _ _ h
  obtain ⟨_, sd, _, h5⟩ := EvalM.bind_eq_ok _ _ _ _ _ h
  obtain ⟨hrun, hsa⟩ := evValue_eq_ok VAR st sa b h1
  have h2b : (evValue LIST >>= fun x => pure (splitSpacesBytes x)) sa = (.ok list, sb) := h2
  obtain ⟨lb, sb2, h2c, h2d⟩ := EvalM.bind_eq_ok _ _ _ _ _ h2b
  have hsb : sb2 = sb := by
    have : ((.ok (splitSpacesBytes lb), sb2) : Except String (List Bytes) × EvalState)
        = (.ok list, sb) := h2d
    simp only [Prod.mk.injEq] at this
    exact this.2
  subst hsb
  obtain ⟨hrun2, _⟩ := evValue_eq_ok LIST sa sb2 lb h2c
  rw [evNewOldVar_apply] at h3
  simp only [Prod.mk.injEq, Except.ok.injEq] at h3
  obtain ⟨ho, hs⟩ := h3
  subst ho hs
  rw [evRestore_apply] at h5
  simp only [Prod.mk.injEq, true_and] at h5
  refine ⟨b, sa.outVars, lb, sb2.outVars, hrun, hrun2, ?_⟩
  rw [← h5]
  exact restore_saved_name (newOldVar sb2.outVars (String.mk b)) sd.outVars

/-- A `call` returns when the expansions of its name and of its arguments and the evaluation
of the variable return. -/
theorem funcCall_returns (varEval : Option Var → Vars → Except String Bytes × Vars)
    (NAME : Expr) (ARGS : List Expr) (st st2 : EvalState) (name : Bytes) (vt1 : Vars)
    (vals : List Bytes)
    (hname : NAME.run st.outVars = (.ok name, vt1))
    (hargs : callExpandArgs ARGS { st with outVars := vt1, expanded := st.expanded ++ [NAME.text] }
      = (.ok vals, st2))
    (hbody : ∀ (v : Option Var) (vt : Vars), ∃ buf vt3, varEval v vt = (.ok buf, vt3)) :
    ∃ st1, funcCall.Eval varEval (NAME :: ARGS) st = (.ok (), st1) := by
  obtain ⟨olds, st3, hre, _⟩ := callRebind_spec vals 0 st2
  obtain ⟨buf, vt3, hb⟩ := hbody (vt1.Lookup (String.mk name)) st3.outVars
  have hbody2 : evVarEval varEval (vt1.Lookup (String.mk name)) st3
      = (.ok buf, { st3 with outVars := vt3 }) := by
    simp [evVarEval, hb]
  have hlook : evLookupVar (String.mk name)
      { st with outVars := vt1, expanded := st.expanded ++ [NAME.text] }
      = (.ok (vt1.Lookup (String.mk name)),
          { st with outVars := vt1, expanded := st.expanded ++ [NAME.text] }) := rfl
  rw [funcCall_unfold, EvalM.bind_of_ok _ _ _ _ _ (evValue_of_run NAME st _ _ hname),
    EvalM.bind_of_ok _ _ _ _ _ hlook, EvalM.bind_of_ok _ _ _ _ _ hargs,
    EvalM.bind_of_ok _ _ _ _ _ hre, EvalM.bind_of_ok _ _ _ _ _ hbody2,
    EvalM.bind_of_ok _ _ _ _ _ (callRestore_apply olds _)]
  exact ⟨_, rfl⟩

/-- The expansions of `TEXT` that `foreach` asks for return when every expansion of `TEXT`
returns. -/
theorem foreachExpansions_returns (varname : String) (text : Expr)
    (htext : ∀ vt : Vars, ∃ r vt1, text.run vt = (.ok r, vt1)) (words : List Bytes) :
    ∀ vt : Vars, ∃ rs vt1, foreachExpansions varname text words vt = (.ok rs, vt1) := by
  induction words with
  | nil => intro vt; exact ⟨[], vt, rfl⟩
  | cons word rest ih =>
    intro vt
    obtain ⟨r, vt1, h1⟩ := htext (vt.Assign varname (SimpleVar word "automatic"))
    obtain ⟨rs, vt2, h2⟩ := ih vt1
    exact ⟨r :: rs, vt2, by simp only [foreachExpansions, h1, h2]⟩

/-- A `foreach` returns when the expansions of its arguments return. -/
theorem funcForeach_returns (VAR LIST TEXT : Expr) (st : EvalState) (varname list : Bytes)
    (vt1 vt2 : Vars)
    (hv : VAR.run st.outVars = (.ok varname, vt1)) (hl : LIST.run vt1 = (.ok list, vt2))
    (htext : ∀ vt : Vars, ∃ r vt3, TEXT.run vt = (.ok r, vt3)) :
    ∃ st1, funcForeach.Eval [VAR, LIST, TEXT] st = (.ok (), st1) := by
  obtain ⟨rs, vt3, h⟩ := foreachExpansions_returns (String.mk varname) TEXT htext
    (splitSpacesBytes list) vt2
  exact ⟨_, funcForeach_eval VAR LIST TEXT st varname list vt1 vt2 vt3 rs hv hl h⟩

/-- Claim C11: after a `call` with `k` arguments has returned, each of the names `1..k` is
bound exactly as it was right before the call rebound it, and after a `foreach` has returned
so is its loop variable, whatever the evaluated body did to the namespace: the same variable
if the name was defined, no variable if it was not. The invocation does return when the
expansions it asks for and the evaluation of the body return. -/
theorem call_foreach_restore_bindings :
    (∀ (varEval : Option Var → Vars → Except String Bytes × Vars) (NAME : Expr)
        (ARGS : List Expr) (st st1 : EvalState),
      funcCall.Eval varEval (NAME :: ARGS) st = (.ok (), st1) →
      ∃ (name : Bytes) (vt1 : Vars) (vals : List Bytes) (st2 : EvalState),
        NAME.run st.outVars = (.ok name, vt1) ∧
        callExpandArgs ARGS { st with outVars := vt1, expanded := st.expanded ++ [NAME.text] }
          = (.ok vals, st2) ∧
        vals.length = ARGS.length ∧
        ∀ i : Nat, 1 ≤ i → i ≤ ARGS.length →
          st1.outVars.Lookup (toString i) = st2.outVars.Lookup (toString i)) ∧
    (∀ (VAR LIST TEXT : Expr) (st st1 : EvalState),
      funcForeach.Eval [VAR, LIST, TEXT] st = (.ok (), st1) →
      ∃ (varname : Bytes) (vt1 : Vars) (list : Bytes) (vt2 : Vars),
        VAR.run st.outVars = (.ok varname, vt1) ∧ LIST.run vt1 = (.ok list, vt2) ∧
        st1.outVars.Lookup (String.mk varname) = vt2.Lookup (String.mk varname)) ∧
    (∀ (varEval : Option Var → Vars → Except String Bytes × Vars) (NAME : Expr)
        (ARGS : List Expr) (st st2 : EvalState) (name : Bytes) (vt1 : Vars) (vals : List Bytes),
      NAME.run st.outVars = (.ok name, vt1) →
      callExpandArgs ARGS { st with outVars := vt1, expanded := st.expanded ++ [NAME.text] }
        = (.ok vals, st2) →
      (∀ (v : Option Var) (vt : Vars), ∃ buf vt3, varEval v vt = (.ok buf, vt3)) →
      ∃ st1, funcCall.Eval varEval (NAME :: ARGS) st = (.ok (), st1)) ∧
    (∀ (VAR LIST TEXT : Expr) (st : EvalState) (varname list : Bytes) (vt1 vt2 : Vars),
      VAR.run st.outVars = (.ok varname, vt1) → LIST.run vt1 = (.ok list, vt2) →
      (∀ vt : Vars, ∃ r vt3, TEXT.run vt = (.ok r, vt3)) →
      ∃ st1, funcForeach.Eval [VAR, LIST, TEXT] st = (.ok (), st1)) :=
  ⟨funcCall_restores, funcForeach_restores, funcCall_returns, funcForeach_returns⟩

/-- Witness for C11: a `call` with one argument whose body deletes the name `1`, in a
namespace that defines `1`, and a `foreach` over two words in a namespace that does not define
its loop variable. -/
theorem call_foreach_restore_bindings_witness :
    (∃ (name : Bytes) (vt1 : Vars) (vals : List Bytes) (st2 : EvalState),
      (Expr.lit "f").run (Vars.empty.Assign "1" (SimpleVar "x".toList "file"))
        = (.ok name, vt1) ∧
      callExpandArgs [.lit "a"]
          { w := [], outVars := vt1, expanded := [] ++ [(Expr.lit "f").text] }
        = (.ok vals, st2) ∧
      vals.length = 1 ∧
      ∀ i : Nat, 1 ≤ i → i ≤ 1 →
        (funcCall.Eval (fun _ vt => (.ok "body".toList, vt.delete "1")) [.lit "f", .lit "a"]
          { w := [], outVars := Vars.empty.Assign "1" (SimpleVar "x".toList "file"),
            expanded := [] }).2.outVars.Lookup (toString i)
          = st2.outVars.Lookup (toString i)) ∧
    (funcCall.Eval (fun _ vt => (.ok "body".toList, vt.delete "1")) [.lit "f", .lit "a"]
      { w := [], outVars := Vars.empty.Assign "1" (SimpleVar "x".toList "file"),
        expanded := [] }).2.outVars.Lookup "1" = some (SimpleVar "x".toList "file") ∧
    (∃ (varname : Bytes) (vt1 : Vars) (list : Bytes) (vt2 : Vars),
      (Expr.lit "v").run Vars.empty = (.ok varname, vt1) ∧
      (Expr.lit "a b").run vt1 = (.ok list, vt2) ∧
      (funcForeach.Eval [.lit "v", .lit "a b", .bracketRef "v"]
        { w := [], outVars := Vars.empty, expanded := [] }).2.outVars.Lookup (String.mk varname)
        = vt2.Lookup (String.mk varname)) :=
  ⟨call_foreach_restore_bindings.1 (fun _ vt => (.ok "body".toList, vt.delete "1"))
      (.lit "f") [.lit "a"]
      { w := [], outVars := Vars.empty.Assign "1" (SimpleVar "x".toList "file"), expanded := [] }
      _ (Prod.ext rfl rfl),
    by decide,
    call_foreach_restore_bindings.2.1 (.lit "v") (.lit "a b") (.bracketRef "v")
      { w := [], outVars := Vars.empty, expanded := [] } _ (Prod.ext rfl rfl)⟩


/-! ## `if`, `or`, `and` -/

theorem evalExpr_apply (expand : Bytes → Vars → Except String Bytes × Vars) (s : Bytes)
    (st : EvalState) :
    evalExpr expand s st
      = ((expand s st.outVars).1,
          { st with outVars := (expand s st.outVars).2, expanded := st.expanded ++ [s] }) := rfl

/-- An expansion adds its text to the end of the log, whether it returns or not. -/
theorem evalExpr_expanded (expand : Bytes → Vars → Except String Bytes × Vars) (s : Bytes)
    (st : EvalState) :
    (evalExpr expand s st).2.expanded = st.expanded ++ [s] := rfl

theorem evalExpr_expanded_of_eq (expand : Bytes → Vars → Except String Bytes × Vars)
    (s : Bytes) (st st1 : EvalState) (r : Except String Bytes)
    (h : evalExpr expand s st = (r, st1)) : st1.expanded = st.expanded ++ [s] := by
  have := evalExpr_expanded expand s st
  rw [h] at this
  exact this

/-- The steps of `if` on two or three arguments. -/
theorem funcIf_unfold (expand : Bytes → Vars → Except String Bytes × Vars)
    (COND THEN : Bytes) (rest : List Bytes) :
    funcIf expand (COND :: THEN :: rest)
      = (evalExpr expand (stringsTrimSpace COND) >>= fun cond =>
          if cond ≠ [] then evalExpr expand THEN
          else ifElseLoop expand rest >>= fun results => pure (stringsJoin results [','])) := by
  have h0 : goIndex (COND :: THEN :: rest) 0 = .ok COND := by simp [goIndex]
  have h1 : goIndex (COND :: THEN :: rest) 1 = .ok THEN := by simp [goIndex]
  have hlen : ¬ ((COND :: THEN :: rest).length < 2) := by simp
  simp only [funcIf, hlen, if_false, h0, h1, List.drop_succ_cons, List.drop_zero]
  rfl

theorem ifElseLoop_single (expand : Bytes → Vars → Except String Bytes × Vars) (e : Bytes)
    (st : EvalState) :
    (ifElseLoop expand [e] >>= fun results => pure (stringsJoin results [','])) st
      = evalExpr expand e st := by
  have h : ifElseLoop expand [e]
      = (evalExpr expand e >>= fun r => ifElseLoop expand [] >>= fun rs => pure (r :: rs)) := rfl
  rw [h, EvalM.bind_apply, EvalM.bind_apply]
  rcases hr : evalExpr expand e st with ⟨r, st1⟩
  cases r with
  | ok b => simp [ifElseLoop, bind, EvalM.bind, pure, stringsJoin, List.intercalate]
  | error m => rfl

/-- Claim C14, as amended: when the expansion of `COND` stripped of its surrounding white
space (`if` strips the text of `COND` before it expands it) is not empty, `if` returns the
expansion of `THEN` and `ELSE` is not expanded; otherwise it returns the expansion of `ELSE`,
or the empty string when there is no `ELSE`, and `THEN` is not expanded. -/
theorem funcIf_spec (expand : Bytes → Vars → Except String Bytes × Vars)
    (COND THEN : Bytes) (ELSE : Option Bytes) (st st1 : EvalState) (cond : Bytes)
    (hc : evalExpr expand (stringsTrimSpace COND) st = (.ok cond, st1)) :
    (cond ≠ [] →
      funcIf expand (COND :: THEN :: ELSE.toList) st = evalExpr expand THEN st1 ∧
      (funcIf expand (COND :: THEN :: ELSE.toList) st).2.expanded
        = st.expanded ++ [stringsTrimSpace COND, THEN]) ∧
    (cond = [] →
      funcIf expand (COND :: THEN :: ELSE.toList) st
        = (match ELSE with
          | none => (.ok [], st1)
          | some e => evalExpr expand e st1) ∧
      (funcIf expand (COND :: THEN :: ELSE.toList) st).2.expanded
        = st.expanded ++ stringsTrimSpace COND :: ELSE.toList) := by
  have hlog := evalExpr_expanded_of_eq expand _ st st1 _ hc
  rw [funcIf_unfold, EvalM.bind_of_ok _ _ st st1 cond hc]
  constructor
  · intro h
    rw [if_pos h]
    exact ⟨rfl, by rw [evalExpr_expanded, hlog]; simp⟩
  · intro h
    rw [if_neg (by simp [h])]
    cases ELSE with
    | none =>
      have : (ifElseLoop expand [] >>= fun results => pure (stringsJoin results [','])) st1
          = (.ok [], st1) := rfl
      simp only [Option.toList]
      rw [this]
      exact ⟨rfl, by simp [hlog]⟩
    | some e =>
      simp only [Option.toList]
      rw [ifElseLoop_single]
      exact ⟨rfl, by rw [evalExpr_expanded, hlog]; simp⟩

/-- Witness for C14, with texts that expand to themselves: `if("","THEN","ELSE")` is `ELSE`
and `if("x","THEN")` is `THEN`. -/
theorem funcIf_spec_witness :
    (funcIf (fun s vt => (.ok s, vt)) ["".toList, "THEN".toList, "ELSE".toList]
      { w := [], outVars := Vars.empty, expanded := [] }).1 = .ok "ELSE".toList ∧
    (funcIf (fun s vt => (.ok s, vt)) ["x".toList, "THEN".toList]
      { w := [], outVars := Vars.empty, expanded := [] }).2.expanded
        = ["x".toList, "THEN".toList] := by
  constructor
  · exact (congrArg Prod.fst ((funcIf_spec (fun s vt => (.ok s, vt)) "".toList "THEN".toList
      (some "ELSE".toList) { w := [], outVars := Vars.empty, expanded := [] } _ [] rfl).2
      rfl).1).trans rfl
  · exact ((funcIf_spec (fun s vt => (.ok s, vt)) "x".toList "THEN".toList none
      { w := [], outVars := Vars.empty, expanded := [] } _ "x".toList rfl).1
      (by decide)).2.trans rfl


theorem expandTrimmed_nil_eq (expand : Bytes → Vars → Except String Bytes × Vars)
    (st st1 : EvalState) (rs : List Bytes) (h : expandTrimmed expand [] st = (.ok rs, st1)) :
    rs = [] ∧ st1 = st := by
  have h2 : ((.ok [], st) : Except String (List Bytes) × EvalState) = (.ok rs, st1) := h
  simp only [Prod.mk.injEq, Except.ok.injEq] at h2
  exact ⟨h2.1.symm, h2.2.symm⟩

theorem expandTrimmed_cons_eq (expand : Bytes → Vars → Except String Bytes × Vars)
    (a : Bytes) (rest : List Bytes) (st st1 : EvalState) (rs : List Bytes)
    (h : expandTrimmed expand (a :: rest) st = (.ok rs, st1)) :
    ∃ r rs1 st0, evalExpr expand (stringsTrimSpace a) st = (.ok r, st0) ∧
      expandTrimmed expand rest st0 = (.ok rs1, st1) ∧ rs = r :: rs1 := by
  have h0 : (evalExpr expand (stringsTrimSpace a) >>= fun r =>
      expandTrimmed expand rest >>= fun rs => pure (r :: rs)) st = (.ok rs, st1) := h
  obtain ⟨r, st0, h1, h2⟩ := EvalM.bind_eq_ok _ _ _ _ _ h0
  obtain ⟨rs1, st2, h3, h4⟩ := EvalM.bind_eq_ok _ _ _ _ _ h2
  have h5 : ((.ok (r :: rs1), st2) : Except String (List Bytes) × EvalState) = (.ok rs, st1) :=
    h4
  simp only [Prod.mk.injEq, Except.ok.injEq] at h5
  obtain ⟨h6, h7⟩ := h5
  subst h7
  exact ⟨r, rs1, st0, h1, h3, h6.symm⟩

/-- Expanding arguments one after the other logs their trimmed texts in order. -/
theorem expandTrimmed_expanded (expand : Bytes → Vars → Except String Bytes × Vars)
    (args : List Bytes) :
    ∀ (st st1 : EvalState) (rs : List Bytes), expandTrimmed expand args st = (.ok rs, st1) →
      st1.expanded = st.expanded ++ args.map stringsTrimSpace ∧ rs.length = args.length := by
  induction args with
  | nil =>
    intro st st1 rs h
    obtain ⟨h1, h2⟩ := expandTrimmed_nil_eq expand st st1 rs h
    subst h1 h2
    simp
  | cons a rest ih =>
    intro st st1 rs h
    obtain ⟨r, rs1, st0, h1, h2, h3⟩ := expandTrimmed_cons_eq expand a rest st st1 rs h
    obtain ⟨h4, h5⟩ := ih st0 st1 rs1 h2
    rw [h4, evalExpr_expanded_of_eq expand _ st st0 _ h1, h3]
    simp [h5]

theorem andLoop_cons (expand : Bytes → Vars → Except String Bytes × Vars) (a : Bytes)
    (rest : List Bytes) (cond0 : Bytes) :
    andLoop expand (a :: rest) cond0
      = (evalExpr expand (stringsTrimSpace a) >>= fun cond =>
          if cond = [] then pure [] else andLoop expand rest cond) := rfl

theorem funcOr_cons (expand : Bytes → Vars → Except String Bytes × Vars) (a : Bytes)
    (rest : List Bytes) :
    funcOr expand (a :: rest)
      = (evalExpr expand (stringsTrimSpace a) >>= fun cond =>
          if cond ≠ [] then pure cond else funcOr expand rest) := rfl

/-- The loop of `and` over arguments that all expand to non-empty strings ends with the last
of the expansions. -/
theorem andLoop_all (expand : Bytes → Vars → Except String Bytes × Vars) (args : List Bytes) :
    ∀ (cond0 : Bytes) (st st1 : EvalState) (rs : List Bytes),
      expandTrimmed expand args st = (.ok rs, st1) → (∀ r ∈ rs, r ≠ []) →
      andLoop expand args cond0 st = (.ok (rs.getLast?.getD cond0), st1) := by
  induction args with
  | nil =>
    intro cond0 st st1 rs h _
    obtain ⟨h1, h2⟩ := expandTrimmed_nil_eq expand st st1 rs h
    subst h1 h2
    rfl
  | cons a rest ih =>
    intro cond0 st st1 rs h hne
    obtain ⟨r, rs1, st0, h1, h2, h3⟩ := expandTrimmed_cons_eq expand a rest st st1 rs h
    subst h3
    have hr : r ≠ [] := hne r (by simp)
    rw [andLoop_cons, EvalM.bind_of_ok _ _ st st0 r h1, if_neg hr,
      ih r st0 st1 rs1 h2 (fun x hx => hne x (by simp [hx]))]
    cases rs1 with
    | nil => rfl
    | cons x xs => rfl

/-- The loop of `and` stops at the first argument that expands to the empty string. -/
theorem andLoop_stop (expand : Bytes → Vars → Except String Bytes × Vars) (pre : List Bytes) :
    ∀ (a : Bytes) (post : List Bytes) (cond0 : Bytes) (st st1 st2 : EvalState)
      (rs : List Bytes),
      expandTrimmed expand pre st = (.ok rs, st1) → (∀ r ∈ rs, r ≠ []) →
      evalExpr expand (stringsTrimSpace a) st1 = (.ok [], st2) →
      andLoop expand (pre ++ a :: post) cond0 st = (.ok [], st2) := by
  induction pre with
  | nil =>
    intro a post cond0 st st1 st2 rs h _ ha
    obtain ⟨h1, h2⟩ := expandTrimmed_nil_eq expand st st1 rs h
    subst h1 h2
    rw [List.nil_append, andLoop_cons, EvalM.bind_of_ok _ _ _ _ _ ha, if_pos rfl]
    rfl
  | cons p rest ih =>
    intro a post cond0 st st1 st2 rs h hne ha
    obtain ⟨r, rs1, st0, h1, h2, h3⟩ := expandTrimmed_cons_eq expand p rest st st1 rs h
    subst h3
    have hr : r ≠ [] := hne r (by simp)
    rw [List.cons_append, andLoop_cons, EvalM.bind_of_ok _ _ st st0 r h1, if_neg hr]
    exact ih a post r st0 st1 st2 rs1 h2 (fun x hx => hne x (by simp [hx])) ha

/-- The loop of `or` over arguments that all expand to the empty string returns it. -/
theorem funcOr_all (expand : Bytes → Vars → Except String Bytes × Vars) (args : List Bytes) :
    ∀ (st st1 : EvalState) (rs : List Bytes),
      expandTrimmed expand args st = (.ok rs, st1) → (∀ r ∈ rs, r = []) →
      funcOr expand args st = (.ok [], st1) := by
  induction args with
  | nil =>
    intro st st1 rs h _
    obtain ⟨h1, h2⟩ := expandTrimmed_nil_eq expand st st1 rs h
    subst h1 h2
    rfl
  | cons a rest ih =>
    intro st st1 rs h he
    obtain ⟨r, rs1, st0, h1, h2, h3⟩ := expandTrimmed_cons_eq expand a rest st st1 rs h
    subst h3
    have hr : r = [] := he r (by simp)
    subst hr
    rw [funcOr_cons, EvalM.bind_of_ok _ _ st st0 [] h1, if_neg (by simp)]
    exact ih st0 st1 rs1 h2 (fun x hx => he x (by simp [hx]))

/-- The loop of `or` stops at the first argument that expands to a non-empty string. -/
theorem funcOr_stop (expand : Bytes → Vars → Except String Bytes × Vars) (pre : List Bytes) :
    ∀ (a : Bytes) (post : List Bytes) (st st1 st2 : EvalState) (rs : List Bytes) (r : Bytes),
      expandTrimmed expand pre st = (.ok rs, st1) → (∀ x ∈ rs, x = []) →
      evalExpr expand (stringsTrimSpace a) st1 = (.ok r, st2) → r ≠ [] →
      funcOr expand (pre ++ a :: post) st = (.ok r, st2) := by
  induction pre with
  | nil =>
    intro a post st st1 st2 rs r h _ ha hr
    obtain ⟨h1, h2⟩ := expandTrimmed_nil_eq expand st st1 rs h
    subst h1 h2
    rw [List.nil_append, funcOr_cons, EvalM.bind_of_ok _ _ _ _ _ ha, if_pos hr]
    rfl
  | cons p rest ih =>
    intro a post st st1 st2 rs r h he ha hr
    obtain ⟨x, rs1, st0, h1, h2, h3⟩ := expandTrimmed_cons_eq expand p rest st st1 rs h
    subst h3
    have hx : x = [] := he x (by simp)
    subst hx
    rw [List.cons_append, funcOr_cons, EvalM.bind_of_ok _ _ st st0 [] h1, if_neg (by simp)]
    exact ih a post st0 st1 st2 rs1 r h2 (fun y hy => he y (by simp [hy])) ha hr


/-- Claim C15, as amended: `and` expands its arguments left to right, each stripped of its
surrounding white space before it is expanded; at the first stripped argument that expands to
the empty string it returns the empty string and expands no later argument; when all stripped
arguments expand to non-empty strings it returns the expansion of the last one. -/
theorem funcAnd_spec (expand : Bytes → Vars → Except String Bytes × Vars) :
    (∀ (pre : List Bytes) (a : Bytes) (post : List Bytes) (st st1 st2 : EvalState)
        (rs : List Bytes),
      expandTrimmed expand pre st = (.ok rs, st1) → (∀ r ∈ rs, r ≠ []) →
      evalExpr expand (stringsTrimSpace a) st1 = (.ok [], st2) →
      funcAnd expand (pre ++ a :: post) st = (.ok [], st2) ∧
      st2.expanded = st.expanded ++ (pre ++ [a]).map stringsTrimSpace) ∧
    (∀ (args : List Bytes) (st st1 : EvalState) (rs : List Bytes),
      expandTrimmed expand args st = (.ok rs, st1) → (∀ r ∈ rs, r ≠ []) →
      funcAnd expand args st = (.ok (rs.getLast?.getD []), st1) ∧
      rs.length = args.length ∧
      st1.expanded = st.expanded ++ args.map stringsTrimSpace) := by
  constructor
  · intro pre a post st st1 st2 rs h hne ha
    refine ⟨andLoop_stop expand pre a post [] st st1 st2 rs h hne ha, ?_⟩
    rw [evalExpr_expanded_of_eq expand _ st1 st2 _ ha,
      (expandTrimmed_expanded expand pre st st1 rs h).1]
    simp
  · intro args st st1 rs h hne
    exact ⟨andLoop_all expand args [] st st1 rs h hne,
      (expandTrimmed_expanded expand args st st1 rs h).2,
      (expandTrimmed_expanded expand args st st1 rs h).1⟩

/-- Witness for C15, with texts that expand to themselves: `and("a","","c")` is empty and
`c` is not expanded; `and("a","b")` is `b`. -/
theorem funcAnd_spec_witness :
    (funcAnd (fun s vt => (.ok s, vt)) ["a".toList, "".toList, "c".toList]
        { w := [], outVars := Vars.empty, expanded := [] }).1 = .ok [] ∧
    (funcAnd (fun s vt => (.ok s, vt)) ["a".toList, "".toList, "c".toList]
        { w := [], outVars := Vars.empty, expanded := [] }).2.expanded
      = ["a".toList, "".toList] ∧
    (funcAnd (fun s vt => (.ok s, vt)) ["a".toList, "b".toList]
        { w := [], outVars := Vars.empty, expanded := [] }).1 = .ok "b".toList := by
  have h1 := (funcAnd_spec (fun s vt => (.ok s, vt))).1 ["a".toList] "".toList ["c".toList]
    { w := [], outVars := Vars.empty, expanded := [] } _ _ ["a".toList] rfl (by decide) rfl
  have h2 := (funcAnd_spec (fun s vt => (.ok s, vt))).2 ["a".toList, "b".toList]
    { w := [], outVars := Vars.empty, expanded := [] } _ ["a".toList, "b".toList] rfl
    (by decide)
  exact ⟨(congrArg Prod.fst h1.1).trans rfl,
    (congrArg (fun r => r.2.expanded) h1.1).trans rfl,
    (congrArg Prod.fst h2.1).trans rfl⟩

/-- Claim C16, as amended: `or` expands its arguments left to right, each stripped of its
surrounding white space before it is expanded, and returns the first of these expansions that
is not empty, expanding no later argument; when every stripped argument expands to the empty
string, or there is no argument, it returns the empty string. -/
theorem funcOr_spec (expand : Bytes → Vars → Except String Bytes × Vars) :
    (∀ (pre : List Bytes) (a : Bytes) (post : List Bytes) (st st1 st2 : EvalState)
        (rs : List Bytes) (r : Bytes),
      expandTrimmed expand pre st = (.ok rs, st1) → (∀ x ∈ rs, x = []) →
      evalExpr expand (stringsTrimSpace a) st1 = (.ok r, st2) → r ≠ [] →
      funcOr expand (pre ++ a :: post) st = (.ok r, st2) ∧
      st2.expanded = st.expanded ++ (pre ++ [a]).map stringsTrimSpace) ∧
    (∀ (args : List Bytes) (st st1 : EvalState) (rs : List Bytes),
      expandTrimmed expand args st = (.ok rs, st1) → (∀ x ∈ rs, x = []) →
      funcOr expand args st = (.ok [], st1) ∧
      st1.expanded = st.expanded ++ args.map stringsTrimSpace) ∧
    (∀ st : EvalState, funcOr expand [] st = (.ok [], st)) := by
  refine ⟨?_, ?_, fun st => rfl⟩
  · intro pre a post st st1 st2 rs r h he ha hr
    refine ⟨funcOr_stop expand pre a post st st1 st2 rs r h he ha hr, ?_⟩
    rw [evalExpr_expanded_of_eq expand _ st1 st2 _ ha,
      (expandTrimmed_expanded expand pre st st1 rs h).1]
    simp
  · intro args st st1 rs h he
    exact ⟨funcOr_all expand args st st1 rs h he,
      (expandTrimmed_expanded expand args st st1 rs h).1⟩

/-- Witness for C16, with texts that expand to themselves: `or("","b","c")` is `b` and `c` is
not expanded; `or("","")` is empty. -/
theorem funcOr_spec_witness :
    (funcOr (fun s vt => (.ok s, vt)) ["".toList, "b".toList, "c".toList]
        { w := [], outVars := Vars.empty, expanded := [] }).1 = .ok "b".toList ∧
    (funcOr (fun s vt => (.ok s, vt)) ["".toList, "b".toList, "c".toList]
        { w := [], outVars := Vars.empty, expanded := [] }).2.expanded
      = ["".toList, "b".toList] ∧
    (funcOr (fun s vt => (.ok s, vt)) ["".toList, "".toList]
        { w := [], outVars := Vars.empty, expanded := [] }).1 = .ok [] := by
  have h1 := (funcOr_spec (fun s vt => (.ok s, vt))).1 ["".toList] "b".toList ["c".toList]
    { w := [], outVars := Vars.empty, expanded := [] } _ _ ["".toList] "b".toList rfl
    (by decide) rfl (by decide)
  have h2 := (funcOr_spec (fun s vt => (.ok s, vt))).2.1 ["".toList, "".toList]
    { w := [], outVars := Vars.empty, expanded := [] } _ ["".toList, "".toList] rfl
    (by decide)
  exact ⟨(congrArg Prod.fst h1.1).trans rfl,
    (congrArg (fun r => r.2.expanded) h1.1).trans rfl,
    (congrArg Prod.fst h2.1).trans rfl⟩

/-! ## Call sites with too few arguments -/

/-- What `if` does on a call site with two arguments: it expands the stripped condition and
then, when that is not empty, the second argument. -/
theorem funcIf_two_arguments (expand : Bytes → Vars → Except String Bytes × Vars)
    (COND THEN : Bytes) :
    funcIf expand [COND, THEN]
      = (evalExpr expand (stringsTrimSpace COND) >>= fun cond =>
          if cond ≠ [] then evalExpr expand THEN else pure []) := by
  rw [funcIf_unfold]
  rfl

/-- Claim C18, as amended: `subst`, `patsubst`, `wordlist` and `foreach`, which assert an
arity of 3, fail on a call site with exactly 2 arguments with the diagnostic of `assertArity`,
before any argument is expanded and without writing any output; `if` takes such a call site
and expands its condition. -/
theorem arity_three_on_two_arguments (substPatternBytes : Bytes → Bytes → Bytes → Bytes)
    (expand : Bytes → Vars → Except String Bytes × Vars) (A B : Expr) (ev : Evaluator)
    (st : EvalState) :
    funcSubst.EvalM [A, B] st = (.error (arityMessage "subst" 2), st) ∧
    funcPatsubst.EvalM substPatternBytes [A, B] st = (.error (arityMessage "patsubst" 2), st) ∧
    funcWordlist.EvalM [A, B] ev st = (.error (arityMessage "wordlist" 2), st) ∧
    funcForeach.Eval [A, B] st = (.error (arityMessage "foreach" 2), st) ∧
    fwrapclosure.Eval (funcIf expand) [A, B] st
      = ((evalExpr expand (stringsTrimSpace A.text) >>= fun cond =>
            if cond ≠ [] then evalExpr expand B.text else pure []) >>= fun r =>
          EvalM.write r) st := by
  refine ⟨rfl, rfl, rfl, rfl, ?_⟩
  show (funcIf expand [A.text, B.text] >>= fun r => EvalM.write r) st = _
  rw [funcIf_two_arguments]

/-- Claim C18 as stated fails for `if`: on a call site with two arguments whose texts expand to
themselves, `if("x","THEN")` does not fail; it writes `THEN`. -/
theorem if_on_two_arguments_returns :
    (fwrapclosure.Eval (funcIf (fun s vt => (.ok s, vt))) [.lit "x", .lit "THEN"]
      { w := [], outVars := Vars.empty, expanded := [] }).1 = .ok () ∧
    (fwrapclosure.Eval (funcIf (fun s vt => (.ok s, vt))) [.lit "x", .lit "THEN"]
      { w := [], outVars := Vars.empty, expanded := [] }).2.w = "THEN".toList ∧
    (fwrapclosure.Eval (funcIf (fun s vt => (.ok s, vt))) [.lit "x", .lit "THEN"]
      { w := [], outVars := Vars.empty, expanded := [] }).2.expanded
        = ["x".toList, "THEN".toList] := by
  decide

/-! ## `shell` -/

theorem substScan_single (c d : Char) (s : Bytes) :
    substScan [c] [d] 0 s = s.map (fun x => if x = c then d else x) := by
  induction s with
  | nil => rfl
  | cons x r ih =>
    by_cases h : x = c
    · subst h
      simp only [substScan, List.isPrefixOf, beq_self_eq_true, Bool.true_and, if_true,
        List.length_singleton, Nat.sub_self, List.map_cons, List.singleton_append]
      rw [ih]
    · have hne : (c == x) = false := by simp [Ne.symm h]
      simp only [substScan, List.isPrefixOf, hne, Bool.false_and, Bool.false_eq_true, if_false,
        List.map_cons, h]
      rw [ih]

/-- With all trailing newlines gone, what is left does not end with a newline and the text is
what is left followed by newlines only. -/
theorem stringsTrimRight_newline (s : Bytes) :
    ∃ k : Nat, s = stringsTrimRight s ['\n'] ++ List.replicate k '\n' ∧
      (stringsTrimRight s ['\n']).getLast? ≠ some '\n' := by
  have hsplit := List.takeWhile_append_dropWhile (fun c => ['\n'].contains c) s.reverse
  have hall : ∀ c ∈ (s.reverse.takeWhile (fun c => ['\n'].contains c)).reverse, c = '\n' := by
    intro c hc
    have := List.mem_takeWhile_imp (List.mem_reverse.1 hc)
    simpa using this
  refine ⟨(s.reverse.takeWhile (fun c => ['\n'].contains c)).reverse.length, ?_, ?_⟩
  · rw [← List.eq_replicate_of_mem hall]
    have := congrArg List.reverse hsplit
    rw [List.reverse_append, List.reverse_reverse] at this
    exact this.symm
  · rw [stringsTrimRight, List.getLast?_reverse]
    intro h
    cases hd : s.reverse.dropWhile (fun c => ['\n'].contains c) with
    | nil => rw [hd] at h; cases h
    | cons x r =>
      rw [hd] at h
      simp only [List.head?_cons, Option.some.injEq] at h
      have := List.head_dropWhile_not (fun c => ['\n'].contains c) s.reverse (by rw [hd]; simp)
      simp only [hd, List.head_cons, h] at this
      exact absurd this (by decide)

/-- Claim C19, as amended: the text `shell` writes is the captured standard output without
all of its trailing newlines, every newline that is left being turned into a space. -/
theorem funcShell_spec (cmdOutput : Bytes → Bytes) (CMD : Value) (w : Bytes) (ev : Evaluator) :
    ∃ (body : Bytes) (k : Nat),
      cmdOutput CMD.bytes = body ++ List.replicate k '\n' ∧
      body.getLast? ≠ some '\n' ∧
      funcShell.Eval cmdOutput [CMD] w ev
        = .ok (w ++ body.map (fun c => if c = '\n' then ' ' else c)) := by
  obtain ⟨k, h1, h2⟩ := stringsTrimRight_newline (cmdOutput CMD.bytes)
  refine ⟨stringsTrimRight (cmdOutput CMD.bytes) ['\n'], k, h1, h2, ?_⟩
  have unfold : funcShell.Eval cmdOutput [CMD] w ev
      = (stringsReplace (stringsTrimRight (cmdOutput CMD.bytes) ['\n']) ['\n'] [' '] (-1)).bind
          (fun r => .ok (w ++ r)) := rfl
  rw [unfold, stringsReplace, bytesReplace_eq_substReference _ _ _ (by simp), substReference,
    substScan_single]
  rfl

/-- Claim C19 as stated fails: from the output `a` followed by two newlines `shell` writes
`a`, where discarding one trailing newline and turning the other into a space gives `a`
followed by a space. -/
theorem funcShell_drops_all_trailing_newlines :
    funcShell.Eval (fun _ => "a\n\n".toList) [.lit "printf"] [] ⟨"Makefile", 1⟩
      = .ok "a".toList ∧
    shellTextOneNewline "a\n\n".toList = "a ".toList ∧
    funcShell.Eval (fun _ => "a\n\n".toList) [.lit "printf"] [] ⟨"Makefile", 1⟩
      ≠ .ok (shellTextOneNewline "a\n\n".toList) := by
  decide

/-! ## Fatal arguments of `word` and `wordlist` -/

theorem digits_ok_iff (ds : Bytes) :
    (ds.isEmpty || !ds.all (fun ch => decide ('0' ≤ ch) && decide (ch ≤ '9'))) = false
      ↔ (ds ≠ [] ∧ ∀ ch ∈ ds, '0' ≤ ch ∧ ch ≤ '9') := by
  cases ds with
  | nil => simp
  | cons c r => simp [List.all_eq_true]

theorem atoi_core (ds : Bytes) (n : Int) :
    (if (ds.isEmpty || !ds.all (fun ch => decide ('0' ≤ ch) && decide (ch ≤ '9'))) = true
      then (none : Option Int)
      else if n < -(2 ^ 63 : Int) ∨ (2 ^ 63 : Int) - 1 < n then none else some n)
    = match (if ds ≠ [] ∧ ∀ ch ∈ ds, '0' ≤ ch ∧ ch ≤ '9' then some n else none) with
      | some n => if n < -(2 ^ 63 : Int) ∨ (2 ^ 63 : Int) - 1 < n then none else some n
      | none => none := by
  by_cases hd : (ds ≠ [] ∧ ∀ ch ∈ ds, '0' ≤ ch ∧ ch ≤ '9')
  · rw [(digits_ok_iff ds).2 hd, if_pos hd, if_neg (by decide)]
  · have : (ds.isEmpty || !ds.all (fun ch => decide ('0' ≤ ch) && decide (ch ≤ '9'))) = true := by
      cases h : (ds.isEmpty || !ds.all (fun ch => decide ('0' ≤ ch) && decide (ch ≤ '9')))
      · exact absurd ((digits_ok_iff ds).1 h) hd
      · rfl
    rw [this, if_neg hd, if_pos rfl]

/-- Go `strconv.Atoi` reads the decimal integers that fit a 64-bit `int`, and nothing else. -/
theorem strconvAtoi_eq (s : Bytes) :
    strconvAtoi s = match decimalInteger s with
      | some n => if n < -(2 ^ 63 : Int) ∨ (2 ^ 63 : Int) - 1 < n then none else some n
      | none => none := by
  cases s with
  | nil => rfl
  | cons c r =>
    by_cases hm : c = '-'
    · subst hm
      exact atoi_core r (-(decimalValue r : Int))
    · by_cases hp : c = '+'
      · subst hp
        exact atoi_core r (decimalValue r : Int)
      · have hdec : decimalInteger (c :: r)
            = if (c :: r) ≠ [] ∧ ∀ ch ∈ c :: r, '0' ≤ ch ∧ ch ≤ '9'
                then some (decimalValue (c :: r) : Int) else none := by
          unfold decimalInteger
          split
          · rename_i h; cases h; exact absurd rfl hm
          · rename_i h; cases h; exact absurd rfl hp
          · rfl
        have hatoi : strconvAtoi (c :: r)
            = (if ((c :: r).isEmpty ||
                  !(c :: r).all (fun ch => decide ('0' ≤ ch) && decide (ch ≤ '9'))) = true
                then (none : Option Int)
                else if (decimalValue (c :: r) : Int) < -(2 ^ 63 : Int) ∨
                    (2 ^ 63 : Int) - 1 < (decimalValue (c :: r) : Int) then none
                  else some (decimalValue (c :: r) : Int)) := by
          have h1 : (some c == some '-') = false := by simp [hm]
          have h2 : (some c == some '+') = false := by simp [hp]
          simp only [strconvAtoi, List.head?_cons, h1, h2, Bool.or_self, Bool.false_eq_true,
            if_false]
        rw [hatoi, hdec]
        exact atoi_core (c :: r) (decimalValue (c :: r) : Int)


/-- `numericValueForFunc` returns `n` exactly for the texts that, trimmed, are a decimal
integer `n` with `0 ≤ n < 2^63`; for every other text it is fatal. -/
theorem numericValueForFunc_cases (ev : Evaluator) (v : Value) (funcName nth : String) :
    (∃ n, decimalInteger (bytesTrimSpace v.bytes) = some n ∧ 0 ≤ n ∧ n < 2 ^ 63 ∧
      numericValueForFunc ev v funcName nth = .ok n) ∨
    ((∀ n, decimalInteger (bytesTrimSpace v.bytes) = some n → n < 0 ∨ 2 ^ 63 ≤ n) ∧
      ∃ msg, numericValueForFunc ev v funcName nth = .error msg) := by
  have hat := strconvAtoi_eq (bytesTrimSpace v.bytes)
  cases hd : decimalInteger (bytesTrimSpace v.bytes) with
  | none =>
    rw [hd] at hat
    refine Or.inr ⟨fun n h => (by cases h), ?_⟩
    simp only [numericValueForFunc, Evaluator.Value, hat]
    exact ⟨_, rfl⟩
  | some n =>
    rw [hd] at hat
    by_cases hr : n < -(2 ^ 63 : Int) ∨ (2 ^ 63 : Int) - 1 < n
    · have hat2 : strconvAtoi (bytesTrimSpace v.bytes) = none := by rw [hat]; exact if_pos hr
      refine Or.inr ⟨fun m h => ?_, ?_⟩
      · cases h
        omega
      · simp only [numericValueForFunc, Evaluator.Value, hat2]
        exact ⟨_, rfl⟩
    · have hat2 : strconvAtoi (bytesTrimSpace v.bytes) = some n := by rw [hat]; exact if_neg hr
      by_cases h0 : n < 0
      · refine Or.inr ⟨fun m h => ?_, ?_⟩
        · cases h
          exact Or.inl h0
        · simp only [numericValueForFunc, Evaluator.Value, hat2, h0, if_true]
          exact ⟨_, rfl⟩
      · refine Or.inl ⟨n, rfl, by omega, by omega, ?_⟩
        simp only [numericValueForFunc, Evaluator.Value, hat2, h0, if_false]

theorem numericValueForFuncM_apply (ev : Evaluator) (v : Expr) (funcName nth : String)
    (st : EvalState) (b : Bytes) (vt : Vars) (h : v.run st.outVars = (.ok b, vt)) :
    numericValueForFuncM ev v funcName nth st
      = (numericValueForFunc ev { text := String.mk v.text, bytes := b } funcName nth,
          { st with outVars := vt, expanded := st.expanded ++ [v.text] }) := by
  have : numericValueForFuncM ev v funcName nth
      = (evValue v >>= fun b => EvalM.ofExcept
          (numericValueForFunc ev { text := String.mk v.text, bytes := b } funcName nth)) := rfl
  rw [this, EvalM.bind_of_ok _ _ _ _ _ (evValue_of_run v st _ _ h)]
  rfl

/-- The steps of `word` on a call site with two arguments. -/
theorem funcWord_EvalM_unfold (N S : Expr) (ev : Evaluator) :
    funcWord.EvalM [N, S] ev
      = (numericValueForFuncM ev N "word" "first" >>= fun index =>
          if index = 0 then
            EvalM.ofExcept (Error ev.filename ev.lineno
              "*** first argument to \"word\" function must be greater than 0.")
          else
            evValue S >>= fun sb =>
              if index - 1 ≥ ((splitSpacesBytes sb).length : Int) then pure ()
              else EvalM.ofExcept (goIndex (splitSpacesBytes sb) (index - 1)) >>= fun t =>
                EvalM.write t) := rfl

/-- The steps of `wordlist` on a call site with three arguments, up to the expansion of the
list. -/
theorem funcWordlist_EvalM_unfold (S E L : Expr) (ev : Evaluator) :
    ∃ tail : Int → Int → EvalM Unit,
      funcWordlist.EvalM [S, E, L] ev
        = (numericValueForFuncM ev S "wordlist" "first" >>= fun si =>
            if si = 0 then
              EvalM.ofExcept (Error ev.filename ev.lineno
                ("*** invalid first argument to \"wordlist\" function: " ++ String.mk S.text))
            else
              numericValueForFuncM ev E "wordlist" "second" >>= fun ei =>
                if ei = 0 then
                  EvalM.ofExcept (Error ev.filename ev.lineno
                    ("*** invalid second argument to \"wordlist\" function: "
                      ++ String.mk E.text))
                else tail si ei) :=
  ⟨_, rfl⟩


theorem goIndex_of_lt {α : Type} (l : List α) (i : Int) (h0 : 0 ≤ i)
    (h1 : i < (l.length : Int)) : ∃ x, goIndex l i = .ok x := by
  have hlt : i.toNat < l.length := by omega
  exact ⟨l[i.toNat], by simp [goIndex, h0, List.getElem?_eq_getElem hlt]⟩

/-- What `word` does once its first argument has been expanded: it fails, before any output,
exactly when the numeric value is fatal or zero. -/
theorem funcWord_EvalM_fatal (N S : Expr) (ev : Evaluator) (st : EvalState) (nb sb : Bytes)
    (vt1 vt2 : Vars) (hN : N.run st.outVars = (.ok nb, vt1)) (hS : S.run vt1 = (.ok sb, vt2)) :
    ((∃ msg, (funcWord.EvalM [N, S] ev st).1 = .error msg) ↔
      (∀ n, decimalInteger (bytesTrimSpace nb) = some n → n ≤ 0 ∨ 2 ^ 63 ≤ n)) ∧
    ((∃ msg, (funcWord.EvalM [N, S] ev st).1 = .error msg) →
      (funcWord.EvalM [N, S] ev st).2.w = st.w) := by
  rw [funcWord_EvalM_unfold]
  have hnum := numericValueForFuncM_apply ev N "word" "first" st nb vt1 hN
  rcases numericValueForFunc_cases ev { text := String.mk N.text, bytes := nb } "word" "first"
    with ⟨n, hd, h0, hmax, hok⟩ | ⟨hbad, msg, herr⟩
  · rw [hok] at hnum
    rw [EvalM.bind_of_ok _ _ _ _ _ hnum]
    by_cases hz : n = 0
    · rw [if_pos hz]
      refine ⟨⟨fun _ m hm => ?_, fun _ => ⟨_, rfl⟩⟩, fun _ => rfl⟩
      rw [hd] at hm
      cases hm
      exact Or.inl (by omega)
    · rw [if_neg hz]
      have hS2 := evValue_of_run S
        { st with outVars := vt1, expanded := st.expanded ++ [N.text] } _ _ hS
      rw [EvalM.bind_of_ok _ _ _ _ _ hS2]
      have hnofail : ∀ r : Except String Unit × EvalState,
          r.1 = .ok () → ((∃ msg, r.1 = .error msg) ↔
            (∀ m, decimalInteger (bytesTrimSpace nb) = some m → m ≤ 0 ∨ 2 ^ 63 ≤ m)) ∧
          ((∃ msg, r.1 = .error msg) → r.2.w = st.w) := by
        intro r hr
        have hno : ¬ ∃ msg, r.1 = .error msg := by
          rintro ⟨msg, hmsg⟩
          rw [hr] at hmsg
          cases hmsg
        refine ⟨⟨fun h => absurd h hno, fun h => ?_⟩, fun h => absurd h hno⟩
        rcases h n hd with h | h <;> omega
      by_cases hlen : n - 1 ≥ ((splitSpacesBytes sb).length : Int)
      · rw [if_pos hlen]
        exact hnofail _ rfl
      · rw [if_neg hlen]
        obtain ⟨t, ht⟩ := goIndex_of_lt (splitSpacesBytes sb) (n - 1) (by omega) (by omega)
        rw [ht]
        exact hnofail _ rfl
  · rw [herr] at hnum
    rw [EvalM.bind_of_error _ _ _ _ _ hnum]
    refine ⟨⟨fun _ m hm => ?_, fun _ => ⟨_, rfl⟩⟩, fun _ => rfl⟩
    rcases hbad m hm with h | h
    · exact Or.inl (by omega)
    · exact Or.inr h

/-- A text that, trimmed, is not a positive decimal integer makes `numericValueForFunc` fatal
or zero. -/
theorem numericValueForFunc_of_not_positive (ev : Evaluator) (v : Value)
    (funcName nth : String)
    (hbad : ∀ n, decimalInteger (bytesTrimSpace v.bytes) = some n → n ≤ 0) :
    numericValueForFunc ev v funcName nth = .ok 0 ∨
      ∃ msg, numericValueForFunc ev v funcName nth = .error msg := by
  rcases numericValueForFunc_cases ev v funcName nth with ⟨n, hd, h0, _, hok⟩ | ⟨_, h⟩
  · have : n = 0 := by have := hbad n hd; omega
    subst this
    exact Or.inl hok
  · exact Or.inr h

/-- What `wordlist` does with a first or second argument that, trimmed, is not a positive
decimal integer: it fails before any output. -/
theorem funcWordlist_EvalM_fatal (S E L : Expr) (ev : Evaluator) (st : EvalState) (sb : Bytes)
    (vt1 : Vars) (hS : S.run st.outVars = (.ok sb, vt1)) :
    ((∀ n, decimalInteger (bytesTrimSpace sb) = some n → n ≤ 0) →
      (∃ msg, (funcWordlist.EvalM [S, E, L] ev st).1 = .error msg) ∧
      (funcWordlist.EvalM [S, E, L] ev st).2.w = st.w) ∧
    (∀ (eb : Bytes) (vt2 : Vars), E.run vt1 = (.ok eb, vt2) →
      (∀ n, decimalInteger (bytesTrimSpace eb) = some n → n ≤ 0) →
      (∃ msg, (funcWordlist.EvalM [S, E, L] ev st).1 = .error msg) ∧
      (funcWordlist.EvalM [S, E, L] ev st).2.w = st.w) := by
  obtain ⟨tail, hunfold⟩ := funcWordlist_EvalM_unfold S E L ev
  rw [hunfold]
  have hnum := numericValueForFuncM_apply ev S "wordlist" "first" st sb vt1 hS
  have hfirst : ∀ si, numericValueForFunc ev { text := String.mk S.text, bytes := sb }
      "wordlist" "first" = .ok si → si = 0 →
      (∃ msg, ((numericValueForFuncM ev S "wordlist" "first" >>= fun si =>
        if si = 0 then
          EvalM.ofExcept (Error ev.filename ev.lineno
            ("*** invalid first argument to \"wordlist\" function: " ++ String.mk S.text))
        else
          numericValueForFuncM ev E "wordlist" "second" >>= fun ei =>
            if ei = 0 then
              EvalM.ofExcept (Error ev.filename ev.lineno
                ("*** invalid second argument to \"wordlist\" function: "
                  ++ String.mk E.text))
            else tail si ei) st).1 = .error msg) ∧
      ((numericValueForFuncM ev S "wordlist" "first" >>= fun si =>
        if si = 0 then
          EvalM.ofExcept (Error ev.filename ev.lineno
            ("*** invalid first argument to \"wordlist\" function: " ++ String.mk S.text))
        else
          numericValueForFuncM ev E "wordlist" "second" >>= fun ei =>
            if ei = 0 then
              EvalM.ofExcept (Error ev.filename ev.lineno
                ("*** invalid second argument to \"wordlist\" function: "
                  ++ String.mk E.text))
            else tail si ei) st).2.w = st.w := by
    intro si hok hz
    rw [hok] at hnum
    rw [EvalM.bind_of_ok _ _ _ _ _ hnum, if_pos hz]
    exact ⟨⟨_, rfl⟩, rfl⟩
  have hfirstErr : ∀ msg, numericValueForFunc ev { text := String.mk S.text, bytes := sb }
      "wordlist" "first" = .error msg →
      (∃ msg, ((numericValueForFuncM ev S "wordlist" "first" >>= fun si =>
        if si = 0 then
          EvalM.ofExcept (Error ev.filename ev.lineno
            ("*** invalid first argument to \"wordlist\" function: " ++ String.mk S.text))
        else
          numericValueForFuncM ev E "wordlist" "second" >>= fun ei =>
            if ei = 0 then
              EvalM.ofExcept (Error ev.filename ev.lineno
                ("*** invalid second argument to \"wordlist\" function: "
                  ++ String.mk E.text))
            else tail si ei) st).1 = .error msg) ∧
      ((numericValueForFuncM ev S "wordlist" "first" >>= fun si =>
        if si = 0 then
          EvalM.ofExcept (Error ev.filename ev.lineno
            ("*** invalid first argument to \"wordlist\" function: " ++ String.mk S.text))
        else
          numericValueForFuncM ev E "wordlist" "second" >>= fun ei =>
            if ei = 0 then
              EvalM.ofExcept (Error ev.filename ev.lineno
                ("*** invalid second argument to \"wordlist\" function: "
                  ++ String.mk E.text))
            else tail si ei) st).2.w = st.w := by
    intro msg herr
    rw [herr] at hnum
    rw [EvalM.bind_of_error _ _ _ _ _ hnum]
    exact ⟨⟨_, rfl⟩, rfl⟩
  constructor
  · intro hbad
    rcases numericValueForFunc_of_not_positive ev { text := String.mk S.text, bytes := sb }
      "wordlist" "first" hbad with h | ⟨msg, h⟩
    · exact hfirst 0 h rfl
    · exact hfirstErr msg h
  · intro eb vt2 hE hbad
    rcases numericValueForFunc_cases ev { text := String.mk S.text, bytes := sb }
      "wordlist" "first" with ⟨si, _, _, _, hok⟩ | ⟨_, msg, herr⟩
    · by_cases hz : si = 0
      · exact hfirst si hok hz
      · rw [hok] at hnum
        rw [EvalM.bind_of_ok _ _ _ _ _ hnum, if_neg hz]
        have hnum2 := numericValueForFuncM_apply ev E "wordlist" "second"
          { st with outVars := vt1, expanded := st.expanded ++ [S.text] } eb vt2 hE
        rcases numericValueForFunc_of_not_positive ev { text := String.mk E.text, bytes := eb }
          "wordlist" "second" hbad with h | ⟨msg, h⟩
        · rw [h] at hnum2
          rw [EvalM.bind_of_ok _ _ _ _ _ hnum2, if_pos rfl]
          exact ⟨⟨_, rfl⟩, rfl⟩
        · rw [h] at hnum2
          rw [EvalM.bind_of_error _ _ _ _ _ hnum2]
          exact ⟨⟨_, rfl⟩, rfl⟩
    · exact hfirstErr msg herr


/-- Claim C20, as amended: `word(N,S)` fails fatally if and only if `N`, after trimming, is
not a decimal integer that fits a 64-bit `int`, or is an integer `≤ 0`; `wordlist(S,E,L)` fails
fatally whenever `S` or `E`, after trimming, is not a decimal integer or is an integer `≤ 0`;
in these cases nothing is written. -/
theorem word_wordlist_fatal_arguments (ev : Evaluator) (st : EvalState) :
    (∀ (N S : Expr) (nb sb : Bytes) (vt1 vt2 : Vars),
      N.run st.outVars = (.ok nb, vt1) → S.run vt1 = (.ok sb, vt2) →
      ((∃ msg, (funcWord.EvalM [N, S] ev st).1 = .error msg) ↔
        (∀ n, decimalInteger (bytesTrimSpace nb) = some n → n ≤ 0 ∨ 2 ^ 63 ≤ n)) ∧
      ((∃ msg, (funcWord.EvalM [N, S] ev st).1 = .error msg) →
        (funcWord.EvalM [N, S] ev st).2.w = st.w)) ∧
    (∀ (S E L : Expr) (sb : Bytes) (vt1 : Vars), S.run st.outVars = (.ok sb, vt1) →
      ((∀ n, decimalInteger (bytesTrimSpace sb) = some n → n ≤ 0) →
        (∃ msg, (funcWordlist.EvalM [S, E, L] ev st).1 = .error msg) ∧
        (funcWordlist.EvalM [S, E, L] ev st).2.w = st.w) ∧
      (∀ (eb : Bytes) (vt2 : Vars), E.run vt1 = (.ok eb, vt2) →
        (∀ n, decimalInteger (bytesTrimSpace eb) = some n → n ≤ 0) →
        (∃ msg, (funcWordlist.EvalM [S, E, L] ev st).1 = .error msg) ∧
        (funcWordlist.EvalM [S, E, L] ev st).2.w = st.w)) :=
  ⟨fun N S nb sb vt1 vt2 hN hS => funcWord_EvalM_fatal N S ev st nb sb vt1 vt2 hN hS,
    fun S E L sb vt1 hS => funcWordlist_EvalM_fatal S E L ev st sb vt1 hS⟩

/-- Witness for C20: `word(0,"a b")` and `wordlist(x,2,"a b")` fail and write nothing, and
`word(2,"a b")` does not fail. -/
theorem word_wordlist_fatal_arguments_witness :
    (∃ msg, (funcWord.EvalM [.lit "0", .lit "a b"] ⟨"Makefile", 1⟩
      { w := [], outVars := Vars.empty, expanded := [] }).1 = .error msg) ∧
    (¬ ∃ msg, (funcWord.EvalM [.lit "2", .lit "a b"] ⟨"Makefile", 1⟩
      { w := [], outVars := Vars.empty, expanded := [] }).1 = .error msg) ∧
    ((∃ msg, (funcWordlist.EvalM [.lit "x", .lit "2", .lit "a b"] ⟨"Makefile", 1⟩
      { w := [], outVars := Vars.empty, expanded := [] }).1 = .error msg) ∧
      (funcWordlist.EvalM [.lit "x", .lit "2", .lit "a b"] ⟨"Makefile", 1⟩
        { w := [], outVars := Vars.empty, expanded := [] }).2.w = []) := by
  have hw := (word_wordlist_fatal_arguments ⟨"Makefile", 1⟩
    { w := [], outVars := Vars.empty, expanded := [] }).1
  have hl := (word_wordlist_fatal_arguments ⟨"Makefile", 1⟩
    { w := [], outVars := Vars.empty, expanded := [] }).2
  refine ⟨?_, ?_, ?_⟩
  · refine (hw (.lit "0") (.lit "a b") "0".toList "a b".toList Vars.empty Vars.empty
      rfl rfl).1.2 (fun n h => ?_)
    have h0 : decimalInteger (bytesTrimSpace "0".toList) = some 0 := by decide
    rw [h0] at h
    cases h
    exact Or.inl (le_refl 0)
  · intro hfail
    have := (hw (.lit "2") (.lit "a b") "2".toList "a b".toList Vars.empty Vars.empty
      rfl rfl).1.1 hfail 2 (by decide)
    omega
  · refine (hl (.lit "x") (.lit "2") (.lit "a b") "x".toList Vars.empty rfl).1 (fun n h => ?_)
    have h0 : decimalInteger (bytesTrimSpace "x".toList) = none := by decide
    rw [h0] at h
    cases h

/-- Claim C20 as stated fails: `9223372036854775808` is a decimal integer greater than 0, and
`word` fails fatally on it, `strconv.Atoi` reporting a value out of range. -/
theorem funcWord_fatal_on_large_integer :
    decimalInteger (bytesTrimSpace "9223372036854775808".toList) = some 9223372036854775808 ∧
    (funcWord.EvalM [.lit "9223372036854775808", .lit "a b"] ⟨"Makefile", 1⟩
      { w := [], outVars := Vars.empty, expanded := [] }).1
      = .error ("Makefile:1: *** non-numeric first argument to \"word\" function: "
          ++ "\"9223372036854775808\".") := by
  decide

/-! ## The two readings of `Eval` agree -/

/-- `word` with explicit expansions does what `word` does on the expanded arguments. -/
theorem funcWord_EvalM_eq_Eval (N S : Expr) (ev : Evaluator) (st : EvalState) (nb sb : Bytes)
    (vt1 vt2 : Vars) (hN : N.run st.outVars = (.ok nb, vt1)) (hS : S.run vt1 = (.ok sb, vt2)) :
    match funcWord.Eval [{ text := String.mk N.text, bytes := nb },
      { text := String.mk S.text, bytes := sb }] st.w ev with
    | .ok w1 => (funcWord.EvalM [N, S] ev st).1 = .ok () ∧ (funcWord.EvalM [N, S] ev st).2.w = w1
    | .error e => (funcWord.EvalM [N, S] ev st).1 = .error e := by
  have unfold : funcWord.Eval [{ text := String.mk N.text, bytes := nb },
      { text := String.mk S.text, bytes := sb }] st.w ev =
      (numericValueForFunc ev { text := String.mk N.text, bytes := nb } "word" "first").bind
        (fun index =>
          if index = 0 then
            Error ev.filename ev.lineno
              "*** first argument to \"word\" function must be greater than 0."
          else if index - 1 ≥ ((splitSpacesBytes sb).length : Int) then .ok st.w
          else (goIndex (splitSpacesBytes sb) (index - 1)).bind (fun t => .ok (st.w ++ t))) := rfl
  rw [unfold, funcWord_EvalM_unfold]
  have hnum := numericValueForFuncM_apply ev N "word" "first" st nb vt1 hN
  cases hr : numericValueForFunc ev { text := String.mk N.text, bytes := nb } "word" "first" with
  | error e =>
    rw [hr] at hnum
    rw [EvalM.bind_of_error _ _ _ _ _ hnum]
    rfl
  | ok index =>
    rw [hr] at hnum
    rw [EvalM.bind_of_ok _ _ _ _ _ hnum]
    simp only [Except.bind]
    by_cases hz : index = 0
    · rw [if_pos hz, if_pos hz]
      rfl
    · rw [if_neg hz, if_neg hz]
      have hS2 := evValue_of_run S
        { st with outVars := vt1, expanded := st.expanded ++ [N.text] } _ _ hS
      rw [EvalM.bind_of_ok _ _ _ _ _ hS2]
      by_cases hlen : index - 1 ≥ ((splitSpacesBytes sb).length : Int)
      · rw [if_pos hlen, if_pos hlen]
        exact ⟨rfl, rfl⟩
      · rw [if_neg hlen, if_neg hlen]
        cases hg : goIndex (splitSpacesBytes sb) (index - 1) with
        | error e => rfl
        | ok t => exact ⟨rfl, rfl⟩

/-- `subst` with explicit expansions does what `subst` does on the expanded arguments. -/
theorem funcSubst_EvalM_eq_Eval (F T S : Expr) (ev : Evaluator) (st : EvalState)
    (fb tb sb : Bytes) (vt1 vt2 vt3 : Vars) (hF : F.run st.outVars = (.ok fb, vt1))
    (hT : T.run vt1 = (.ok tb, vt2)) (hS : S.run vt2 = (.ok sb, vt3)) :
    match funcSubst.Eval [{ text := String.mk F.text, bytes := fb },
      { text := String.mk T.text, bytes := tb },
      { text := String.mk S.text, bytes := sb }] st.w ev with
    | .ok w1 => (funcSubst.EvalM [F, T, S] st).1 = .ok () ∧ (funcSubst.EvalM [F, T, S] st).2.w = w1
    | .error e => (funcSubst.EvalM [F, T, S] st).1 = .error e := by
  have unfold : funcSubst.Eval [{ text := String.mk F.text, bytes := fb },
      { text := String.mk T.text, bytes := tb },
      { text := String.mk S.text, bytes := sb }] st.w ev
      = (bytesReplace sb fb tb (-1)).bind (fun r => .ok (st.w ++ r)) := rfl
  have unfoldM : funcSubst.EvalM [F, T, S]
      = (evValue F >>= fun fb => evValue T >>= fun tb => evValue S >>= fun sb =>
          EvalM.ofExcept (bytesReplace sb fb tb (-1)) >>= fun r => EvalM.write r) := rfl
  have hF2 := evValue_of_run F st _ _ hF
  have hT2 := evValue_of_run T
    { st with outVars := vt1, expanded := st.expanded ++ [F.text] } _ _ hT
  have hS2 := evValue_of_run S
    { st with outVars := vt2, expanded := st.expanded ++ [F.text] ++ [T.text] } _ _ hS
  rw [unfold, unfoldM, EvalM.bind_of_ok _ _ _ _ _ hF2, EvalM.bind_of_ok _ _ _ _ _ hT2,
    EvalM.bind_of_ok _ _ _ _ _ hS2]
  cases hr : bytesReplace sb fb tb (-1) with
  | error e => rfl
  | ok r => exact ⟨rfl, rfl⟩


/-- `wordlist` with explicit expansions does what `wordlist` does on the expanded
arguments. -/
theorem funcWordlist_EvalM_eq_Eval (S E L : Expr) (ev : Evaluator) (st : EvalState)
    (sb eb lb : Bytes) (vt1 vt2 vt3 : Vars) (hS : S.run st.outVars = (.ok sb, vt1))
    (hE : E.run vt1 = (.ok eb, vt2)) (hL : L.run vt2 = (.ok lb, vt3)) :
    match funcWordlist.Eval [{ text := String.mk S.text, bytes := sb },
      { text := String.mk E.text, bytes := eb },
      { text := String.mk L.text, bytes := lb }] st.w ev with
    | .ok w1 =>
      (funcWordlist.EvalM [S, E, L] ev st).1 = .ok () ∧
      (funcWordlist.EvalM [S, E, L] ev st).2.w = w1
    | .error e => (funcWordlist.EvalM [S, E, L] ev st).1 = .error e := by
  have unfold : funcWordlist.Eval [{ text := String.mk S.text, bytes := sb },
      { text := String.mk E.text, bytes := eb },
      { text := String.mk L.text, bytes := lb }] st.w ev =
      (numericValueForFunc ev { text := String.mk S.text, bytes := sb } "wordlist" "first").bind
        (fun si =>
          if si = 0 then
            Error ev.filename ev.lineno
              ("*** invalid first argument to \"wordlist\" function: " ++ String.mk S.text)
          else
            (numericValueForFunc ev { text := String.mk E.text, bytes := eb }
              "wordlist" "second").bind (fun ei =>
              if ei = 0 then
                Error ev.filename ev.lineno
                  ("*** invalid second argument to \"wordlist\" function: "
                    ++ String.mk E.text)
              else if si - 1 ≥ ((splitSpacesBytes lb).length : Int) then .ok st.w
              else
                (goSlice (splitSpacesBytes lb) (si - 1)
                  (if ei - 1 ≥ ((splitSpacesBytes lb).length : Int)
                    then ((splitSpacesBytes lb).length : Int) else ei)).bind
                  (fun ts => .ok (ts.foldl (fun sw t => sw.Write t)
                    ({ w := st.w, needsSpace := false } : ssvWriter)).w))) := rfl
  have unfoldM : funcWordlist.EvalM [S, E, L] ev
      = (numericValueForFuncM ev S "wordlist" "first" >>= fun si =>
          if si = 0 then
            EvalM.ofExcept (Error ev.filename ev.lineno
              ("*** invalid first argument to \"wordlist\" function: " ++ String.mk S.text))
          else
            numericValueForFuncM ev E "wordlist" "second" >>= fun ei =>
              if ei = 0 then
                EvalM.ofExcept (Error ev.filename ev.lineno
                  ("*** invalid second argument to \"wordlist\" function: "
                    ++ String.mk E.text))
              else
                evValue L >>= fun lb =>
                  if si - 1 ≥ ((splitSpacesBytes lb).length : Int) then pure ()
                  else
                    EvalM.ofExcept (goSlice (splitSpacesBytes lb) (si - 1)
                      (if ei - 1 ≥ ((splitSpacesBytes lb).length : Int)
                        then ((splitSpacesBytes lb).length : Int) else ei)) >>= fun ts =>
                      EvalM.onWriter (fun w =>
                        (ts.foldl (fun sw t => sw.Write t)
                          ({ w := w, needsSpace := false } : ssvWriter)).w)) := rfl
  rw [unfold, unfoldM]
  have hnum := numericValueForFuncM_apply ev S "wordlist" "first" st sb vt1 hS
  cases hr : numericValueForFunc ev { text := String.mk S.text, bytes := sb }
    "wordlist" "first" with
  | error e =>
    rw [hr] at hnum
    rw [EvalM.bind_of_error _ _ _ _ _ hnum]
    rfl
  | ok si =>
    rw [hr] at hnum
    rw [EvalM.bind_of_ok _ _ _ _ _ hnum]
    simp only [Except.bind]
    by_cases hz : si = 0
    · rw [if_pos hz, if_pos hz]
      rfl
    · rw [if_neg hz, if_neg hz]
      have hnum2 := numericValueForFuncM_apply ev E "wordlist" "second"
        { st with outVars := vt1, expanded := st.expanded ++ [S.text] } eb vt2 hE
      cases hr2 : numericValueForFunc ev { text := String.mk E.text, bytes := eb }
        "wordlist" "second" with
      | error e =>
        rw [hr2] at hnum2
        rw [EvalM.bind_of_error _ _ _ _ _ hnum2]
      | ok ei =>
        rw [hr2] at hnum2
        rw [EvalM.bind_of_ok _ _ _ _ _ hnum2]
        simp only
        by_cases hz2 : ei = 0
        · rw [if_pos hz2, if_pos hz2]
          rfl
        · rw [if_neg hz2, if_neg hz2]
          have hL2 := evValue_of_run L
            { st with outVars := vt2, expanded := st.expanded ++ [S.text] ++ [E.text] } _ _ hL
          rw [EvalM.bind_of_ok _ _ _ _ _ hL2]
          by_cases hlen : si - 1 ≥ ((splitSpacesBytes lb).length : Int)
          · rw [if_pos hlen, if_pos hlen]
            exact ⟨rfl, rfl⟩
          · rw [if_neg hlen, if_neg hlen]
            cases hg : goSlice (splitSpacesBytes lb) (si - 1)
              (if ei - 1 ≥ ((splitSpacesBytes lb).length : Int)
                then ((splitSpacesBytes lb).length : Int) else ei) with
            | error e => rfl
            | ok ts => exact ⟨rfl, rfl⟩

/-! ## `wordlist` with a start beyond the end -/

/-- Once its bounds have parsed to `si` and `ei ≥ 1`, `wordlist` fails in its slice
expression `toks[si-1 : ei]` when the start is within the list and more than one past the
end: no test of the code compares `si` with `ei`. -/
theorem funcWordlist_slice_fails (s e L : Value) (w : Bytes) (ev : Evaluator) (si ei : Int)
    (hs : numericValueForFunc ev s "wordlist" "first" = .ok si)
    (he : numericValueForFunc ev e "wordlist" "second" = .ok ei)
    (hei : 1 ≤ ei) (hgap : ei + 1 < si)
    (hlo : si ≤ ((splitSpacesBytes L.bytes).length : Int)) :
    funcWordlist.Eval [s, e, L] w ev = .error "runtime error: slice bounds out of range" := by
  rw [funcWordlist_eval s e L w ev si ei hs he (by omega) hei]
  have h1 : ¬ (si - 1 ≥ ((splitSpacesBytes L.bytes).length : Int)) := by omega
  have h2 : ¬ (ei - 1 ≥ ((splitSpacesBytes L.bytes).length : Int)) := by omega
  have h3 : ¬ (0 ≤ si - 1 ∧ si - 1 ≤ ei ∧ ei ≤ ((splitSpacesBytes L.bytes).length : Int)) := by
    omega
  rw [if_neg h1, if_neg h2]
  unfold goSlice
  rw [if_neg h3]
  rfl

/-- In every other case of parsed bounds `si ≥ 1` and `ei ≥ 1`, `wordlist` returns. -/
theorem funcWordlist_returns (s e L : Value) (w : Bytes) (ev : Evaluator) (si ei : Int)
    (hs : numericValueForFunc ev s "wordlist" "first" = .ok si)
    (he : numericValueForFunc ev e "wordlist" "second" = .ok ei)
    (hsi : 1 ≤ si) (hei : 1 ≤ ei)
    (h : si ≤ ei + 1 ∨ ((splitSpacesBytes L.bytes).length : Int) < si) :
    ∃ out, funcWordlist.Eval [s, e, L] w ev = .ok out := by
  rw [funcWordlist_eval s e L w ev si ei hs he hsi hei]
  by_cases h1 : si - 1 ≥ ((splitSpacesBytes L.bytes).length : Int)
  · rw [if_pos h1]
    exact ⟨w, rfl⟩
  · rw [if_neg h1]
    have h3 : 0 ≤ si - 1 ∧
        si - 1 ≤ (if ei - 1 ≥ ((splitSpacesBytes L.bytes).length : Int)
          then ((splitSpacesBytes L.bytes).length : Int) else ei) ∧
        (if ei - 1 ≥ ((splitSpacesBytes L.bytes).length : Int)
          then ((splitSpacesBytes L.bytes).length : Int) else ei) ≤
          ((splitSpacesBytes L.bytes).length : Int) := by
      split_ifs <;> omega
    unfold goSlice
    rw [if_pos h3]
    exact ⟨_, rfl⟩

/-- Claim C21, at `wordlist(3,1,"a b c")`: the start index 2 is within the three words, so
the function does not return early, the end 1 needs no clamp, and the slice `toks[2:1]` has
its low index above its high index: the evaluation stops with the run-time failure
"slice bounds out of range" instead of writing the empty output. The effectful model of
the function fails the same way, with nothing written. With the start one past the end,
`wordlist(2,1,"a b c")`, the slice is empty and the output is empty. -/
theorem funcWordlist_slice_out_of_range :
    funcWordlist.Eval [.lit "3", .lit "1", .lit "a b c"] [] ⟨"Makefile", 1⟩
      = .error "runtime error: slice bounds out of range" ∧
    (funcWordlist.EvalM [.lit "3", .lit "1", .lit "a b c"] ⟨"Makefile", 1⟩
        { w := [], outVars := Vars.empty, expanded := [] }).1
      = .error "runtime error: slice bounds out of range" ∧
    (funcWordlist.EvalM [.lit "3", .lit "1", .lit "a b c"] ⟨"Makefile", 1⟩
        { w := [], outVars := Vars.empty, expanded := [] }).2.w = [] ∧
    funcWordlist.Eval [.lit "2", .lit "1", .lit "a b c"] [] ⟨"Makefile", 1⟩ = .ok [] := by
  decide

/-! ## `word` and `wordlist` on every positive decimal integer -/

/-- What `numericValueForFunc` returns on a text that, trimmed, is the decimal integer `n`:
`n` itself when `0 ≤ n < 2^63`, and a fatal diagnostic from `2^63` on, where `strconv.Atoi`
reports a value out of range. -/
theorem numericValueForFunc_of_decimalInteger (ev : Evaluator) (v : Value)
    (funcName nth : String) (n : Int)
    (h : decimalInteger (bytesTrimSpace v.bytes) = some n) :
    (0 ≤ n → n < 2 ^ 63 → numericValueForFunc ev v funcName nth = .ok n) ∧
    (2 ^ 63 ≤ n → ∃ msg, numericValueForFunc ev v funcName nth = .error msg) := by
  rcases numericValueForFunc_cases ev v funcName nth with
    ⟨m, hm, _, h63, hok⟩ | ⟨hall, msg, herr⟩
  · rw [h] at hm
    cases hm
    exact ⟨fun _ _ => hok, fun hge => absurd h63 (by omega)⟩
  · refine ⟨fun h0 h63 => ?_, fun _ => ⟨msg, herr⟩⟩
    rcases hall n h with hlt | hge <;> omega

/-- A fatal first argument ends `word` with its diagnostic. -/
theorem funcWord_eval_fatal (N S : Value) (w : Bytes) (ev : Evaluator) (msg : String)
    (hN : numericValueForFunc ev N "word" "first" = .error msg) :
    funcWord.Eval [N, S] w ev = .error msg := by
  have unfold : funcWord.Eval [N, S] w ev =
      (numericValueForFunc ev N "word" "first").bind (fun index =>
        if index = 0 then
          Error ev.filename ev.lineno
            "*** first argument to \"word\" function must be greater than 0."
        else if index - 1 ≥ ((splitSpacesBytes S.bytes).length : Int) then .ok w
        else (goIndex (splitSpacesBytes S.bytes) (index - 1)).bind (fun t => .ok (w ++ t))) := rfl
  rw [unfold, hN]
  rfl

/-- A fatal bound ends `wordlist` with its diagnostic: the first one at once, the second one
after a first one that has parsed to `si ≥ 1`. -/
theorem funcWordlist_eval_fatal (s e L : Value) (w : Bytes) (ev : Evaluator) (msg : String) :
    (numericValueForFunc ev s "wordlist" "first" = .error msg →
      funcWordlist.Eval [s, e, L] w ev = .error msg) ∧
    (∀ si : Int, numericValueForFunc ev s "wordlist" "first" = .ok si → 1 ≤ si →
      numericValueForFunc ev e "wordlist" "second" = .error msg →
      funcWordlist.Eval [s, e, L] w ev = .error msg) := by
  have unfold : funcWordlist.Eval [s, e, L] w ev =
      (numericValueForFunc ev s "wordlist" "first").bind (fun si =>
        if si = 0 then
          Error ev.filename ev.lineno
            ("*** invalid first argument to \"wordlist\" function: " ++ s.text)
        else
          (numericValueForFunc ev e "wordlist" "second").bind (fun ei =>
            if ei = 0 then
              Error ev.filename ev.lineno
                ("*** invalid second argument to \"wordlist\" function: " ++ e.text)
            else if si - 1 ≥ ((splitSpacesBytes L.bytes).length : Int) then .ok w
            else
              (goSlice (splitSpacesBytes L.bytes) (si - 1)
                (if ei - 1 ≥ ((splitSpacesBytes L.bytes).length : Int)
                  then ((splitSpacesBytes L.bytes).length : Int) else ei)).bind
                (fun ts => .ok (ts.foldl (fun sw t => sw.Write t)
                  ({ w := w, needsSpace := false } : ssvWriter)).w))) := rfl
  constructor
  · intro hs
    rw [unfold, hs]
    rfl
  · intro si hs hsi he
    rw [unfold, hs]
    have h0 : si ≠ 0 := by omega
    simp only [Except.bind, h0, if_false, he]

/-- Claim C6, as amended: for every first argument that, trimmed, is a decimal integer
`N ≥ 1`, and a text with the words `w1..wk`: when `N < 2^63`, `word(N,S)` writes exactly `wN`
(the element of index `N - 1`) when `N ≤ k`, and writes nothing, without failing, when
`N > k`; when `N ≥ 2^63` it fails fatally. -/
theorem funcWord_decimal_spec (N S : Value) (w : Bytes) (ev : Evaluator) (n : Int)
    (hN : decimalInteger (bytesTrimSpace N.bytes) = some n) (hn : 1 ≤ n) :
    (n < 2 ^ 63 →
      (n ≤ ((splitSpacesBytes S.bytes).length : Int) →
        ∃ t, (splitSpacesBytes S.bytes)[n.toNat - 1]? = some t ∧
          funcWord.Eval [N, S] w ev = .ok (w ++ t)) ∧
      (((splitSpacesBytes S.bytes).length : Int) < n → funcWord.Eval [N, S] w ev = .ok w)) ∧
    (2 ^ 63 ≤ n → ∃ msg, funcWord.Eval [N, S] w ev = .error msg) := by
  obtain ⟨hok, hfatal⟩ := numericValueForFunc_of_decimalInteger ev N "word" "first" n hN
  constructor
  · intro h63
    exact funcWord_spec N S w ev n (hok (by omega) h63) hn
  · intro h63
    obtain ⟨msg, hmsg⟩ := hfatal h63
    exact ⟨msg, funcWord_eval_fatal N S w ev msg hmsg⟩

/-- Witness for C6: `word(2,"foo bar baz")` is `bar`, `word(10,"a b")` is empty, and
`word(9223372036854775808,"a b")` fails. -/
theorem funcWord_decimal_spec_witness :
    funcWord.Eval [.lit "2", .lit "foo bar baz"] [] ⟨"Makefile", 1⟩ = .ok "bar".toList ∧
    funcWord.Eval [.lit "10", .lit "a b"] [] ⟨"Makefile", 1⟩ = .ok [] ∧
    (∃ msg, funcWord.Eval [.lit "9223372036854775808", .lit "a b"] [] ⟨"Makefile", 1⟩
      = .error msg) := by
  refine ⟨?_, ?_, ?_⟩
  · obtain ⟨t, ht, h⟩ := ((funcWord_decimal_spec (.lit "2") (.lit "foo bar baz") []
      ⟨"Makefile", 1⟩ 2 (by decide) (by decide)).1 (by decide)).1 (by decide)
    have ht2 : some t = some "bar".toList := ht.symm.trans (by decide)
    rw [h, Option.some.inj ht2]
    rfl
  · exact ((funcWord_decimal_spec (.lit "10") (.lit "a b") [] ⟨"Makefile", 1⟩ 10
      (by decide) (by decide)).1 (by decide)).2 (by decide)
  · exact (funcWord_decimal_spec (.lit "9223372036854775808") (.lit "a b") []
      ⟨"Makefile", 1⟩ 9223372036854775808 (by decide) (by decide)).2 (by decide)

/-- Claim C6 as stated fails: `9223372036854775808` is an integer `N ≥ 1` above the two words
of `a b`, for which the claim has `word` write nothing without failing; `word` fails fatally
on it, `strconv.Atoi` reporting a value out of range. -/
theorem funcWord_fails_beyond_int_range :
    decimalInteger (bytesTrimSpace "9223372036854775808".toList) = some (2 ^ 63) ∧
    (splitSpacesBytes "a b".toList).length = 2 ∧
    funcWord.Eval [.lit "9223372036854775808", .lit "a b"] [] ⟨"Makefile", 1⟩
      = .error ("Makefile:1: *** non-numeric first argument to \"word\" function: "
          ++ "\"9223372036854775808\".") ∧
    funcWord.Eval [.lit "9223372036854775808", .lit "a b"] [] ⟨"Makefile", 1⟩ ≠ .ok [] := by
  decide

/-- Claim C7, as amended: for bounds that, trimmed, are decimal integers `1 ≤ s ≤ e`, and a
text with the words `w1..wk`: when `e < 2^63`, `wordlist(s,e,L)` writes the words
`ws..w(min(e,k))`, in order and joined by single spaces, and writes nothing when `s > k`; when
`e ≥ 2^63` it fails fatally. -/
theorem funcWordlist_decimal_spec (s e L : Value) (w : Bytes) (ev : Evaluator) (si ei : Int)
    (hs : decimalInteger (bytesTrimSpace s.bytes) = some si)
    (he : decimalInteger (bytesTrimSpace e.bytes) = some ei)
    (hsi : 1 ≤ si) (hse : si ≤ ei) :
    (ei < 2 ^ 63 →
      funcWordlist.Eval [s, e, L] w ev
          = .ok (w ++ joinSpaces
              (((splitSpacesBytes L.bytes).take
                (min ei.toNat (splitSpacesBytes L.bytes).length)).drop (si.toNat - 1))) ∧
      (((splitSpacesBytes L.bytes).length : Int) < si →
        funcWordlist.Eval [s, e, L] w ev = .ok w)) ∧
    (2 ^ 63 ≤ ei → ∃ msg, funcWordlist.Eval [s, e, L] w ev = .error msg) := by
  obtain ⟨hsok, hsfatal⟩ :=
    numericValueForFunc_of_decimalInteger ev s "wordlist" "first" si hs
  obtain ⟨heok, hefatal⟩ :=
    numericValueForFunc_of_decimalInteger ev e "wordlist" "second" ei he
  constructor
  · intro h63
    exact funcWordlist_spec s e L w ev si ei (hsok (by omega) (by omega))
      (heok (by omega) h63) hsi hse
  · intro h63
    obtain ⟨msg, hmsg⟩ := hefatal h63
    by_cases hs63 : si < 2 ^ 63
    · exact ⟨msg, (funcWordlist_eval_fatal s e L w ev msg).2 si
        (hsok (by omega) hs63) hsi hmsg⟩
    · obtain ⟨msg1, hmsg1⟩ := hsfatal (by omega)
      exact ⟨msg1, (funcWordlist_eval_fatal s e L w ev msg1).1 hmsg1⟩

/-- Witness for C7: `wordlist(2,3,"a b c d")` is `b c`, `wordlist(5,9,"a b")` is empty, and
`wordlist(1,9223372036854775808,"a b")` fails. -/
theorem funcWordlist_decimal_spec_witness :
    funcWordlist.Eval [.lit "2", .lit "3", .lit "a b c d"] [] ⟨"Makefile", 1⟩
      = .ok "b c".toList ∧
    funcWordlist.Eval [.lit "5", .lit "9", .lit "a b"] [] ⟨"Makefile", 1⟩ = .ok [] ∧
    (∃ msg, funcWordlist.Eval [.lit "1", .lit "9223372036854775808", .lit "a b"] []
      ⟨"Makefile", 1⟩ = .error msg) := by
  refine ⟨?_, ?_, ?_⟩
  · exact (((funcWordlist_decimal_spec (.lit "2") (.lit "3") (.lit "a b c d") []
      ⟨"Makefile", 1⟩ 2 3 (by decide) (by decide) (by decide) (by decide)).1
      (by decide)).1).trans (by decide)
  · exact ((funcWordlist_decimal_spec (.lit "5") (.lit "9") (.lit "a b") [] ⟨"Makefile", 1⟩ 5 9
      (by decide) (by decide) (by decide) (by decide)).1 (by decide)).2 (by decide)
  · exact (funcWordlist_decimal_spec (.lit "1") (.lit "9223372036854775808") (.lit "a b") []
      ⟨"Makefile", 1⟩ 1 9223372036854775808 (by decide) (by decide) (by decide)
      (by decide)).2 (by decide)

/-- Claim C7 as stated fails: `1 ≤ 9223372036854775808` are positive integers, for which the
claim has `wordlist(1,9223372036854775808,"a b")` write the two words `a b`; `wordlist` fails
fatally on its second bound, `strconv.Atoi` reporting a value out of range. -/
theorem funcWordlist_fails_beyond_int_range :
    decimalInteger (bytesTrimSpace "1".toList) = some 1 ∧
    decimalInteger (bytesTrimSpace "9223372036854775808".toList) = some (2 ^ 63) ∧
    joinSpaces ((splitSpacesBytes "a b".toList).take
      (min ((2 : Int) ^ 63).toNat (splitSpacesBytes "a b".toList).length)) = "a b".toList ∧
    funcWordlist.Eval [.lit "1", .lit "9223372036854775808", .lit "a b"] [] ⟨"Makefile", 1⟩
      = .error ("Makefile:1: *** non-numeric second argument to \"wordlist\" function: "
          ++ "\"9223372036854775808\".") := by
  decide

/-! ## Arguments of `if`, `and`, `or` with surrounding white space -/

/-- Claim C14 as stated fails, with texts that expand to themselves: the condition of
`if(" ","THEN","ELSE")` expands to a space, which is not empty, and `if` returns `ELSE`
without expanding `THEN`: it expands the stripped condition, the empty text. -/
theorem funcIf_strips_condition :
    (evalExpr (fun s vt => (.ok s, vt)) " ".toList
      { w := [], outVars := Vars.empty, expanded := [] }).1 = .ok " ".toList ∧
    " ".toList ≠ [] ∧
    (funcIf (fun s vt => (.ok s, vt)) [" ".toList, "THEN".toList, "ELSE".toList]
      { w := [], outVars := Vars.empty, expanded := [] }).1 = .ok "ELSE".toList ∧
    (funcIf (fun s vt => (.ok s, vt)) [" ".toList, "THEN".toList, "ELSE".toList]
      { w := [], outVars := Vars.empty, expanded := [] }).2.expanded
        = ["".toList, "ELSE".toList] := by
  decide

/-- Claim C15 as stated fails, with texts that expand to themselves: every argument of
`and(" a "," b ")` expands to a non-empty string and the result is `b`, not the expansion
` b ` of the last argument; no argument of `and("a"," ","c")` expands to the empty string and
the result is empty, `c` not being expanded. -/
theorem funcAnd_strips_arguments :
    (evalExpr (fun s vt => (.ok s, vt)) " b ".toList
      { w := [], outVars := Vars.empty, expanded := [] }).1 = .ok " b ".toList ∧
    (funcAnd (fun s vt => (.ok s, vt)) [" a ".toList, " b ".toList]
      { w := [], outVars := Vars.empty, expanded := [] }).1 = .ok "b".toList ∧
    (∀ a ∈ ["a".toList, " ".toList, "c".toList],
      (evalExpr (fun s vt => (.ok s, vt)) a
        { w := [], outVars := Vars.empty, expanded := [] }).1 ≠ .ok []) ∧
    (funcAnd (fun s vt => (.ok s, vt)) ["a".toList, " ".toList, "c".toList]
      { w := [], outVars := Vars.empty, expanded := [] }).1 = .ok [] ∧
    (funcAnd (fun s vt => (.ok s, vt)) ["a".toList, " ".toList, "c".toList]
      { w := [], outVars := Vars.empty, expanded := [] }).2.expanded
        = ["a".toList, "".toList] := by
  decide

/-- Claim C16 as stated fails, with texts that expand to themselves: the first argument of
`or(" "," b ")` expands to a space, which is not empty, and `or` goes on to the second
argument and returns `b`, which is the expansion of neither argument. -/
theorem funcOr_strips_arguments :
    (evalExpr (fun s vt => (.ok s, vt)) " ".toList
      { w := [], outVars := Vars.empty, expanded := [] }).1 = .ok " ".toList ∧
    (evalExpr (fun s vt => (.ok s, vt)) " b ".toList
      { w := [], outVars := Vars.empty, expanded := [] }).1 = .ok " b ".toList ∧
    (funcOr (fun s vt => (.ok s, vt)) [" ".toList, " b ".toList]
      { w := [], outVars := Vars.empty, expanded := [] }).1 = .ok "b".toList ∧
    (funcOr (fun s vt => (.ok s, vt)) [" ".toList, " b ".toList]
      { w := [], outVars := Vars.empty, expanded := [] }).2.expanded
        = ["".toList, "b".toList] := by
  decide

/-! ## The examples of the spec, evaluated -/

theorem example_filter :
    funcFilter.Eval [.lit "%.c %.s", .lit "foo.c bar.o baz.s"] [] ⟨"Makefile", 1⟩
      = .ok "foo.c baz.s".toList := by decide

theorem example_filterOut :
    funcFilterOut.Eval [.lit "%.c %.s", .lit "foo.c bar.o baz.s"] [] ⟨"Makefile", 1⟩
      = .ok "bar.o".toList := by decide

theorem example_sort :
    funcSort.Eval [.lit "foo bar lose foo"] [] ⟨"Makefile", 1⟩ = .ok "bar foo lose".toList := by
  decide

theorem example_word_trimmed :
    funcWord.Eval [.lit " 2 ", .lit "foo bar baz"] [] ⟨"Makefile", 1⟩ = .ok "bar".toList := by
  decide

theorem example_subst_overlapping :
    funcSubst.Eval [.lit "aa", .lit "b", .lit "aaaaa"] [] ⟨"Makefile", 1⟩ = .ok "bba".toList := by
  decide

theorem example_subst_empty_from :
    funcSubst.Eval [.lit "", .lit "-", .lit "abc"] [] ⟨"Makefile", 1⟩ = .ok "-a-b-c-".toList := by
  decide

theorem example_atoi :
    strconvAtoi "-12".toList = some (-12) ∧ strconvAtoi "9223372036854775808".toList = none ∧
    strconvAtoi "+".toList = none ∧ strconvAtoi "1_0".toList = none := by
  decide

end Kati
